import Mathlib

/-!
Verification of the core of the raymart ray tracer (src/bvh.rs, src/bbox.rs,
src/hit.rs, src/material.rs, src/ray.rs, src/v3.rs).

Machine floats (f32/f64) are idealized as exact rationals extended with the two
IEEE infinities: the type QE below has -inf, finite rationals, and +inf.  All
comparisons, min/max and the arithmetic cases that actually occur in the
modelled code paths follow IEEE semantics; the IEEE NaN-producing cases
(inf - inf, 0 * inf, ...) are mapped to an arbitrary finite value and are never
reached on the inputs of any theorem in this file.  Square roots and logarithms
do not exist on the rationals, so functions of the source that use f32::sqrt or
f32::log2 take the corresponding real function as an explicit oracle argument;
theorems pin the oracle down at the finitely many points where it is consulted.
-/

namespace Raymart

/-- Extended rationals: the value space of the idealized f32/f64 of the source
(minus NaN).  QE.ninf and QE.pinf are the two infinities. -/
inductive QE where
  | ninf : QE
  | fin (q : ℚ) : QE
  | pinf : QE
deriving DecidableEq

namespace QE

/-- IEEE total order on non-NaN floats. -/
protected def le : QE → QE → Prop
  | .ninf, _ => True
  | .fin a, .fin b => a ≤ b
  | .fin _, .pinf => True
  | .pinf, .pinf => True
  | _, _ => False

/-- Boolean version of the order, for decidability. -/
protected def ble : QE → QE → Bool
  | .ninf, _ => true
  | .fin a, .fin b => decide (a ≤ b)
  | .fin _, .pinf => true
  | .pinf, .pinf => true
  | _, _ => false

theorem le_iff_ble : ∀ a b : QE, QE.le a b ↔ QE.ble a b = true := by
  intro a b
  cases a <;> cases b <;> simp [QE.le, QE.ble]

instance : LinearOrder QE where
  le := QE.le
  lt a b := QE.le a b ∧ ¬ QE.le b a
  le_refl a := by cases a <;> simp [QE.le]
  le_trans a b c hab hbc := by
    cases a <;> cases b <;> cases c <;> simp [QE.le] at * <;> exact le_trans hab hbc
  le_antisymm a b hab hba := by
    cases a <;> cases b <;> simp [QE.le] at * <;> exact le_antisymm hab hba
  le_total a b := by
    cases a <;> cases b <;> simp [QE.le] <;> exact le_total _ _
  lt_iff_le_not_le _ _ := Iff.rfl
  decidableLE a b := decidable_of_iff (QE.ble a b = true) (le_iff_ble a b).symm

@[simp] theorem le_pinf (a : QE) : a ≤ QE.pinf := by cases a <;> trivial

@[simp] theorem ninf_le (a : QE) : QE.ninf ≤ a := by cases a <;> trivial

@[simp] theorem fin_le_fin_iff {a b : ℚ} : QE.fin a ≤ QE.fin b ↔ a ≤ b := Iff.rfl

@[simp] theorem not_pinf_le_fin (a : ℚ) : ¬ QE.pinf ≤ QE.fin a := fun h => h

@[simp] theorem not_pinf_le_ninf : ¬ QE.pinf ≤ QE.ninf := fun h => h

@[simp] theorem not_fin_le_ninf (a : ℚ) : ¬ QE.fin a ≤ QE.ninf := fun h => h

@[simp] theorem fin_lt_fin_iff {a b : ℚ} : QE.fin a < QE.fin b ↔ a < b := by
  constructor
  · intro h
    exact lt_of_le_not_le h.1 h.2
  · intro h
    exact ⟨le_of_lt h, fun hba => absurd (fin_le_fin_iff.mp hba) (not_le.mpr h)⟩

@[simp] theorem fin_lt_pinf (a : ℚ) : QE.fin a < QE.pinf :=
  ⟨le_pinf _, not_pinf_le_fin a⟩

@[simp] theorem ninf_lt_fin (a : ℚ) : QE.ninf < QE.fin a :=
  ⟨ninf_le _, not_fin_le_ninf a⟩

@[simp] theorem ninf_lt_pinf : QE.ninf < QE.pinf :=
  ⟨ninf_le _, not_pinf_le_ninf⟩

@[simp] theorem not_lt_ninf (a : QE) : ¬ a < QE.ninf := fun h => h.2 (ninf_le a)

@[simp] theorem not_pinf_lt (a : QE) : ¬ QE.pinf < a := fun h => h.2 (le_pinf a)

/-- IEEE addition (NaN cases inf + (-inf) mapped to 0; never reached here). -/
protected def add : QE → QE → QE
  | .fin a, .fin b => .fin (a + b)
  | .ninf, .pinf => .fin 0
  | .pinf, .ninf => .fin 0
  | .ninf, _ => .ninf
  | _, .ninf => .ninf
  | .pinf, _ => .pinf
  | _, .pinf => .pinf

instance : Add QE := ⟨QE.add⟩

/-- IEEE negation. -/
protected def neg : QE → QE
  | .ninf => .pinf
  | .fin a => .fin (-a)
  | .pinf => .ninf

instance : Neg QE := ⟨QE.neg⟩

/-- IEEE subtraction, as addition of the negation (exact on all non-NaN cases). -/
protected def sub (a b : QE) : QE := a + -b

instance : Sub QE := ⟨QE.sub⟩

/-- IEEE multiplication (NaN cases 0 * inf mapped to 0; never reached here). -/
protected def mul : QE → QE → QE
  | .fin a, .fin b => .fin (a * b)
  | .pinf, .fin b => if 0 < b then .pinf else if b < 0 then .ninf else .fin 0
  | .fin a, .pinf => if 0 < a then .pinf else if a < 0 then .ninf else .fin 0
  | .ninf, .fin b => if 0 < b then .ninf else if b < 0 then .pinf else .fin 0
  | .fin a, .ninf => if 0 < a then .ninf else if a < 0 then .pinf else .fin 0
  | .pinf, .pinf => .pinf
  | .pinf, .ninf => .ninf
  | .ninf, .pinf => .ninf
  | .ninf, .ninf => .pinf

instance : Mul QE := ⟨QE.mul⟩

@[simp] theorem fin_add_fin (a b : ℚ) : QE.fin a + QE.fin b = QE.fin (a + b) := rfl

@[simp] theorem neg_fin (a : ℚ) : -(QE.fin a) = QE.fin (-a) := rfl

@[simp] theorem fin_sub_fin (a b : ℚ) : QE.fin a - QE.fin b = QE.fin (a - b) := by
  show QE.fin a + -(QE.fin b) = QE.fin (a - b)
  simp [sub_eq_add_neg]

@[simp] theorem fin_mul_fin (a b : ℚ) : QE.fin a * QE.fin b = QE.fin (a * b) := rfl

@[simp] theorem pinf_sub_fin (a : ℚ) : QE.pinf - QE.fin a = QE.pinf := rfl

@[simp] theorem ninf_sub_fin (a : ℚ) : QE.ninf - QE.fin a = QE.ninf := rfl

@[simp] theorem pinf_add_fin (a : ℚ) : QE.pinf + QE.fin a = QE.pinf := rfl

@[simp] theorem ninf_add_fin (a : ℚ) : QE.ninf + QE.fin a = QE.ninf := rfl

@[simp] theorem ninf_sub_pinf : QE.ninf - QE.pinf = QE.ninf := rfl

@[simp] theorem pinf_sub_ninf : QE.pinf - QE.ninf = QE.pinf := rfl

theorem pinf_mul_fin_pos {b : ℚ} (h : 0 < b) : QE.pinf * QE.fin b = QE.pinf := by
  show QE.mul QE.pinf (QE.fin b) = QE.pinf
  simp [QE.mul, h]

theorem ninf_mul_fin_pos {b : ℚ} (h : 0 < b) : QE.ninf * QE.fin b = QE.ninf := by
  show QE.mul QE.ninf (QE.fin b) = QE.ninf
  simp [QE.mul, h]

theorem pinf_mul_fin_neg {b : ℚ} (h : b < 0) : QE.pinf * QE.fin b = QE.ninf := by
  show QE.mul QE.pinf (QE.fin b) = QE.ninf
  simp [QE.mul, h, asymm h]

theorem ninf_mul_fin_neg {b : ℚ} (h : b < 0) : QE.ninf * QE.fin b = QE.pinf := by
  show QE.mul QE.ninf (QE.fin b) = QE.pinf
  simp [QE.mul, h, asymm h]

@[simp] theorem min_fin_fin (a b : ℚ) : min (QE.fin a) (QE.fin b) = QE.fin (min a b) := by
  rcases le_total a b with h | h <;>
    simp [min_def, h, fin_le_fin_iff]

@[simp] theorem max_fin_fin (a b : ℚ) : max (QE.fin a) (QE.fin b) = QE.fin (max a b) := by
  rcases le_total a b with h | h <;>
    simp [max_def, h, fin_le_fin_iff]

@[simp] theorem min_pinf_left (a : QE) : min QE.pinf a = a := by
  cases a <;> simp [min_def]

@[simp] theorem min_pinf_right (a : QE) : min a QE.pinf = a := by
  simp [min_def]

@[simp] theorem max_ninf_left (a : QE) : max QE.ninf a = a := by
  simp [max_def]

@[simp] theorem max_ninf_right (a : QE) : max a QE.ninf = a := by
  cases a <;> simp [max_def]

end QE

/-- src/v3.rs: a 3D vector of (idealized) f32 components. -/
structure V3 where
  x : ℚ
  y : ℚ
  z : ℚ
deriving DecidableEq

/-- Points are vectors, as in the source (pub type P3 = V3). -/
abbrev P3 := V3

namespace V3

instance : Add V3 := ⟨fun a b => ⟨a.x + b.x, a.y + b.y, a.z + b.z⟩⟩

instance : Sub V3 := ⟨fun a b => ⟨a.x - b.x, a.y - b.y, a.z - b.z⟩⟩

instance : Neg V3 := ⟨fun a => ⟨-a.x, -a.y, -a.z⟩⟩

/-- Mul of f32 on V3 (componentwise scaling). -/
instance : SMul ℚ V3 := ⟨fun k a => ⟨a.x * k, a.y * k, a.z * k⟩⟩

def ORIGIN : V3 := ⟨0, 0, 0⟩

def dot (a b : V3) : ℚ := a.x * b.x + a.y * b.y + a.z * b.z

def cross (a b : V3) : V3 :=
  ⟨a.y * b.z - a.z * b.y, a.z * b.x - a.x * b.z, a.x * b.y - a.y * b.x⟩

def square_length (a : V3) : ℚ := a.dot a

def reflect (v normal : V3) : V3 := v - (2 * v.dot normal) • normal

/-- src/v3.rs unit_vector: self / self.length().  The f32 square root does not
exist on the rationals, so it is passed as an oracle argument sq; the source's
Div is mul by the reciprocal, exactly as written here. -/
def unit_vector (sq : ℚ → ℚ) (v : V3) : V3 := (1 / sq v.square_length) • v

/-- src/v3.rs refract, with the f32 square root passed as an oracle. -/
def refract (sq : ℚ → ℚ) (v normal : V3) (etai_over_etat : ℚ) : V3 :=
  let cos_theta := min (-(v.dot normal)) 1
  let r_out_perp := etai_over_etat • (v + cos_theta • normal)
  let r_out_para := (-(sq (1 - r_out_perp.square_length))) • normal
  r_out_perp + r_out_para

@[simp] theorem dot_smul_left (k : ℚ) (a b : V3) : (k • a).dot b = k * a.dot b := by
  simp only [dot]
  show a.x * k * b.x + a.y * k * b.y + a.z * k * b.z = _
  ring

@[simp] theorem dot_smul_right (k : ℚ) (a b : V3) : a.dot (k • b) = k * a.dot b := by
  simp only [dot]
  show a.x * (b.x * k) + a.y * (b.y * k) + a.z * (b.z * k) = _
  ring

theorem dot_comm (a b : V3) : a.dot b = b.dot a := by
  simp only [dot]
  ring

@[simp] theorem neg_dot (a b : V3) : (-a).dot b = -(a.dot b) := by
  show (V3.mk (-a.x) (-a.y) (-a.z)).dot b = _
  simp only [dot]
  ring

@[simp] theorem add_def (a b : V3) : a + b = ⟨a.x + b.x, a.y + b.y, a.z + b.z⟩ := rfl

@[simp] theorem sub_def (a b : V3) : a - b = ⟨a.x - b.x, a.y - b.y, a.z - b.z⟩ := rfl

@[simp] theorem neg_def (a : V3) : -a = ⟨-a.x, -a.y, -a.z⟩ := rfl

@[simp] theorem smul_def (k : ℚ) (a : V3) : k • a = ⟨a.x * k, a.y * k, a.z * k⟩ := rfl

end V3

/-- src/hit.rs Interval, with the idealized f32/f64 bound type QE so that
EMPTY (min = +inf, max = -inf) and UNIVERSE are representable. -/
@[ext]
structure Interval where
  min : QE
  max : QE
deriving DecidableEq

namespace Interval

def new (mn mx : QE) : Interval := ⟨mn, mx⟩

def EMPTY : Interval := ⟨.pinf, .ninf⟩

def UNIVERSE : Interval := ⟨.ninf, .pinf⟩

def UNIT : Interval := ⟨.fin 0, .fin 1⟩

def new_enclosing (a b : Interval) : Interval :=
  ⟨if a.min ≤ b.min then a.min else b.min,
   if b.max ≤ a.max then a.max else b.max⟩

def size (i : Interval) : QE := i.max - i.min

def contains (i : Interval) (x : ℚ) : Prop := i.min ≤ .fin x ∧ .fin x ≤ i.max

instance (i : Interval) (x : ℚ) : Decidable (i.contains x) := by
  unfold contains
  infer_instance

def surrounds (i : Interval) (x : ℚ) : Prop := i.min < .fin x ∧ .fin x < i.max

instance (i : Interval) (x : ℚ) : Decidable (i.surrounds x) := by
  unfold surrounds
  infer_instance

def expand (i : Interval) (delta : ℚ) : Interval :=
  ⟨i.min - .fin (delta / 2), i.max + .fin (delta / 2)⟩

end Interval

/-- src/ray.rs Ray.  The precomputed ro field equals orig; the precomputed
inv_dir field is the componentwise reciprocal of dir and is modelled by the
function Ray.inv_dir below (rational division by zero yields 0 instead of the
f32 infinity, so theorems about the slab test assume nonzero components). -/
structure Ray where
  orig : P3
  dir : V3
deriving DecidableEq

namespace Ray

def inv_dir (r : Ray) : V3 := ⟨1 / r.dir.x, 1 / r.dir.y, 1 / r.dir.z⟩

/-- Ray::at. -/
def at' (r : Ray) (t : ℚ) : P3 := r.orig + t • r.dir

end Ray

/-- src/bvh.rs AABBox: three axis intervals.  The duplicated SIMD min/max
caches of the source always hold exactly the interval bounds (they are set by
pad_to_minimum in every constructor), so they are modelled by the accessor
functions lowx/..../highz rather than duplicated fields; PartialEq on the
source type then agrees with equality of the three intervals. -/
structure AABBox where
  x : Interval
  y : Interval
  z : Interval
deriving DecidableEq

namespace AABBox

/-- One axis of AABBox::pad_to_minimum (delta = 0.0001). -/
def padAxis (i : Interval) : Interval :=
  if i.size < .fin (1 / 10000) then i.expand (1 / 10000) else i

/-- AABBox::pad_to_minimum as a function. -/
def pad_to_minimum (b : AABBox) : AABBox :=
  ⟨padAxis b.x, padAxis b.y, padAxis b.z⟩

/-- AABBox::new. -/
def new (x y z : Interval) : AABBox := pad_to_minimum ⟨x, y, z⟩

def EMPTY : AABBox := new Interval.EMPTY Interval.EMPTY Interval.EMPTY

def UNIVERSE : AABBox := new Interval.UNIVERSE Interval.UNIVERSE Interval.UNIVERSE

/-- AABBox::new_enclosing. -/
def new_enclosing (a b : AABBox) : AABBox :=
  pad_to_minimum
    ⟨Interval.new_enclosing a.x b.x,
     Interval.new_enclosing a.y b.y,
     Interval.new_enclosing a.z b.z⟩

/-- AABBox::new_from_points. -/
def new_from_points (a b : P3) : AABBox :=
  let p1 := if a.x ≤ b.x then (a.x, b.x) else (b.x, a.x)
  let p2 := if a.y ≤ b.y then (a.y, b.y) else (b.y, a.y)
  let p3 := if a.z ≤ b.z then (a.z, b.z) else (b.z, a.z)
  pad_to_minimum
    ⟨Interval.new (.fin p1.1) (.fin p1.2),
     Interval.new (.fin p2.1) (.fin p2.2),
     Interval.new (.fin p3.1) (.fin p3.2)⟩

/-- AABBox::axis_interval (the unreachable arm of the source is mapped to
EMPTY; callers only pass 0, 1 or 2). -/
def axis_interval (b : AABBox) (i : ℕ) : Interval :=
  match i with
  | 0 => b.x
  | 1 => b.y
  | 2 => b.z
  | _ => Interval.EMPTY

/-- AABBox::longest_axis. -/
def longest_axis (b : AABBox) : ℕ :=
  if b.y.size < b.x.size then
    if b.z.size < b.x.size then 0 else 2
  else if b.z.size < b.y.size then 1
  else 2

/-- AABBox::expand. -/
def expand (b : AABBox) (delta : ℚ) : AABBox :=
  new (b.x.expand delta) (b.y.expand delta) (b.z.expand delta)

/-- Per-axis near slab distance: fast_min of (min - ro) * inv_dir and
(max - ro) * inv_dir, as in AABBox::hit_dist / Node::hit_dist. -/
def slabT1 (bmin bmax : QE) (o invd : ℚ) : QE :=
  min ((bmin - .fin o) * .fin invd) ((bmax - .fin o) * .fin invd)

/-- Per-axis far slab distance (fast_max). -/
def slabT2 (bmin bmax : QE) (o invd : ℚ) : QE :=
  max ((bmin - .fin o) * .fin invd) ((bmax - .fin o) * .fin invd)

/-- The x1.max(y1.max(z1)) fold of the slab near distances. -/
def slab_near (b : AABBox) (r : Ray) : QE :=
  max (slabT1 b.x.min b.x.max r.orig.x r.inv_dir.x)
    (max (slabT1 b.y.min b.y.max r.orig.y r.inv_dir.y)
      (slabT1 b.z.min b.z.max r.orig.z r.inv_dir.z))

/-- The x2.min(y2.min(z2)) fold of the slab far distances. -/
def slab_far (b : AABBox) (r : Ray) : QE :=
  min (slabT2 b.x.min b.x.max r.orig.x r.inv_dir.x)
    (min (slabT2 b.y.min b.y.max r.orig.y r.inv_dir.y)
      (slabT2 b.z.min b.z.max r.orig.z r.inv_dir.z))

/-- src/bvh.rs AABBox::hit_dist (identical arithmetic to Node::hit_dist):
hit iff tfar >= tnear and tfar > 0; on hit the near distance clamped to
non-negative, on miss +infinity. -/
def hit_dist (b : AABBox) (r : Ray) (ray_t : Interval) : QE :=
  let tnear := max ray_t.min (b.slab_near r)
  let tfar := min ray_t.max (b.slab_far r)
  if tnear ≤ tfar ∧ QE.fin 0 < tfar then max tnear (.fin 0) else .pinf

/-- src/bbox.rs AABBox::hits (the boolean slab test): tnear <= tfar, with no
positivity requirement on tfar. -/
def hits (b : AABBox) (r : Ray) (ray_t : Interval) : Prop :=
  max ray_t.min (b.slab_near r) ≤ min ray_t.max (b.slab_far r)

instance (b : AABBox) (r : Ray) (ray_t : Interval) : Decidable (b.hits r ray_t) := by
  unfold hits
  infer_instance

end AABBox

/-- src/material.rs Texture, abstracted to its value method: every texture
variant of the source (solid color, checker, image, noise) is a pure function
of (u, v, p) once constructed, which is all the modelled code observes. -/
structure Texture where
  value : ℚ → ℚ → P3 → V3

/-- Texture::solid. -/
def Texture.solid (albedo : V3) : Texture := ⟨fun _ _ _ => albedo⟩

/-- src/material.rs Material (the closed variant set). -/
inductive Material where
  | lambertian (texture : Texture)
  | specular (albedo spec_albedo : V3) (smoothness prob : ℚ)
  | metal (albedo : V3) (fuzz : ℚ)
  | dielectric (ref_index : ℚ)
  | diffuseLight (texture : Texture)
  | isotropic (texture : Texture)

/-- Modelled from the spec: Color is V3 (src/color.rs); the constants
Color::BLACK and Color::WHITE referenced by src/ray.rs and src/material.rs are
not present in the snapshot; per the spec (emitted is zero for all non-emissive
variants, dielectric attenuation is white) they are the zero and unit colors. -/
def Color.BLACK : V3 := ⟨0, 0, 0⟩

/-- See Color.BLACK. -/
def Color.WHITE : V3 := ⟨1, 1, 1⟩

/-- Componentwise color product (impl Mul<V3> for V3 in src/v3.rs). -/
def cmul (a b : V3) : V3 := ⟨a.x * b.x, a.y * b.y, a.z * b.z⟩

/-- Material::color_emitted. -/
def Material.color_emitted (m : Material) (u v : ℚ) (p : P3) : V3 :=
  match m with
  | .diffuseLight texture => texture.value u v p
  | _ => Color.BLACK

/-- src/hit.rs HitRecord. -/
structure HitRecord where
  t : ℚ
  p : P3
  normal : V3
  front_face : Bool
  mat : Material
  u : ℚ
  v : ℚ

namespace HitRecord

/-- HitRecord::new. -/
def new (t : ℚ) (p : P3) (outward_normal : V3) (r : Ray) (mat : Material)
    (u v : ℚ) : HitRecord :=
  let front_face := decide (r.dir.dot outward_normal < 0)
  let normal := if front_face then outward_normal else -outward_normal
  ⟨t, p, normal, front_face, mat, u, v⟩

/-- HitRecord::set_face_normal. -/
def set_face_normal (hr : HitRecord) (r : Ray) (outward_normal : V3) : HitRecord :=
  let front_face := decide (r.dir.dot outward_normal < 0)
  { hr with
    front_face := front_face
    normal := if front_face then outward_normal else -outward_normal }

end HitRecord

/-- An abstract primitive, standing for the source's Hittable variants: a
cached bounding box plus an intersection routine.  The fields closed, cands
and mkRec describe the routine for the hypotheses of the refinement theorem:
cands lists the candidate hit distances of the primitive along a ray (the real
roots for a sphere, the plane intersection for a quad or triangle), closed
tells whether the window test of the variant is Interval::contains (Quad) or
Interval::surrounds (Sphere, Triangle), and mkRec builds the hit record
reported at a given distance. -/
structure Prim where
  bbox : AABBox
  closed : Bool
  cands : Ray → List ℚ
  mkRec : Ray → ℚ → HitRecord
  hits : Ray → Interval → Option HitRecord

/-- AABBox::new_containing over a primitive slice (each obj contributes its
cached bounding box). -/
def AABBox.new_containing (hittables : List Prim) : AABBox :=
  hittables.foldl (fun bbox obj => AABBox.new_enclosing bbox obj.bbox) AABBox.EMPTY

/-- The loop body of HittableList::hits: fold over the objects, shrinking the
far bound to the closest hit so far. -/
def listHitsGo (r : Ray) (lo : QE) : List Prim → Option HitRecord → QE → Option HitRecord
  | [], best, _ => best
  | obj :: rest, best, closest_so_far =>
    match obj.hits r (Interval.new lo closest_so_far) with
    | some obj_rec => listHitsGo r lo rest (some obj_rec) (.fin obj_rec.t)
    | none => listHitsGo r lo rest best closest_so_far

/-- src/hit.rs HittableList::hits: the brute-force linear scan. -/
def HittableList.hits (objects : List Prim) (r : Ray) (ray_t : Interval) :
    Option HitRecord :=
  listHitsGo r ray_t.min objects none ray_t.max

/-- src/bvh.rs MAX_BVH_DEPTH. -/
def MAX_BVH_DEPTH : ℕ := 16

/-- The subslice l with n elements from index start (hittables with start..start+n). -/
def slice {α : Type} (l : List α) (start n : ℕ) : List α := (l.drop start).take n

/-- The in-place subrange sort of split: sort hittables with start..start+n by
the bounding-box minimum on the chosen axis (total_cmp on non-NaN floats is
the linear order of QE). -/
def sortSlice (key : Prim → QE) (hs : List Prim) (start n : ℕ) : List Prim :=
  hs.take start
    ++ ((hs.drop start).take n).mergeSort (fun a b => decide (key a ≤ key b))
    ++ hs.drop (start + n)

/-- src/bvh.rs FatNode. -/
structure FatNode where
  bbox : AABBox
  start : ℕ
  n : Option ℕ

/-- FatNode::new. -/
def FatNode.new (bbox : AABBox) (start : ℕ) : FatNode := ⟨bbox, start, none⟩

/-- An arbitrary node used for the always-in-bounds list reads of the model. -/
def FatNode.dummy : FatNode := ⟨AABBox.EMPTY, 0, some 0⟩

/-- src/bvh.rs split: the recursive median-split constructor, with the two
vectors it mutates threaded explicitly.  The recursion terminates because
every recursive call increases depth and depth >= MAX_BVH_DEPTH forces a
leaf. -/
def split (parent_idx start n depth : ℕ) (nodes : List FatNode)
    (hittables : List Prim) : List FatNode × List Prim :=
  if h : n = 1 ∨ MAX_BVH_DEPTH ≤ depth then
    (nodes.set parent_idx
      { (nodes.getD parent_idx FatNode.dummy) with start := start, n := some n },
     hittables)
  else
    let axis := (nodes.getD parent_idx FatNode.dummy).bbox.longest_axis
    let hittables := sortSlice (fun p => (p.bbox.axis_interval axis).min) hittables start n
    let nleft := n / 2
    let nright := n - nleft
    let lbbox := AABBox.new_containing (slice hittables start nleft)
    let nodes := nodes ++ [FatNode.new lbbox start]
    let rbbox := AABBox.new_containing (slice hittables (start + nleft) nright)
    let nodes := nodes ++ [FatNode.new rbbox (start + nleft)]
    let lidx := nodes.length - 2
    let ridx := nodes.length - 1
    let nodes := nodes.set parent_idx
      { (nodes.getD parent_idx FatNode.dummy) with start := lidx }
    let res := split lidx start nleft (depth + 1) nodes hittables
    split ridx (start + nleft) nright (depth + 1) res.1 res.2
termination_by MAX_BVH_DEPTH - depth
decreasing_by
  all_goals
    simp only [MAX_BVH_DEPTH, not_or] at h ⊢
    omega

/-- src/bvh.rs Node.  The source stores only the SIMD min/max arrays of the
bounding box; those arrays are exactly the interval bounds of the box (set by
pad_to_minimum), so the node is modelled with the box itself. -/
structure Node where
  bbox : AABBox
  start : ℕ
  n : Option ℕ

/-- Node::hit_dist is textually identical to AABBox::hit_dist. -/
def Node.hit_dist (nd : Node) (r : Ray) (ray_t : Interval) : QE :=
  nd.bbox.hit_dist r ray_t

/-- An arbitrary node for the always-in-bounds list reads of the model. -/
def Node.dummy : Node := ⟨AABBox.EMPTY, 0, some 0⟩

/-- src/bvh.rs Bvh. -/
structure Bvh where
  hittables : List Prim
  nodes : List Node
  bbox : AABBox

/-- Bvh::new. -/
def Bvh.new (hittables : List Prim) : Bvh :=
  let bbox := AABBox.new_containing hittables
  let fat_nodes := [FatNode.new bbox 0]
  let res := split 0 0 hittables.length 0 fat_nodes hittables
  let nodes := res.1.map (fun nd => Node.mk nd.bbox nd.start nd.n)
  ⟨res.2, nodes, bbox⟩

/-- Outcome of one traversal: a normal return, the out-of-bounds stack write
panic of the source (index MAX_BVH_DEPTH into the [usize; MAX_BVH_DEPTH]
stack), or exhaustion of the fuel of the model (never reached on the runs any
theorem below talks about). -/
inductive TraceResult where
  | ok (hr : Option HitRecord)
  | stackOverflow
  | outOfFuel

/-- The leaf arm of the traversal loop of Bvh::hits: test every primitive in
the leaf range, shrinking ray_t.max to each accepted hit. -/
def leafScan (r : Ray) (lo : QE) :
    List Prim → Option HitRecord → QE → Option HitRecord × QE
  | [], hr, m => (hr, m)
  | leaf :: rest, hr, m =>
    match leaf.hits r (Interval.new lo m) with
    | some rec' => leafScan r lo rest (some rec') (.fin rec'.t)
    | none => leafScan r lo rest hr m

/-- One guarded push of Bvh::hits: write stack[i] only when the child's box
distance is below ray_t.max; the write panics (none) when i is out of the
fixed capacity MAX_BVH_DEPTH. -/
def pushChild (st : List ℕ × ℕ) (idx : ℕ) (dist m : QE) : Option (List ℕ × ℕ) :=
  if dist < m then
    if st.2 < MAX_BVH_DEPTH then some (st.1.set st.2 idx, st.2 + 1) else none
  else
    some st

/-- The interior arm of the traversal loop of Bvh::hits: order the two
children by box distance into (a, b) and push a first, then b. -/
def expandNode (stack : List ℕ) (i : ℕ) (node_start : ℕ) (ldist rdist m : QE) :
    Option (List ℕ × ℕ) :=
  let ab :=
    if ldist < rdist then ((node_start, ldist), (node_start + 1, rdist))
    else ((node_start + 1, rdist), (node_start, ldist))
  match pushChild (stack, i) ab.1.1 ab.1.2 m with
  | none => none
  | some st => pushChild st ab.2.1 ab.2.2 m

/-- The while loop of Bvh::hits.  The stack is the fixed [usize; 16] array,
i its occupancy counter; m is the current ray_t.max. -/
def hitsAux (bvh : Bvh) (r : Ray) (lo : QE) :
    ℕ → List ℕ → ℕ → QE → Option HitRecord → TraceResult
  | 0, _, _, _, _ => .outOfFuel
  | fuel + 1, stack, i, m, hr =>
    if i = 0 then .ok hr
    else
      let i' := i - 1
      let node := bvh.nodes.getD (stack.getD i' 0) Node.dummy
      match node.n with
      | some n =>
        let res := leafScan r lo (slice bvh.hittables node.start n) hr m
        hitsAux bvh r lo fuel stack i' res.2 res.1
      | none =>
        let left := bvh.nodes.getD node.start Node.dummy
        let right := bvh.nodes.getD (node.start + 1) Node.dummy
        let ldist := left.hit_dist r (Interval.new lo m)
        let rdist := right.hit_dist r (Interval.new lo m)
        match expandNode stack i' node.start ldist rdist m with
        | none => .stackOverflow
        | some st => hitsAux bvh r lo fuel st.1 st.2 m hr

/-- src/bvh.rs Bvh::hits.  The fuel bounds the number of loop iterations; for
every terminating run of the source loop (in particular every run over a tree
built by Bvh::new) it is ample, since no node is pushed twice. -/
def Bvh.hits (bvh : Bvh) (r : Ray) (ray_t : Interval) : TraceResult :=
  hitsAux bvh r ray_t.min (2 * bvh.nodes.length + 2)
    ((List.replicate MAX_BVH_DEPTH 0).set 0 0) 1 ray_t.max none

/-- The recursion tree of split, used by the proofs below: buildT follows the
recursion of split exactly (same sorts in the same order, same boxes, same
ranges) but materializes the nodes as a tree instead of a flat vector. -/
inductive Tree where
  | leaf (bbox : AABBox) (start n : ℕ)
  | node (bbox : AABBox) (left right : Tree)

/-- The box at the root of a tree. -/
def Tree.box : Tree → AABBox
  | .leaf b _ _ => b
  | .node b _ _ => b

/-- Mirror of split returning the recursion tree; see Tree. -/
def buildT (bbox : AABBox) (start n depth : ℕ) (hittables : List Prim) :
    Tree × List Prim :=
  if h : n = 1 ∨ MAX_BVH_DEPTH ≤ depth then
    (.leaf bbox start n, hittables)
  else
    let axis := bbox.longest_axis
    let hittables := sortSlice (fun p => (p.bbox.axis_interval axis).min) hittables start n
    let nleft := n / 2
    let nright := n - nleft
    let lbbox := AABBox.new_containing (slice hittables start nleft)
    let rbbox := AABBox.new_containing (slice hittables (start + nleft) nright)
    let resl := buildT lbbox start nleft (depth + 1) hittables
    let resr := buildT rbbox (start + nleft) nright (depth + 1) resl.2
    (.node bbox resl.1 resr.1, resr.2)
termination_by MAX_BVH_DEPTH - depth
decreasing_by
  all_goals
    simp only [MAX_BVH_DEPTH, not_or] at h ⊢
    omega

/-- src/material.rs metal_scatter.  rnd stands for the V3::random_unit_vector
draw; sq models f32::sqrt (used inside unit_vector). -/
def metal_scatter (sq : ℚ → ℚ) (albedo : V3) (fuzz : ℚ) (rnd : V3)
    (r_in : Ray) (hr : HitRecord) : Option (Ray × V3) :=
  let reflected := (r_in.dir.reflect hr.normal).unit_vector sq + fuzz • rnd
  let scattered := Ray.mk hr.p reflected
  if 0 < scattered.dir.dot hr.normal then some (scattered, albedo) else none

/-- src/material.rs reflectance (Schlick approximation). -/
def reflectance (cosine ref_index : ℚ) : ℚ :=
  let r0 := (1 - ref_index) / (1 + ref_index)
  let r0_sq := r0 * r0
  r0_sq + (1 - r0_sq) * (1 - cosine) ^ 5

/-- The index ratio chosen by dielectric_scatter from the face flag. -/
def dielectric_ri (ref_index : ℚ) (hr : HitRecord) : ℚ :=
  if hr.front_face then 1 / ref_index else ref_index

/-- The cannot_refract (total internal reflection) test of dielectric_scatter:
ri * sin_theta > 1 with sin_theta = sqrt(1 - cos_theta^2). -/
def dielectric_cannot_refract (sq : ℚ → ℚ) (ref_index : ℚ) (r_in : Ray)
    (hr : HitRecord) : Bool :=
  let ri := dielectric_ri ref_index hr
  let unit_dir := r_in.dir.unit_vector sq
  let cos_theta := min (-(unit_dir.dot hr.normal)) 1
  let sin_theta := sq (1 - cos_theta * cos_theta)
  decide (1 < ri * sin_theta)

/-- src/material.rs dielectric_scatter; u is the uniform random draw compared
against the Schlick reflectance. -/
def dielectric_scatter (sq : ℚ → ℚ) (u : ℚ) (ref_index : ℚ) (r_in : Ray)
    (hr : HitRecord) : Option (Ray × V3) :=
  let ri := dielectric_ri ref_index hr
  let unit_dir := r_in.dir.unit_vector sq
  let cos_theta := min (-(unit_dir.dot hr.normal)) 1
  let direction :=
    if dielectric_cannot_refract sq ref_index r_in hr ∨ u < reflectance cos_theta ri
    then unit_dir.reflect hr.normal
    else unit_dir.refract sq hr.normal ri
  some (Ray.mk hr.p direction, Color.WHITE)

/-- src/v3.rs near_zero. -/
def V3.near_zero (v : V3) : Bool :=
  decide (|v.x| < 1/100000000 ∧ |v.y| < 1/100000000 ∧ |v.z| < 1/100000000)

/-- src/material.rs lambertian_scatter; rnd is the random unit vector draw. -/
def lambertian_scatter (texture : Texture) (rnd : V3) (hr : HitRecord) :
    Option (Ray × V3) :=
  let sd := hr.normal + rnd
  let scatter_direction := if sd.near_zero then hr.normal else sd
  some (Ray.mk hr.p scatter_direction, texture.value hr.u hr.v hr.p)

/-- src/material.rs specular_scatter; rnd is the random unit vector draw and u
the uniform draw deciding the specular branch (prob > u). -/
def specular_scatter (albedo spec_albedo : V3) (smoothness prob : ℚ) (rnd : V3)
    (u : ℚ) (r_in : Ray) (hr : HitRecord) : Option (Ray × V3) :=
  let diffuse_dir := hr.normal + rnd
  let dc :=
    if u < prob then
      ((1 - smoothness) • diffuse_dir + smoothness • (r_in.dir.reflect hr.normal),
        spec_albedo)
    else (diffuse_dir, albedo)
  some (Ray.mk hr.p dc.1, dc.2)

/-- src/material.rs isotropic_scatter. -/
def isotropic_scatter (texture : Texture) (rnd : V3) (hr : HitRecord) :
    Option (Ray × V3) :=
  some (Ray.mk hr.p rnd, texture.value hr.u hr.v hr.p)

/-- Material::scatter, with the per-bounce random draws (rnd, u) and the f32
sqrt oracle passed explicitly.  DiffuseLight never scatters. -/
def Material.scatter (sq : ℚ → ℚ) (rnd : V3) (u : ℚ) (m : Material) (r_in : Ray)
    (hr : HitRecord) : Option (Ray × V3) :=
  match m with
  | .lambertian texture => lambertian_scatter texture rnd hr
  | .specular albedo spec_albedo smoothness prob =>
    specular_scatter albedo spec_albedo smoothness prob rnd u r_in hr
  | .metal albedo fuzz => metal_scatter sq albedo fuzz rnd r_in hr
  | .dielectric ref_index => dielectric_scatter sq u ref_index r_in hr
  | .isotropic texture => isotropic_scatter texture rnd hr
  | .diffuseLight _ => none

/-- The bounce loop of Camera::ray_color (src/ray.rs).  The BVH query at the
fixed interval (0.001, +inf) is abstracted to the function h; rngs k yields
the random draws of bounce k; fuel is the remaining bounce budget
(max_bounces counts down); incoming and rcolor are the accumulated emitted
radiance and the path throughput.  On a miss the source returns
rcolor * bg. -/
def ray_color_go (h : Ray → Option HitRecord) (sq : ℚ → ℚ) (rngs : ℕ → V3 × ℚ)
    (bg : V3) : ℕ → ℕ → Ray → V3 → V3 → V3
  | 0, _, _, incoming, _ => incoming
  | fuel + 1, k, r, incoming, rcolor =>
    match h r with
    | none => cmul rcolor bg
    | some hr =>
      let emitted := hr.mat.color_emitted hr.u hr.v hr.p
      let incoming' := incoming + cmul emitted rcolor
      match Material.scatter sq (rngs k).1 (rngs k).2 hr.mat r hr with
      | some sc =>
        let rcolor' := cmul rcolor sc.2
        if rcolor'.x + rcolor'.y + rcolor'.z < 1/10000 then incoming'
        else ray_color_go h sq rngs bg fuel (k + 1) sc.1 incoming' rcolor'
      | none => incoming'

/-- Camera::ray_color. -/
def Camera.ray_color (h : Ray → Option HitRecord) (sq : ℚ → ℚ)
    (rngs : ℕ → V3 × ℚ) (bg : V3) (max_bounces : ℕ) (r : Ray) : V3 :=
  ray_color_go h sq rngs bg max_bounces 0 r Color.BLACK Color.WHITE

/-- The bounce loop as the spec describes the miss case: terminate by ADDING
the throughput-attenuated background to the radiance accumulated so far
(everything else identical to ray_color_go). -/
def ray_color_spec_go (h : Ray → Option HitRecord) (sq : ℚ → ℚ)
    (rngs : ℕ → V3 × ℚ) (bg : V3) : ℕ → ℕ → Ray → V3 → V3 → V3
  | 0, _, _, incoming, _ => incoming
  | fuel + 1, k, r, incoming, rcolor =>
    match h r with
    | none => incoming + cmul rcolor bg
    | some hr =>
      let emitted := hr.mat.color_emitted hr.u hr.v hr.p
      let incoming' := incoming + cmul emitted rcolor
      match Material.scatter sq (rngs k).1 (rngs k).2 hr.mat r hr with
      | some sc =>
        let rcolor' := cmul rcolor sc.2
        if rcolor'.x + rcolor'.y + rcolor'.z < 1/10000 then incoming'
        else ray_color_spec_go h sq rngs bg fuel (k + 1) sc.1 incoming' rcolor'
      | none => incoming'

/-- ray_color as the spec describes it (see ray_color_spec_go). -/
def camera_ray_color_spec (h : Ray → Option HitRecord) (sq : ℚ → ℚ)
    (rngs : ℕ → V3 × ℚ) (bg : V3) (max_bounces : ℕ) (r : Ray) : V3 :=
  ray_color_spec_go h sq rngs bg max_bounces 0 r Color.BLACK Color.WHITE

@[simp] theorem black_add (v : V3) : Color.BLACK + v = v := by
  simp [Color.BLACK]

@[simp] theorem cmul_black_left (v : V3) : cmul Color.BLACK v = Color.BLACK := by
  simp [Color.BLACK, cmul]

/-- A material that scatters never emits: color_emitted is BLACK on every
variant except DiffuseLight, and DiffuseLight::scatter is None. -/
theorem scatter_some_emits_black (sq : ℚ → ℚ) (rnd : V3) (u : ℚ) (m : Material)
    (r_in : Ray) (hr : HitRecord) (sc : Ray × V3)
    (hs : Material.scatter sq rnd u m r_in hr = some sc) (uu vv : ℚ) (p : P3) :
    m.color_emitted uu vv p = Color.BLACK := by
  cases m with
  | diffuseLight texture => exact absurd hs (by simp [Material.scatter])
  | lambertian texture => rfl
  | specular albedo spec_albedo smoothness prob => rfl
  | metal albedo fuzz => rfl
  | dielectric ref_index => rfl
  | isotropic texture => rfl

theorem ray_color_go_eq_spec (h : Ray → Option HitRecord) (sq : ℚ → ℚ)
    (rngs : ℕ → V3 × ℚ) (bg : V3) :
    ∀ (fuel k : ℕ) (r : Ray) (rcolor : V3),
      ray_color_go h sq rngs bg fuel k r Color.BLACK rcolor
        = ray_color_spec_go h sq rngs bg fuel k r Color.BLACK rcolor := by
  intro fuel
  induction fuel with
  | zero => intro k r rcolor; rfl
  | succ n ih =>
    intro k r rcolor
    simp only [ray_color_go, ray_color_spec_go]
    cases hhit : h r with
    | none => exact (black_add (cmul rcolor bg)).symm
    | some hr =>
      dsimp only
      cases hsc : Material.scatter sq (rngs k).1 (rngs k).2 hr.mat r hr with
      | none => rfl
      | some sc =>
        dsimp only
        have hb : hr.mat.color_emitted hr.u hr.v hr.p = Color.BLACK :=
          scatter_some_emits_black sq (rngs k).1 (rngs k).2 hr.mat r hr sc hsc
            hr.u hr.v hr.p
        rw [hb, cmul_black_left, black_add]
        split
        · rfl
        · exact ih (k + 1) sc.1 (cmul rcolor sc.2)

/-- C4: for every world, every oracle and every camera ray, Camera::ray_color
computes exactly the function the spec describes: in particular, when the BVH
query reports a miss it terminates and returns the emitted radiance
accumulated so far plus the background color attenuated by the current path
throughput.  (In the source the miss arm literally returns rcolor * bg,
discarding incoming_light — but incoming_light is provably BLACK whenever a
miss can occur, because the only emitting material, DiffuseLight, never
scatters, so the loop ends at the bounce that collects any nonzero emission;
the returned value therefore always equals incoming_light + rcolor * bg.) -/
theorem c4_ray_color_miss_adds_background (h : Ray → Option HitRecord)
    (sq : ℚ → ℚ) (rngs : ℕ → V3 × ℚ) (bg : V3) (max_bounces : ℕ) (r : Ray) :
    Camera.ray_color h sq rngs bg max_bounces r
      = camera_ray_color_spec h sq rngs bg max_bounces r :=
  ray_color_go_eq_spec h sq rngs bg max_bounces 0 r Color.WHITE

/-- Minimum of a list of rationals, none when empty. -/
def listMin : List ℚ → Option ℚ
  | [] => none
  | c :: rest =>
    match listMin rest with
    | none => some c
    | some m => some (min c m)

/-- Merge of two optional minima. -/
def omin : Option ℚ → Option ℚ → Option ℚ
  | none, x => x
  | x, none => x
  | some a, some b => some (min a b)

@[simp] theorem omin_none_left (x : Option ℚ) : omin none x = x := by
  cases x <;> rfl

@[simp] theorem omin_none_right (x : Option ℚ) : omin x none = x := by
  cases x <;> rfl

@[simp] theorem omin_some_some (a b : ℚ) : omin (some a) (some b) = some (min a b) := rfl

theorem omin_assoc (a b c : Option ℚ) : omin (omin a b) c = omin a (omin b c) := by
  cases a <;> cases b <;> cases c <;> simp [omin, min_assoc]

theorem omin_comm (a b : Option ℚ) : omin a b = omin b a := by
  cases a <;> cases b <;> simp [omin, min_comm]

@[simp] theorem listMin_nil : listMin [] = none := rfl

theorem listMin_cons (c : ℚ) (l : List ℚ) :
    listMin (c :: l) = omin (some c) (listMin l) := by
  cases h : listMin l <;> simp [listMin, h, omin]

theorem listMin_append (l₁ l₂ : List ℚ) :
    listMin (l₁ ++ l₂) = omin (listMin l₁) (listMin l₂) := by
  induction l₁ with
  | nil => simp
  | cons c rest ih => simp [listMin_cons, ih, omin_assoc]

theorem listMin_eq_none_iff (l : List ℚ) : listMin l = none ↔ l = [] := by
  cases l with
  | nil => simp
  | cons c rest => simp [listMin_cons]; cases listMin rest <;> simp [omin]

theorem listMin_mem : ∀ (l : List ℚ) (c : ℚ), listMin l = some c → c ∈ l := by
  intro l
  induction l with
  | nil => intro c h; simp [listMin] at h
  | cons a rest ih =>
    intro c h
    rw [listMin_cons] at h
    cases hr : listMin rest with
    | none =>
      rw [hr] at h
      simp [omin] at h
      simp [h]
    | some m =>
      rw [hr] at h
      simp [omin] at h
      rcases le_total a m with hle | hle
      · rw [min_eq_left hle] at h
        simp [h]
      · rw [min_eq_right hle] at h
        exact List.mem_cons_of_mem a (ih c (h ▸ hr))

theorem listMin_le : ∀ (l : List ℚ) (c x : ℚ), listMin l = some c → x ∈ l → c ≤ x := by
  intro l
  induction l with
  | nil => intro c x _ hx; simp at hx
  | cons a rest ih =>
    intro c x h hx
    rw [listMin_cons] at h
    cases hr : listMin rest with
    | none =>
      rw [hr, omin_none_right] at h
      have hac : a = c := by simpa using h
      rw [listMin_eq_none_iff] at hr
      subst hr
      simp at hx
      rw [hx, ← hac]
    | some m =>
      rw [hr] at h
      simp only [omin_some_some, Option.some.injEq] at h
      rcases List.mem_cons.mp hx with hax | hx'
      · rw [hax, ← h]
        exact min_le_left a m
      · rw [← h]
        exact le_trans (min_le_right a m) (ih m x hr hx')

theorem listMin_eq_some_of (l : List ℚ) (c : ℚ) (hmem : c ∈ l)
    (hlb : ∀ x ∈ l, c ≤ x) : listMin l = some c := by
  cases h : listMin l with
  | none => rw [listMin_eq_none_iff] at h; subst h; simp at hmem
  | some m =>
    have h1 : m ≤ c := listMin_le l m c h hmem
    have h2 : c ≤ m := hlb m (listMin_mem l m h)
    rw [le_antisymm h1 h2]

theorem listMin_perm (l₁ l₂ : List ℚ) (hp : l₁.Perm l₂) : listMin l₁ = listMin l₂ := by
  cases h : listMin l₁ with
  | none =>
    rw [listMin_eq_none_iff] at h
    subst h
    rw [List.Perm.eq_nil hp.symm]
    rfl
  | some c =>
    exact (listMin_eq_some_of l₂ c (hp.mem_iff.mp (listMin_mem l₁ c h))
      (fun x hx => listMin_le l₁ c x h (hp.mem_iff.mpr hx))).symm

/-- The window test a primitive variant applies to a candidate distance:
Interval::contains (closed, Quad) or Interval::surrounds (strict, Sphere and
Triangle). -/
def inW (closed : Bool) (lo m : QE) (c : ℚ) : Prop :=
  if closed then lo ≤ .fin c ∧ .fin c ≤ m else lo < .fin c ∧ .fin c < m

instance (closed : Bool) (lo m : QE) (c : ℚ) : Decidable (inW closed lo m c) := by
  unfold inW
  split <;> infer_instance

/-- The candidates of a primitive that fall inside a window. -/
def wcands (p : Prim) (r : Ray) (lo m : QE) : List ℚ :=
  (p.cands r).filter (fun c => decide (inW p.closed lo m c))

/-- The intersection routine of every well-behaved primitive reports the hit
record of the smallest windowed candidate (Sphere prefers the smaller root
that lies in the interval, Triangle and Quad have one candidate), and its
records carry the distance they were built at.  These are exactly the two
facts the refinement proof uses about a primitive's hits function. -/
def PrimOk (p : Prim) (r : Ray) : Prop :=
  (∀ I : Interval, p.hits r I = (listMin (wcands p r I.min I.max)).map (p.mkRec r))
  ∧ (∀ c : ℚ, (p.mkRec r c).t = c)

/-- The cached bounding box of a primitive bounds its candidates along the
ray: every non-negative candidate lies between the box's slab entry and exit
distances, and the exit is positive.  This is the box-soundness invariant of
any BVH ("boxes contain their primitives' hits"). -/
def PrimBoxOk (p : Prim) (r : Ray) : Prop :=
  ∀ c ∈ p.cands r, 0 ≤ c →
    p.bbox.slab_near r ≤ .fin c ∧ .fin c ≤ p.bbox.slab_far r
      ∧ QE.fin 0 < p.bbox.slab_far r

/-- A finite, non-inverted interval. -/
def IntervalWf (i : Interval) : Prop :=
  (∃ a b : ℚ, i.min = .fin a ∧ i.max = .fin b) ∧ i.min ≤ i.max

/-- A finite, non-inverted box (every box of a primitive). -/
def BoxWf (b : AABBox) : Prop := IntervalWf b.x ∧ IntervalWf b.y ∧ IntervalWf b.z

/-- Componentwise box inclusion. -/
def boxSubset (b b' : AABBox) : Prop :=
  (b'.x.min ≤ b.x.min ∧ b.x.max ≤ b'.x.max)
  ∧ (b'.y.min ≤ b.y.min ∧ b.y.max ≤ b'.y.max)
  ∧ (b'.z.min ≤ b.z.min ∧ b.z.max ≤ b'.z.max)

theorem boxSubset_refl (b : AABBox) : boxSubset b b :=
  ⟨⟨le_refl _, le_refl _⟩, ⟨le_refl _, le_refl _⟩, ⟨le_refl _, le_refl _⟩⟩

theorem boxSubset_trans {a b c : AABBox} (h1 : boxSubset a b) (h2 : boxSubset b c) :
    boxSubset a c :=
  ⟨⟨le_trans h2.1.1 h1.1.1, le_trans h1.1.2 h2.1.2⟩,
   ⟨le_trans h2.2.1.1 h1.2.1.1, le_trans h1.2.1.2 h2.2.1.2⟩,
   ⟨le_trans h2.2.2.1 h1.2.2.1, le_trans h1.2.2.2 h2.2.2.2⟩⟩

theorem interval_new_enclosing_self (i : Interval) : Interval.new_enclosing i i = i := by
  refine Interval.ext ?_ ?_
  · show (if i.min ≤ i.min then i.min else i.min) = i.min
    simp
  · show (if i.max ≤ i.max then i.max else i.max) = i.max
    simp

theorem interval_new_enclosing_empty_right (i : Interval) :
    Interval.new_enclosing i Interval.EMPTY = i := by
  refine Interval.ext ?_ ?_
  · show (if i.min ≤ QE.pinf then i.min else QE.pinf) = i.min
    simp
  · show (if QE.ninf ≤ i.max then i.max else QE.ninf) = i.max
    simp

theorem interval_new_enclosing_empty_left (i : Interval) :
    Interval.new_enclosing Interval.EMPTY i = i := by
  refine Interval.ext ?_ ?_
  · show (if QE.pinf ≤ i.min then QE.pinf else i.min) = i.min
    cases h : i.min <;> simp
  · show (if i.max ≤ QE.ninf then QE.ninf else i.max) = i.max
    cases h : i.max <;> simp

theorem aabbox_empty_eq : AABBox.EMPTY = ⟨Interval.EMPTY, Interval.EMPTY, Interval.EMPTY⟩ := by
  norm_num [AABBox.EMPTY, AABBox.new, AABBox.pad_to_minimum, AABBox.padAxis,
    Interval.size, Interval.expand, Interval.EMPTY]

theorem QE.sub_fin_le (x : QE) (e : ℚ) (he : 0 ≤ e) : x - QE.fin e ≤ x := by
  cases x with
  | ninf => simp
  | pinf => simp
  | fin a =>
    rw [QE.fin_sub_fin, QE.fin_le_fin_iff]
    linarith

theorem QE.le_add_fin (x : QE) (e : ℚ) (he : 0 ≤ e) : x ≤ x + QE.fin e := by
  cases x with
  | ninf => simp
  | pinf => simp
  | fin a =>
    rw [QE.fin_add_fin, QE.fin_le_fin_iff]
    linarith

theorem padAxis_min_le (i : Interval) : (AABBox.padAxis i).min ≤ i.min := by
  unfold AABBox.padAxis
  split
  · exact QE.sub_fin_le i.min (1/10000/2) (by norm_num)
  · exact le_refl _

theorem le_padAxis_max (i : Interval) : i.max ≤ (AABBox.padAxis i).max := by
  unfold AABBox.padAxis
  split
  · exact QE.le_add_fin i.max (1/10000/2) (by norm_num)
  · exact le_refl _

theorem padAxis_wf (i : Interval) (hwf : IntervalWf i) : IntervalWf (AABBox.padAxis i) := by
  obtain ⟨⟨a, b, ha, hb⟩, hord⟩ := hwf
  unfold AABBox.padAxis
  split
  · refine ⟨⟨a - 1/10000/2, b + 1/10000/2, ?_, ?_⟩, ?_⟩
    · show i.min - QE.fin (1/10000/2) = _
      rw [ha, QE.fin_sub_fin]
    · show i.max + QE.fin (1/10000/2) = _
      rw [hb, QE.fin_add_fin]
    · show i.min - QE.fin (1/10000/2) ≤ i.max + QE.fin (1/10000/2)
      calc i.min - QE.fin (1/10000/2) ≤ i.min := QE.sub_fin_le _ _ (by norm_num)
      _ ≤ i.max := hord
      _ ≤ i.max + QE.fin (1/10000/2) := QE.le_add_fin _ _ (by norm_num)
  · exact ⟨⟨a, b, ha, hb⟩, hord⟩

theorem interval_enclosing_min_le_left (i j : Interval) :
    (Interval.new_enclosing i j).min ≤ i.min := by
  unfold Interval.new_enclosing
  dsimp only
  split
  · exact le_refl _
  · next h => exact le_of_not_le h

theorem interval_enclosing_min_le_right (i j : Interval) :
    (Interval.new_enclosing i j).min ≤ j.min := by
  unfold Interval.new_enclosing
  dsimp only
  split
  · next h => exact h
  · exact le_refl _

theorem interval_enclosing_max_ge_left (i j : Interval) :
    i.max ≤ (Interval.new_enclosing i j).max := by
  unfold Interval.new_enclosing
  dsimp only
  split
  · exact le_refl _
  · next h => exact le_of_not_le h

theorem interval_enclosing_max_ge_right (i j : Interval) :
    j.max ≤ (Interval.new_enclosing i j).max := by
  unfold Interval.new_enclosing
  dsimp only
  split
  · next h => exact h
  · exact le_refl _

theorem new_enclosing_subset_left (a b : AABBox) :
    boxSubset a (AABBox.new_enclosing a b) := by
  refine ⟨⟨?_, ?_⟩, ⟨?_, ?_⟩, ⟨?_, ?_⟩⟩ <;>
    first
      | exact le_trans (padAxis_min_le _) (interval_enclosing_min_le_left _ _)
      | exact le_trans (interval_enclosing_max_ge_left _ _) (le_padAxis_max _)

theorem new_enclosing_subset_right (a b : AABBox) :
    boxSubset b (AABBox.new_enclosing a b) := by
  refine ⟨⟨?_, ?_⟩, ⟨?_, ?_⟩, ⟨?_, ?_⟩⟩ <;>
    first
      | exact le_trans (padAxis_min_le _) (interval_enclosing_min_le_right _ _)
      | exact le_trans (interval_enclosing_max_ge_right _ _) (le_padAxis_max _)

theorem interval_enclosing_wf (i j : Interval) (hi : IntervalWf i) (hj : IntervalWf j) :
    IntervalWf (Interval.new_enclosing i j) := by
  obtain ⟨⟨a, b, ha, hb⟩, hiord⟩ := hi
  obtain ⟨⟨c, d, hc, hd⟩, _⟩ := hj
  constructor
  · refine ⟨if a ≤ c then a else c, if d ≤ b then b else d, ?_, ?_⟩
    · show (if i.min ≤ j.min then i.min else j.min) = _
      rw [ha, hc]
      by_cases h : a ≤ c <;> simp [h]
    · show (if j.max ≤ i.max then i.max else j.max) = _
      rw [hb, hd]
      by_cases h : d ≤ b <;> simp [h]
  · calc (Interval.new_enclosing i j).min ≤ i.min := interval_enclosing_min_le_left i j
    _ ≤ i.max := hiord
    _ ≤ (Interval.new_enclosing i j).max := interval_enclosing_max_ge_left i j

theorem new_enclosing_wf (a b : AABBox) (ha : BoxWf a) (hb : BoxWf b) :
    BoxWf (AABBox.new_enclosing a b) :=
  ⟨padAxis_wf _ (interval_enclosing_wf _ _ ha.1 hb.1),
   padAxis_wf _ (interval_enclosing_wf _ _ ha.2.1 hb.2.1),
   padAxis_wf _ (interval_enclosing_wf _ _ ha.2.2 hb.2.2)⟩

theorem interval_enclosing_empty_left_wf (j : Interval) (hj : IntervalWf j) :
    IntervalWf (Interval.new_enclosing Interval.EMPTY j) := by
  rw [interval_new_enclosing_empty_left]
  exact hj

theorem new_enclosing_empty_left_wf (b : AABBox) (hb : BoxWf b) :
    BoxWf (AABBox.new_enclosing AABBox.EMPTY b) := by
  unfold AABBox.new_enclosing
  rw [aabbox_empty_eq]
  exact ⟨padAxis_wf _ (interval_enclosing_empty_left_wf _ hb.1),
    padAxis_wf _ (interval_enclosing_empty_left_wf _ hb.2.1),
    padAxis_wf _ (interval_enclosing_empty_left_wf _ hb.2.2)⟩

theorem foldl_encl_mono (l : List Prim) :
    ∀ (acc : AABBox) (X : AABBox), boxSubset X acc →
      boxSubset X (l.foldl (fun bbox obj => AABBox.new_enclosing bbox obj.bbox) acc) := by
  induction l with
  | nil => intro acc X h; exact h
  | cons p rest ih =>
    intro acc X h
    exact ih _ X (boxSubset_trans h (new_enclosing_subset_left acc p.bbox))

theorem foldl_encl_wf (l : List Prim) (hl : ∀ p ∈ l, BoxWf p.bbox) :
    ∀ (acc : AABBox), BoxWf acc →
      BoxWf (l.foldl (fun bbox obj => AABBox.new_enclosing bbox obj.bbox) acc) := by
  induction l with
  | nil => intro acc h; exact h
  | cons p rest ih =>
    intro acc h
    exact ih (fun q hq => hl q (List.mem_cons_of_mem p hq)) _
      (new_enclosing_wf acc p.bbox h (hl p (List.mem_cons_self p rest)))

theorem foldl_encl_mem (l : List Prim) (p : Prim) (hp : p ∈ l) :
    ∀ acc : AABBox,
      boxSubset p.bbox (l.foldl (fun bbox obj => AABBox.new_enclosing bbox obj.bbox) acc) := by
  induction l with
  | nil => simp at hp
  | cons q rest ih =>
    intro acc
    rcases List.mem_cons.mp hp with hq | hrest
    · show boxSubset p.bbox (rest.foldl _ (AABBox.new_enclosing acc q.bbox))
      rw [hq]
      exact foldl_encl_mono rest _ _ (new_enclosing_subset_right acc q.bbox)
    · exact ih hrest _

theorem new_containing_superset (l : List Prim) (p : Prim) (hp : p ∈ l) :
    boxSubset p.bbox (AABBox.new_containing l) :=
  foldl_encl_mem l p hp AABBox.EMPTY

theorem new_containing_wf (l : List Prim) (hne : l ≠ [])
    (hl : ∀ p ∈ l, BoxWf p.bbox) : BoxWf (AABBox.new_containing l) := by
  unfold AABBox.new_containing
  cases l with
  | nil => exact absurd rfl hne
  | cons p rest =>
    show BoxWf (rest.foldl _ (AABBox.new_enclosing AABBox.EMPTY p.bbox))
    exact foldl_encl_wf rest (fun q hq => hl q (List.mem_cons_of_mem p hq)) _
      (new_enclosing_empty_left_wf p.bbox (hl p (List.mem_cons_self p rest)))

theorem slabT1_mono (a₁ b₁ a₂ b₂ o w : ℚ) (hw : w ≠ 0) (h1 : a₂ ≤ a₁)
    (h2 : b₁ ≤ b₂) (hord : a₁ ≤ b₁) :
    AABBox.slabT1 (.fin a₂) (.fin b₂) o w ≤ AABBox.slabT1 (.fin a₁) (.fin b₁) o w := by
  unfold AABBox.slabT1
  simp only [QE.fin_sub_fin, QE.fin_mul_fin, QE.min_fin_fin, QE.fin_le_fin_iff]
  rcases hw.lt_or_lt with hneg | hpos
  · apply le_min
    · exact le_trans (min_le_right _ _) (by nlinarith)
    · exact le_trans (min_le_right _ _) (by nlinarith)
  · apply le_min
    · exact le_trans (min_le_left _ _) (by nlinarith)
    · exact le_trans (min_le_left _ _) (by nlinarith)

theorem slabT2_mono (a₁ b₁ a₂ b₂ o w : ℚ) (hw : w ≠ 0) (h1 : a₂ ≤ a₁)
    (h2 : b₁ ≤ b₂) (hord : a₁ ≤ b₁) :
    AABBox.slabT2 (.fin a₁) (.fin b₁) o w ≤ AABBox.slabT2 (.fin a₂) (.fin b₂) o w := by
  unfold AABBox.slabT2
  simp only [QE.fin_sub_fin, QE.fin_mul_fin, QE.max_fin_fin, QE.fin_le_fin_iff]
  rcases hw.lt_or_lt with hneg | hpos
  · apply max_le
    · exact le_trans (by nlinarith) (le_max_left _ _)
    · exact le_trans (by nlinarith) (le_max_left _ _)
  · apply max_le
    · exact le_trans (by nlinarith) (le_max_right _ _)
    · exact le_trans (by nlinarith) (le_max_right _ _)

/-- Directions with no zero component, so that the reciprocal-direction model
matches the f32 one (no infinities in inv_dir). -/
def DirOk (r : Ray) : Prop := r.dir.x ≠ 0 ∧ r.dir.y ≠ 0 ∧ r.dir.z ≠ 0

theorem slab_near_mono (b b' : AABBox) (r : Ray) (hsub : boxSubset b b')
    (hwb : BoxWf b) (hwb' : BoxWf b') (hdir : DirOk r) :
    b'.slab_near r ≤ b.slab_near r := by
  obtain ⟨⟨⟨xa, xb, hxa, hxb⟩, hxord⟩, ⟨⟨ya, yb, hya, hyb⟩, hyord⟩,
    ⟨⟨za, zb, hza, hzb⟩, hzord⟩⟩ := hwb
  obtain ⟨⟨⟨xa', xb', hxa', hxb'⟩, _⟩, ⟨⟨ya', yb', hya', hyb'⟩, _⟩,
    ⟨⟨za', zb', hza', hzb'⟩, _⟩⟩ := hwb'
  obtain ⟨⟨hx1, hx2⟩, ⟨hy1, hy2⟩, ⟨hz1, hz2⟩⟩ := hsub
  obtain ⟨hdx, hdy, hdz⟩ := hdir
  unfold AABBox.slab_near
  simp only [hxa, hxb, hya, hyb, hza, hzb, hxa', hxb', hya', hyb', hza', hzb',
    QE.fin_le_fin_iff] at hx1 hx2 hy1 hy2 hz1 hz2 hxord hyord hzord ⊢
  exact max_le_max
    (slabT1_mono xa xb xa' xb' r.orig.x r.inv_dir.x (one_div_ne_zero hdx)
      hx1 hx2 hxord)
    (max_le_max
      (slabT1_mono ya yb ya' yb' r.orig.y r.inv_dir.y (one_div_ne_zero hdy)
        hy1 hy2 hyord)
      (slabT1_mono za zb za' zb' r.orig.z r.inv_dir.z (one_div_ne_zero hdz)
        hz1 hz2 hzord))

theorem slab_far_mono (b b' : AABBox) (r : Ray) (hsub : boxSubset b b')
    (hwb : BoxWf b) (hwb' : BoxWf b') (hdir : DirOk r) :
    b.slab_far r ≤ b'.slab_far r := by
  obtain ⟨⟨⟨xa, xb, hxa, hxb⟩, hxord⟩, ⟨⟨ya, yb, hya, hyb⟩, hyord⟩,
    ⟨⟨za, zb, hza, hzb⟩, hzord⟩⟩ := hwb
  obtain ⟨⟨⟨xa', xb', hxa', hxb'⟩, _⟩, ⟨⟨ya', yb', hya', hyb'⟩, _⟩,
    ⟨⟨za', zb', hza', hzb'⟩, _⟩⟩ := hwb'
  obtain ⟨⟨hx1, hx2⟩, ⟨hy1, hy2⟩, ⟨hz1, hz2⟩⟩ := hsub
  obtain ⟨hdx, hdy, hdz⟩ := hdir
  unfold AABBox.slab_far
  simp only [hxa, hxb, hya, hyb, hza, hzb, hxa', hxb', hya', hyb', hza', hzb',
    QE.fin_le_fin_iff] at hx1 hx2 hy1 hy2 hz1 hz2 hxord hyord hzord ⊢
  exact min_le_min
    (slabT2_mono xa xb xa' xb' r.orig.x r.inv_dir.x (one_div_ne_zero hdx)
      hx1 hx2 hxord)
    (min_le_min
      (slabT2_mono ya yb ya' yb' r.orig.y r.inv_dir.y (one_div_ne_zero hdy)
        hy1 hy2 hyord)
      (slabT2_mono za zb za' zb' r.orig.z r.inv_dir.z (one_div_ne_zero hdz)
        hz1 hz2 hzord))

/-- The pruning-soundness core: a box whose slab window brackets a candidate
distance c (with positive exit) is hit at distance at most c whenever the
query interval admits c. -/
theorem hit_dist_le_of_between (b : AABBox) (r : Ray) (lo m : QE) (c : ℚ)
    (hc0 : 0 ≤ c) (hnear : b.slab_near r ≤ .fin c) (hfar : QE.fin c ≤ b.slab_far r)
    (hfpos : QE.fin 0 < b.slab_far r) (hlo : lo ≤ .fin c) (hcm : QE.fin c < m) :
    b.hit_dist r (Interval.new lo m) ≤ .fin c
      ∧ b.hit_dist r (Interval.new lo m) < m := by
  have htnear : max lo (b.slab_near r) ≤ QE.fin c := max_le hlo hnear
  have htfar : QE.fin c ≤ min m (b.slab_far r) := le_min (le_of_lt hcm) hfar
  have hcond : max lo (b.slab_near r) ≤ min m (b.slab_far r) := le_trans htnear htfar
  have hpos : QE.fin 0 < min m (b.slab_far r) :=
    lt_min (lt_of_le_of_lt (by exact QE.fin_le_fin_iff.mpr hc0) hcm) hfpos
  have hdist : b.hit_dist r (Interval.new lo m) = max (max lo (b.slab_near r)) (.fin 0) := by
    unfold AABBox.hit_dist
    exact if_pos ⟨hcond, hpos⟩
  constructor
  · rw [hdist]
    exact max_le htnear (QE.fin_le_fin_iff.mpr hc0)
  · rw [hdist]
    exact lt_of_le_of_lt (max_le htnear (QE.fin_le_fin_iff.mpr hc0)) hcm

@[simp] theorem interval_new_min (a b : QE) : (Interval.new a b).min = a := rfl

@[simp] theorem interval_new_max (a b : QE) : (Interval.new a b).max = b := rfl

theorem mem_wcands (p : Prim) (r : Ray) (lo m : QE) (c : ℚ) :
    c ∈ wcands p r lo m ↔ c ∈ p.cands r ∧ inW p.closed lo m c := by
  unfold wcands
  rw [List.mem_filter]
  simp

theorem inW_le_max {closed : Bool} {lo m : QE} {c : ℚ} (h : inW closed lo m c) :
    QE.fin c ≤ m := by
  unfold inW at h
  split at h
  · exact h.2
  · exact le_of_lt h.2

theorem inW_le_lo {closed : Bool} {lo m : QE} {c : ℚ} (h : inW closed lo m c) :
    lo ≤ QE.fin c := by
  unfold inW at h
  split at h
  · exact h.1
  · exact le_of_lt h.1

theorem inW_shrink {closed : Bool} {lo M m' : QE} {c : ℚ} (h : inW closed lo M c)
    (hlt : QE.fin c < m') : inW closed lo m' c := by
  unfold inW at *
  split at h
  · next hc => rw [if_pos hc]; exact ⟨h.1, le_of_lt hlt⟩
  · next hc => rw [if_neg hc]; exact ⟨h.1, hlt⟩

theorem inW_mono {closed : Bool} {lo m m' : QE} {c : ℚ} (h : inW closed lo m' c)
    (hmm : m' ≤ m) : inW closed lo m c := by
  unfold inW at *
  split at h
  · next hc => rw [if_pos hc]; exact ⟨h.1, le_trans h.2 hmm⟩
  · next hc => rw [if_neg hc]; exact ⟨h.1, lt_of_lt_of_le h.2 hmm⟩

/-- The link the traversal maintains between the current best record and the
current ray_t.max: max is either still the original bound (no hit yet) or the
distance of the current best hit, which never exceeds the original bound. -/
def bmLink (M₀ : QE) (best : Option HitRecord) (m : QE) : Prop :=
  match best with
  | none => m = M₀
  | some b => m = .fin b.t ∧ QE.fin b.t ≤ M₀

/-- The one-primitive step of both the linear scan and the leaf scan: testing
a primitive against the current window (lo, m) and updating the best record
and m computes exactly the min-merge of the previous best with the
primitive's windowed candidates in the ORIGINAL window (lo, M₀). -/
theorem prim_step (p : Prim) (r : Ray) (lo M₀ : QE) (best : Option HitRecord)
    (m : QE) (hok : PrimOk p r) (hlink : bmLink M₀ best m) :
    bmLink M₀
      (match p.hits r (Interval.new lo m) with
        | some rec' => some rec'
        | none => best)
      (match p.hits r (Interval.new lo m) with
        | some rec' => QE.fin rec'.t
        | none => m)
    ∧ (match p.hits r (Interval.new lo m) with
        | some rec' => some rec'
        | none => best).map (fun hrec : HitRecord => hrec.t)
      = omin (best.map (fun hrec : HitRecord => hrec.t)) (listMin (wcands p r lo M₀)) := by
  have hhits := hok.1 (Interval.new lo m)
  simp only [interval_new_min, interval_new_max] at hhits
  have ht := hok.2
  cases best with
  | none =>
    have hm : m = M₀ := hlink
    subst hm
    cases hv : listMin (wcands p r lo m) with
    | none =>
      rw [hhits, hv]
      simp [bmLink, hv]
    | some c =>
      rw [hhits, hv]
      have hcw := listMin_mem _ _ hv
      have hcm := inW_le_max ((mem_wcands p r lo m c).mp hcw).2
      simp [bmLink, ht c, hcm, hv]
  | some b =>
    obtain ⟨hm, hbM⟩ := hlink
    subst hm
    cases hv : listMin (wcands p r lo M₀) with
    | none =>
      have hsub : wcands p r lo (QE.fin b.t) = [] := by
        rw [listMin_eq_none_iff] at hv
        by_contra hne
        obtain ⟨c, hc⟩ := List.exists_mem_of_ne_nil _ hne
        have := (mem_wcands p r lo (QE.fin b.t) c).mp hc
        have : c ∈ wcands p r lo M₀ :=
          (mem_wcands p r lo M₀ c).mpr ⟨this.1, inW_mono this.2 hbM⟩
        rw [hv] at this
        simp at this
      rw [hhits, hsub]
      simp [bmLink, hbM]
    | some c =>
      have hcw := (mem_wcands p r lo M₀ c).mp (listMin_mem _ _ hv)
      by_cases hlt : c < b.t
      · have hcsub : c ∈ wcands p r lo (QE.fin b.t) :=
          (mem_wcands p r lo (QE.fin b.t) c).mpr
            ⟨hcw.1, inW_shrink hcw.2 (QE.fin_lt_fin_iff.mpr hlt)⟩
        have hw : listMin (wcands p r lo (QE.fin b.t)) = some c := by
          apply listMin_eq_some_of _ _ hcsub
          intro x hx
          have hxw := (mem_wcands p r lo (QE.fin b.t) x).mp hx
          exact listMin_le _ _ _ hv
            ((mem_wcands p r lo M₀ x).mpr ⟨hxw.1, inW_mono hxw.2 hbM⟩)
        rw [hhits, hw]
        have hcM : QE.fin c ≤ M₀ := inW_le_max hcw.2
        simp [bmLink, ht c, hcM, min_eq_right (le_of_lt hlt)]
      · have hble : b.t ≤ c := le_of_not_lt hlt
        cases hw : listMin (wcands p r lo (QE.fin b.t)) with
        | none =>
          rw [hhits, hw]
          simp [bmLink, hbM, min_eq_left hble]
        | some c' =>
          have hcw' := (mem_wcands p r lo (QE.fin b.t) c').mp (listMin_mem _ _ hw)
          have hcc' : c ≤ c' := listMin_le _ _ _ hv
            ((mem_wcands p r lo M₀ c').mpr ⟨hcw'.1, inW_mono hcw'.2 hbM⟩)
          have hc'b : c' ≤ b.t := QE.fin_le_fin_iff.mp (inW_le_max hcw'.2)
          have hc'eq : c' = b.t := le_antisymm hc'b (le_trans hble hcc')
          rw [hhits, hw]
          subst hc'eq
          simp [bmLink, hbM, ht, min_eq_left hble]

/-- All candidates of a primitive list inside the window (lo, M₀). -/
def allCands (r : Ray) (lo M₀ : QE) : List Prim → List ℚ
  | [] => []
  | p :: rest => wcands p r lo M₀ ++ allCands r lo M₀ rest

theorem allCands_append (r : Ray) (lo M₀ : QE) (l₁ l₂ : List Prim) :
    allCands r lo M₀ (l₁ ++ l₂) = allCands r lo M₀ l₁ ++ allCands r lo M₀ l₂ := by
  induction l₁ with
  | nil => simp [allCands]
  | cons p rest ih => simp [allCands, ih]

theorem allCands_perm (r : Ray) (lo M₀ : QE) (l₁ l₂ : List Prim)
    (hp : l₁.Perm l₂) : (allCands r lo M₀ l₁).Perm (allCands r lo M₀ l₂) := by
  induction hp with
  | nil => exact List.Perm.refl _
  | cons p _ ih => exact List.Perm.append_left _ ih
  | swap p q l =>
    simp only [allCands]
    rw [← List.append_assoc, ← List.append_assoc]
    exact List.Perm.append_right _ List.perm_append_comm
  | trans _ _ ih₁ ih₂ => exact ih₁.trans ih₂

theorem leafScan_spec (r : Ray) (lo M₀ : QE) :
    ∀ (ps : List Prim) (best : Option HitRecord) (m : QE),
      (∀ p ∈ ps, PrimOk p r) → bmLink M₀ best m →
      bmLink M₀ (leafScan r lo ps best m).1 (leafScan r lo ps best m).2
      ∧ (leafScan r lo ps best m).1.map (fun hrec : HitRecord => hrec.t)
          = omin (best.map (fun hrec : HitRecord => hrec.t))
              (listMin (allCands r lo M₀ ps)) := by
  intro ps
  induction ps with
  | nil =>
    intro best m _ hlink
    exact ⟨hlink, by simp [leafScan, allCands]⟩
  | cons p rest ih =>
    intro best m hok hlink
    have hstep := prim_step p r lo M₀ best m (hok p (List.mem_cons_self p rest)) hlink
    have hok' : ∀ q ∈ rest, PrimOk q r := fun q hq => hok q (List.mem_cons_of_mem p hq)
    cases hres : p.hits r (Interval.new lo m) with
    | none =>
      rw [hres] at hstep
      dsimp only at hstep
      have hrec := ih best m hok' hstep.1
      refine ⟨?_, ?_⟩
      · simp only [leafScan, hres]
        exact hrec.1
      · simp only [leafScan, hres]
        rw [hrec.2]
        simp only [allCands]
        rw [listMin_append, ← omin_assoc, ← hstep.2]
    | some rec' =>
      rw [hres] at hstep
      dsimp only at hstep
      have hrec := ih (some rec') (QE.fin rec'.t) hok' hstep.1
      refine ⟨?_, ?_⟩
      · simp only [leafScan, hres]
        exact hrec.1
      · simp only [leafScan, hres]
        rw [hrec.2]
        simp only [allCands]
        rw [listMin_append, ← omin_assoc, ← hstep.2]

theorem listHitsGo_eq_leafScan (r : Ray) (lo : QE) :
    ∀ (ps : List Prim) (best : Option HitRecord) (closest : QE),
      listHitsGo r lo ps best closest = (leafScan r lo ps best closest).1 := by
  intro ps
  induction ps with
  | nil => intro best closest; rfl
  | cons p rest ih =>
    intro best closest
    simp only [listHitsGo, leafScan]
    cases hres : p.hits r (Interval.new lo closest) with
    | none => exact ih best closest
    | some rec' => exact ih (some rec') (QE.fin rec'.t)

/-- The linear scan computes the minimum windowed candidate over all
primitives in their original window. -/
theorem list_hits_g (prims : List Prim) (r : Ray) (ray_t : Interval)
    (hok : ∀ p ∈ prims, PrimOk p r) :
    (HittableList.hits prims r ray_t).map (fun hrec : HitRecord => hrec.t)
      = listMin (allCands r ray_t.min ray_t.max prims) := by
  unfold HittableList.hits
  rw [listHitsGo_eq_leafScan]
  have := (leafScan_spec r ray_t.min ray_t.max prims none ray_t.max hok rfl).2
  rw [this]
  simp

theorem getD_set_ne {α : Type} : ∀ (l : List α) (i j : ℕ) (a d : α), i ≠ j →
    (l.set i a).getD j d = l.getD j d := by
  intro l
  induction l with
  | nil => intro i j a d _; rfl
  | cons x xs ih =>
    intro i j a d hij
    cases i with
    | zero =>
      cases j with
      | zero => exact absurd rfl hij
      | succ j' => rfl
    | succ i' =>
      cases j with
      | zero => rfl
      | succ j' => exact ih i' j' a d (fun h => hij (by rw [h]))

theorem getD_set_self {α : Type} : ∀ (l : List α) (i : ℕ) (a d : α), i < l.length →
    (l.set i a).getD i d = a := by
  intro l
  induction l with
  | nil => intro i a d hi; simp at hi
  | cons x xs ih =>
    intro i a d hi
    cases i with
    | zero => rfl
    | succ i' => exact ih i' a d (by simpa using hi)

theorem getD_append_left {α : Type} (l l' : List α) (j : ℕ) (d : α)
    (h : j < l.length) : (l ++ l').getD j d = l.getD j d := by
  rw [List.getD_eq_getElem?_getD, List.getD_eq_getElem?_getD, List.getElem?_append,
    if_pos h]

theorem getD_append_at {α : Type} (l l' : List α) (j : ℕ) (d : α)
    (h : l.length ≤ j) : (l ++ l').getD j d = l'.getD (j - l.length) d := by
  rw [List.getD_eq_getElem?_getD, List.getD_eq_getElem?_getD, List.getElem?_append,
    if_neg (by omega)]

theorem getD_map {α β : Type} (f : α → β) (l : List α) (j : ℕ) (d : α) :
    (l.map f).getD j (f d) = f (l.getD j d) := by
  rcases Nat.lt_or_ge j l.length with h | h
  · rw [List.getD_eq_getElem?_getD, List.getD_eq_getElem?_getD, List.getElem?_map,
      List.getElem?_eq_getElem h]
    simp
  · rw [List.getD_eq_getElem?_getD, List.getD_eq_getElem?_getD,
      List.getElem?_eq_none (by simpa using h), List.getElem?_eq_none h]
    simp

theorem take_eq_of_take_eq {α : Type} {l₁ l₂ : List α} (s m : ℕ) (hm : s ≤ m)
    (h : l₁.take m = l₂.take m) : l₁.take s = l₂.take s := by
  have h1 : (l₁.take m).take s = (l₂.take m).take s := by rw [h]
  rw [List.take_take, List.take_take, min_eq_left hm] at h1
  exact h1

theorem drop_eq_of_drop_eq {α : Type} {l₁ l₂ : List α} (m s : ℕ) (hm : m ≤ s)
    (h : l₁.drop m = l₂.drop m) : l₁.drop s = l₂.drop s := by
  have h1 : (l₁.drop m).drop (s - m) = (l₂.drop m).drop (s - m) := by rw [h]
  rw [List.drop_drop, List.drop_drop] at h1
  have hms : m + (s - m) = s := by omega
  rw [hms] at h1
  exact h1

theorem slice_length {α : Type} (l : List α) (s n : ℕ) (h : s + n ≤ l.length) :
    (slice l s n).length = n := by
  simp only [slice, List.length_take, List.length_drop]
  omega

theorem slice_add {α : Type} (l : List α) (s k m : ℕ) :
    slice l s (k + m) = slice l s k ++ slice l (s + k) m := by
  unfold slice
  rw [List.take_add]
  congr 1
  rw [List.drop_drop]

theorem slice_eq_of_drop_eq {α : Type} (l l' : List α) (s n : ℕ)
    (h : l.drop s = l'.drop s) : slice l s n = slice l' s n := by
  unfold slice
  rw [h]

theorem slice_take_repr {α : Type} (l : List α) (s n : ℕ) :
    slice l s n = (l.take (s + n)).drop s := by
  unfold slice
  rw [List.drop_take]
  congr 1
  omega

theorem slice_eq_of_take_eq {α : Type} (l l' : List α) (s n : ℕ)
    (h : l.take (s + n) = l'.take (s + n)) : slice l s n = slice l' s n := by
  rw [slice_take_repr, slice_take_repr, h]

theorem slice_sub {α : Type} (l : List α) (s n k m : ℕ) (h : k + m ≤ n) :
    slice l (s + k) m = ((slice l s n).drop k).take m := by
  unfold slice
  rw [List.drop_take, List.take_take, min_eq_left (by omega)]
  congr 1
  rw [List.drop_drop]

theorem sortSlice_length (key : Prim → QE) (hs : List Prim) (s n : ℕ)
    (h : s + n ≤ hs.length) : (sortSlice key hs s n).length = hs.length := by
  unfold sortSlice
  rw [List.length_append, List.length_append, List.length_mergeSort]
  simp only [List.length_take, List.length_drop]
  omega

theorem sortSlice_take (key : Prim → QE) (hs : List Prim) (s n : ℕ)
    (h : s ≤ hs.length) : (sortSlice key hs s n).take s = hs.take s := by
  unfold sortSlice
  rw [List.take_append_of_le_length
    (by rw [List.length_append, List.length_take]; omega)]
  rw [List.take_append_of_le_length (by rw [List.length_take]; omega)]
  rw [List.take_take, min_self]

theorem sortSlice_drop (key : Prim → QE) (hs : List Prim) (s n : ℕ)
    (h : s + n ≤ hs.length) :
    (sortSlice key hs s n).drop (s + n) = hs.drop (s + n) := by
  unfold sortSlice
  rw [List.drop_append_eq_append_drop]
  have hl : (hs.take s ++ ((hs.drop s).take n).mergeSort
      (fun a b => decide (key a ≤ key b))).length = s + n := by
    rw [List.length_append, List.length_mergeSort]
    simp only [List.length_take, List.length_drop]
    omega
  rw [List.drop_eq_nil_of_le hl.le, hl, Nat.sub_self, List.drop_zero, List.nil_append]

theorem sortSlice_perm (key : Prim → QE) (hs : List Prim) (s n : ℕ) :
    (sortSlice key hs s n).Perm hs := by
  unfold sortSlice
  conv_rhs => rw [← List.take_append_drop s hs]
  rw [List.append_assoc]
  apply List.Perm.append_left
  conv_rhs => rw [← List.take_append_drop n (hs.drop s)]
  apply List.Perm.append
  · exact List.mergeSort_perm _ _
  · rw [List.drop_drop]

theorem sortSlice_slice (key : Prim → QE) (hs : List Prim) (s n : ℕ)
    (h : s + n ≤ hs.length) :
    slice (sortSlice key hs s n) s n
      = (slice hs s n).mergeSort (fun a b => decide (key a ≤ key b)) := by
  have hA : (hs.take s).length = s := by rw [List.length_take]; omega
  have hM : (((hs.drop s).take n).mergeSort
      (fun a b => decide (key a ≤ key b))).length = n := by
    rw [List.length_mergeSort]
    simp only [List.length_take, List.length_drop]
    omega
  show ((sortSlice key hs s n).drop s).take n = _
  unfold sortSlice
  rw [List.append_assoc, List.drop_append_eq_append_drop, List.drop_eq_nil_of_le hA.le, hA,
    Nat.sub_self, List.drop_zero, List.nil_append,
    List.take_append_of_le_length hM.ge, List.take_of_length_le hM.le]
  rfl

/-- Junk tree for out-of-range stack reads (never read in the modelled runs). -/
def Tree.dummy : Tree := .leaf AABBox.EMPTY 0 0

/-- The primitives of the leaves of a subtree (slices of the final hittables
array). -/
def tprims (hsF : List Prim) : Tree → List Prim
  | .leaf _ s n => slice hsF s n
  | .node _ l rt => tprims hsF l ++ tprims hsF rt

/-- Every (sub)tree box is well-formed and bounds the boxes of the
primitives below it. -/
def boxesOk (hsF : List Prim) : Tree → Prop
  | .leaf b s n => BoxWf b ∧ ∀ p ∈ slice hsF s n, boxSubset p.bbox b
  | .node b l rt =>
    (BoxWf b ∧ ∀ p ∈ tprims hsF l ++ tprims hsF rt, boxSubset p.bbox b)
    ∧ boxesOk hsF l ∧ boxesOk hsF rt

theorem boxesOk_box (hsF : List Prim) (T : Tree) (h : boxesOk hsF T) :
    BoxWf T.box ∧ ∀ p ∈ tprims hsF T, boxSubset p.bbox T.box := by
  cases T with
  | leaf b s n => exact ⟨h.1, h.2⟩
  | node b l rt => exact ⟨h.1.1, h.1.2⟩

/-- Tree-level mirror of pushChild. -/
def treePushChild (st : List Tree × ℕ) (t : Tree) (dist m : QE) :
    Option (List Tree × ℕ) :=
  if dist < m then
    if st.2 < MAX_BVH_DEPTH then some (st.1.set st.2 t, st.2 + 1) else none
  else some st

/-- Tree-level mirror of expandNode. -/
def treeExpand (stack : List Tree) (i : ℕ) (l rt : Tree) (ldist rdist m : QE) :
    Option (List Tree × ℕ) :=
  let ab :=
    if ldist < rdist then ((l, ldist), (rt, rdist)) else ((rt, rdist), (l, ldist))
  match treePushChild (stack, i) ab.1.1 ab.1.2 m with
  | none => none
  | some st => treePushChild st ab.2.1 ab.2.2 m

/-- Tree-level mirror of the traversal loop hitsAux. -/
def treeAux (hsF : List Prim) (r : Ray) (lo : QE) :
    ℕ → List Tree → ℕ → QE → Option HitRecord → TraceResult
  | 0, _, _, _, _ => .outOfFuel
  | fuel + 1, stack, i, m, hr =>
    if i = 0 then .ok hr
    else
      let i' := i - 1
      match stack.getD i' Tree.dummy with
      | .leaf _ start n =>
        let res := leafScan r lo (slice hsF start n) hr m
        treeAux hsF r lo fuel stack i' res.2 res.1
      | .node _ l rt =>
        let ldist := l.box.hit_dist r (Interval.new lo m)
        let rdist := rt.box.hit_dist r (Interval.new lo m)
        match treeExpand stack i' l rt ldist rdist m with
        | none => .stackOverflow
        | some st => treeAux hsF r lo fuel st.1 st.2 m hr

/-- The flattened node array represents a tree at an index. -/
inductive NodeRepr (nodes : List Node) : ℕ → Tree → Prop where
  | leaf (idx : ℕ) (bbox : AABBox) (start n : ℕ)
      (h : nodes.getD idx Node.dummy = ⟨bbox, start, some n⟩) :
      NodeRepr nodes idx (.leaf bbox start n)
  | node (idx : ℕ) (bbox : AABBox) (s : ℕ) (l rt : Tree)
      (h : nodes.getD idx Node.dummy = ⟨bbox, s, none⟩)
      (hl : NodeRepr nodes s l) (hr : NodeRepr nodes (s + 1) rt) :
      NodeRepr nodes idx (.node bbox l rt)

theorem nodeRepr_box (nodes : List Node) (idx : ℕ) (T : Tree)
    (h : NodeRepr nodes idx T) : (nodes.getD idx Node.dummy).bbox = T.box := by
  cases h with
  | leaf idx bbox start n h => rw [h]; rfl
  | node idx bbox s l rt h _ _ => rw [h]; rfl

theorem push_rel (nodes : List Node) (astack : List ℕ) (tstack : List Tree)
    (i idx : ℕ) (t : Tree) (dist m : QE)
    (hla : astack.length = MAX_BVH_DEPTH) (hlt : tstack.length = MAX_BVH_DEPTH)
    (hcorr : ∀ j, j < i → NodeRepr nodes (astack.getD j 0) (tstack.getD j Tree.dummy))
    (hit : NodeRepr nodes idx t) :
    (pushChild (astack, i) idx dist m = none
      ∧ treePushChild (tstack, i) t dist m = none)
    ∨ (∃ as' ts' i', pushChild (astack, i) idx dist m = some (as', i')
        ∧ treePushChild (tstack, i) t dist m = some (ts', i')
        ∧ as'.length = MAX_BVH_DEPTH ∧ ts'.length = MAX_BVH_DEPTH
        ∧ i ≤ i' ∧ i' ≤ i + 1 ∧ (i' = i + 1 → i < MAX_BVH_DEPTH)
        ∧ (∀ j, j < i' → NodeRepr nodes (as'.getD j 0) (ts'.getD j Tree.dummy))) := by
  unfold pushChild treePushChild
  by_cases hdm : dist < m
  · by_cases hcap : i < MAX_BVH_DEPTH
    · right
      refine ⟨astack.set i idx, tstack.set i t, i + 1, by simp [hdm, hcap], by simp [hdm, hcap],
        by rw [List.length_set]; exact hla, by rw [List.length_set]; exact hlt,
        Nat.le_succ i, le_refl _, fun _ => hcap, ?_⟩
      intro j hj
      by_cases hji : j = i
      · subst hji
        rw [getD_set_self astack j idx 0 (by rw [hla]; exact hcap),
          getD_set_self tstack j t Tree.dummy (by rw [hlt]; exact hcap)]
        exact hit
      · rw [getD_set_ne astack i j idx 0 (fun h => hji h.symm),
          getD_set_ne tstack i j t Tree.dummy (fun h => hji h.symm)]
        exact hcorr j (by omega)
    · left
      constructor <;> simp [hdm, hcap]
  · right
    refine ⟨astack, tstack, i, by simp [hdm], by simp [hdm], hla, hlt, le_refl _,
      Nat.le_succ i, by omega, hcorr⟩

theorem expand_rel (nodes : List Node) (astack : List ℕ) (tstack : List Tree)
    (i s : ℕ) (l rt : Tree) (ld rd m : QE)
    (hla : astack.length = MAX_BVH_DEPTH) (hlt : tstack.length = MAX_BVH_DEPTH)
    (hi : i ≤ MAX_BVH_DEPTH)
    (hcorr : ∀ j, j < i → NodeRepr nodes (astack.getD j 0) (tstack.getD j Tree.dummy))
    (hl : NodeRepr nodes s l) (hr : NodeRepr nodes (s + 1) rt) :
    (expandNode astack i s ld rd m = none ∧ treeExpand tstack i l rt ld rd m = none)
    ∨ (∃ as' ts' i', expandNode astack i s ld rd m = some (as', i')
        ∧ treeExpand tstack i l rt ld rd m = some (ts', i')
        ∧ as'.length = MAX_BVH_DEPTH ∧ ts'.length = MAX_BVH_DEPTH
        ∧ i ≤ i' ∧ i' ≤ i + 2 ∧ (i' ≤ MAX_BVH_DEPTH)
        ∧ (∀ j, j < i' → NodeRepr nodes (as'.getD j 0) (ts'.getD j Tree.dummy))) := by
  unfold expandNode treeExpand
  by_cases hlr : ld < rd
  · simp only [hlr, if_pos]
    rcases push_rel nodes astack tstack i s l ld m hla hlt hcorr hl with
      ⟨h1, h2⟩ | ⟨as₁, ts₁, i₁, h1, h2, hlen1, hlen2, hi1, hi2, hcap1, hcorr1⟩
    · left
      rw [h1, h2]
      exact ⟨rfl, rfl⟩
    · rw [h1, h2]
      dsimp only
      rcases push_rel nodes as₁ ts₁ i₁ (s + 1) rt rd m hlen1 hlen2 hcorr1 hr with
        ⟨g1, g2⟩ | ⟨as₂, ts₂, i₂, g1, g2, glen1, glen2, gi1, gi2, gcap1, gcorr1⟩
      · exact Or.inl ⟨g1, g2⟩
      · refine Or.inr ⟨as₂, ts₂, i₂, g1, g2, glen1, glen2, by omega, by omega, ?_, gcorr1⟩
        rcases Nat.lt_or_ge i₂ (i₁ + 1) with h2 | h2
        · rcases Nat.lt_or_ge i₁ (i + 1) with h3 | h3
          · omega
          · have := hcap1 (by omega)
            omega
        · have := gcap1 (by omega)
          omega
  · simp only [hlr, if_neg, not_false_iff]
    rcases push_rel nodes astack tstack i (s + 1) rt rd m hla hlt hcorr hr with
      ⟨h1, h2⟩ | ⟨as₁, ts₁, i₁, h1, h2, hlen1, hlen2, hi1, hi2, hcap1, hcorr1⟩
    · left
      rw [h1, h2]
      exact ⟨rfl, rfl⟩
    · rw [h1, h2]
      dsimp only
      rcases push_rel nodes as₁ ts₁ i₁ s l ld m hlen1 hlen2 hcorr1 hl with
        ⟨g1, g2⟩ | ⟨as₂, ts₂, i₂, g1, g2, glen1, glen2, gi1, gi2, gcap1, gcorr1⟩
      · exact Or.inl ⟨g1, g2⟩
      · refine Or.inr ⟨as₂, ts₂, i₂, g1, g2, glen1, glen2, by omega, by omega, ?_, gcorr1⟩
        rcases Nat.lt_or_ge i₂ (i₁ + 1) with h2 | h2
        · rcases Nat.lt_or_ge i₁ (i + 1) with h3 | h3
          · omega
          · have := hcap1 (by omega)
            omega
        · have := gcap1 (by omega)
          omega

theorem hitsAux_eq_treeAux (bvh : Bvh) (r : Ray) (lo : QE) :
    ∀ (fuel : ℕ) (astack : List ℕ) (tstack : List Tree) (i : ℕ) (m : QE)
      (hr : Option HitRecord),
      astack.length = MAX_BVH_DEPTH → tstack.length = MAX_BVH_DEPTH →
      i ≤ MAX_BVH_DEPTH →
      (∀ j, j < i → NodeRepr bvh.nodes (astack.getD j 0) (tstack.getD j Tree.dummy)) →
      hitsAux bvh r lo fuel astack i m hr = treeAux bvh.hittables r lo fuel tstack i m hr := by
  intro fuel
  induction fuel with
  | zero => intro astack tstack i m hr _ _ _ _; rfl
  | succ fuel ih =>
    intro astack tstack i m hr hla hlt hi hcorr
    by_cases hi0 : i = 0
    · subst hi0
      simp [hitsAux, treeAux]
    · have hrep := hcorr (i - 1) (by omega)
      simp only [hitsAux, treeAux, if_neg hi0]
      generalize hT : tstack.getD (i - 1) Tree.dummy = T at hrep ⊢
      cases hrep with
      | leaf idx bbox start n h =>
        rw [h]
        dsimp only
        exact ih astack tstack (i - 1) _ _ hla hlt (by omega)
          (fun j hj => hcorr j (by omega))
      | node idx bbox s lT rT h hlr hrr =>
        rw [h]
        dsimp only
        have hld : (bvh.nodes.getD s Node.dummy).hit_dist r (Interval.new lo m)
            = lT.box.hit_dist r (Interval.new lo m) := by
          rw [Node.hit_dist, nodeRepr_box _ _ _ hlr]
        have hrd : (bvh.nodes.getD (s + 1) Node.dummy).hit_dist r (Interval.new lo m)
            = rT.box.hit_dist r (Interval.new lo m) := by
          rw [Node.hit_dist, nodeRepr_box _ _ _ hrr]
        rw [hld, hrd]
        rcases expand_rel bvh.nodes astack tstack (i - 1) s lT rT
            (lT.box.hit_dist r (Interval.new lo m)) (rT.box.hit_dist r (Interval.new lo m)) m
            hla hlt (by omega) (fun j hj => hcorr j (by omega)) hlr hrr with
          ⟨e1, e2⟩ | ⟨as', ts', i', e1, e2, elen1, elen2, ei1, ei2, ecap, ecorr⟩
        · rw [e1, e2]
        · rw [e1, e2]
          exact ih as' ts' i' m hr elen1 elen2 ecap ecorr

/-- The first i stack entries, bottom to top. -/
def upTo (stack : List Tree) (i : ℕ) : List Tree :=
  (List.range i).map (fun j => stack.getD j Tree.dummy)

/-- The primitives below a list of trees, concatenated. -/
def flatPrims (hsF : List Prim) : List Tree → List Prim
  | [] => []
  | T :: rest => tprims hsF T ++ flatPrims hsF rest

theorem upTo_zero (stack : List Tree) : upTo stack 0 = [] := rfl

theorem upTo_succ (stack : List Tree) (i : ℕ) :
    upTo stack (i + 1) = upTo stack i ++ [stack.getD i Tree.dummy] := by
  unfold upTo
  rw [List.range_succ, List.map_append]
  rfl

theorem upTo_congr (s s' : List Tree) (i : ℕ)
    (h : ∀ j, j < i → s'.getD j Tree.dummy = s.getD j Tree.dummy) :
    upTo s' i = upTo s i := by
  induction i with
  | zero => rfl
  | succ i ih =>
    rw [upTo_succ, upTo_succ, ih (fun j hj => h j (by omega)), h i (by omega)]

theorem flatPrims_append (hsF : List Prim) (l₁ l₂ : List Tree) :
    flatPrims hsF (l₁ ++ l₂) = flatPrims hsF l₁ ++ flatPrims hsF l₂ := by
  induction l₁ with
  | nil => rfl
  | cons T rest ih => simp [flatPrims, ih]

theorem mem_allCands (r : Ray) (lo M₀ : QE) (l : List Prim) (c : ℚ) :
    c ∈ allCands r lo M₀ l ↔ ∃ p ∈ l, c ∈ wcands p r lo M₀ := by
  induction l with
  | nil => simp [allCands]
  | cons p rest ih => simp [allCands, List.mem_append, ih]

theorem treePushChild_spec (stack : List Tree) (i : ℕ) (t : Tree) (dist m : QE)
    (stack' : List Tree) (i' : ℕ) (hlen : stack.length = MAX_BVH_DEPTH)
    (hres : treePushChild (stack, i) t dist m = some (stack', i')) :
    stack'.length = MAX_BVH_DEPTH
    ∧ (∀ j, j < i → stack'.getD j Tree.dummy = stack.getD j Tree.dummy)
    ∧ ((stack' = stack ∧ i' = i ∧ ¬ dist < m)
       ∨ (i' = i + 1 ∧ i < MAX_BVH_DEPTH ∧ stack'.getD i Tree.dummy = t ∧ dist < m)) := by
  unfold treePushChild at hres
  by_cases hdm : dist < m
  · rw [if_pos hdm] at hres
    by_cases hcap : i < MAX_BVH_DEPTH
    · rw [if_pos hcap] at hres
      simp only [Option.some.injEq, Prod.mk.injEq] at hres
      obtain ⟨h1, h2⟩ := hres
      subst h1
      subst h2
      refine ⟨by rw [List.length_set]; exact hlen,
        fun j hj => getD_set_ne stack i j t Tree.dummy (by omega),
        Or.inr ⟨rfl, hcap, getD_set_self stack i t Tree.dummy (by rw [hlen]; exact hcap), hdm⟩⟩
    · rw [if_neg hcap] at hres
      exact absurd hres (by simp)
  · rw [if_neg hdm] at hres
    simp only [Option.some.injEq, Prod.mk.injEq] at hres
    obtain ⟨h1, h2⟩ := hres
    subst h1
    subst h2
    exact ⟨hlen, fun j hj => rfl, Or.inl ⟨rfl, rfl, hdm⟩⟩

theorem treeExpand_spec (stack : List Tree) (i : ℕ) (l rt : Tree) (ld rd m : QE)
    (stack' : List Tree) (i' : ℕ)
    (hlen : stack.length = MAX_BVH_DEPTH) (hi : i ≤ MAX_BVH_DEPTH)
    (hres : treeExpand stack i l rt ld rd m = some (stack', i')) :
    stack'.length = MAX_BVH_DEPTH ∧ i ≤ i' ∧ i' ≤ MAX_BVH_DEPTH
    ∧ ∃ newTs : List Tree,
        upTo stack' i' = upTo stack i ++ newTs
        ∧ ((newTs = [l, rt] ∨ newTs = [rt, l])
           ∨ (newTs = [l] ∧ ¬ rd < m) ∨ (newTs = [rt] ∧ ¬ ld < m)
           ∨ (newTs = [] ∧ ¬ ld < m ∧ ¬ rd < m)) := by
  unfold treeExpand at hres
  by_cases hlr : ld < rd
  · simp only [hlr, if_pos] at hres
    cases hp : treePushChild (stack, i) l ld m with
    | none => rw [hp] at hres; exact absurd hres (by simp)
    | some st1 =>
      obtain ⟨s1, i1⟩ := st1
      rw [hp] at hres
      dsimp only at hres
      have h1 := treePushChild_spec stack i l ld m s1 i1 hlen hp
      have h2 := treePushChild_spec s1 i1 rt rd m stack' i' h1.1 hres
      rcases h1.2.2 with ⟨heq1, hieq1, hnp1⟩ | ⟨hieq1, hcap1, hget1, hp1⟩
      · rcases h2.2.2 with ⟨heq2, hieq2, hnp2⟩ | ⟨hieq2, hcap2, hget2, hp2⟩
        · refine ⟨h2.1, by omega, by omega, [],
            by rw [heq2, heq1, hieq2, hieq1]; simp,
            Or.inr (Or.inr (Or.inr ⟨rfl, hnp1, hnp2⟩))⟩
        · refine ⟨h2.1, by omega, by omega, [rt], ?_,
            Or.inr (Or.inr (Or.inl ⟨rfl, hnp1⟩))⟩
          have hc : ∀ j, j < i → stack'.getD j Tree.dummy = stack.getD j Tree.dummy := by
            intro j hj
            rw [h2.2.1 j (by omega), heq1]
          rw [hieq2, hieq1, upTo_succ, upTo_congr stack stack' i hc]
          congr 1
          rw [← hieq1, hget2]
      · rcases h2.2.2 with ⟨heq2, hieq2, hnp2⟩ | ⟨hieq2, hcap2, hget2, hp2⟩
        · refine ⟨h2.1, by omega, by omega, [l], ?_, Or.inr (Or.inl ⟨rfl, hnp2⟩)⟩
          rw [heq2, hieq2, hieq1, upTo_succ, hget1,
            upTo_congr stack s1 i (fun j hj => h1.2.1 j hj)]
        · refine ⟨h2.1, by omega, by omega, [l, rt], ?_, Or.inl (Or.inl rfl)⟩
          have hgi : stack'.getD i Tree.dummy = l := by
            rw [h2.2.1 i (by omega), hget1]
          have hcong : upTo stack' i = upTo stack i :=
            upTo_congr stack stack' i
              (fun j hj => by rw [h2.2.1 j (by omega), h1.2.1 j hj])
          rw [hieq1] at hget2
          rw [hieq2, hieq1, upTo_succ, upTo_succ, hcong, hgi, hget2]
          simp
  · simp only [hlr, if_neg, not_false_iff] at hres
    cases hp : treePushChild (stack, i) rt rd m with
    | none => rw [hp] at hres; exact absurd hres (by simp)
    | some st1 =>
      obtain ⟨s1, i1⟩ := st1
      rw [hp] at hres
      dsimp only at hres
      have h1 := treePushChild_spec stack i rt rd m s1 i1 hlen hp
      have h2 := treePushChild_spec s1 i1 l ld m stack' i' h1.1 hres
      rcases h1.2.2 with ⟨heq1, hieq1, hnp1⟩ | ⟨hieq1, hcap1, hget1, hp1⟩
      · rcases h2.2.2 with ⟨heq2, hieq2, hnp2⟩ | ⟨hieq2, hcap2, hget2, hp2⟩
        · refine ⟨h2.1, by omega, by omega, [],
            by rw [heq2, heq1, hieq2, hieq1]; simp,
            Or.inr (Or.inr (Or.inr ⟨rfl, hnp2, hnp1⟩))⟩
        · refine ⟨h2.1, by omega, by omega, [l], ?_, Or.inr (Or.inl ⟨rfl, hnp1⟩)⟩
          have hc : ∀ j, j < i → stack'.getD j Tree.dummy = stack.getD j Tree.dummy := by
            intro j hj
            rw [h2.2.1 j (by omega), heq1]
          rw [hieq2, hieq1, upTo_succ, upTo_congr stack stack' i hc]
          congr 1
          rw [← hieq1, hget2]
      · rcases h2.2.2 with ⟨heq2, hieq2, hnp2⟩ | ⟨hieq2, hcap2, hget2, hp2⟩
        · refine ⟨h2.1, by omega, by omega, [rt], ?_,
            Or.inr (Or.inr (Or.inl ⟨rfl, hnp2⟩))⟩
          rw [heq2, hieq2, hieq1, upTo_succ, hget1,
            upTo_congr stack s1 i (fun j hj => h1.2.1 j hj)]
        · refine ⟨h2.1, by omega, by omega, [rt, l], ?_, Or.inl (Or.inr rfl)⟩
          have hgi : stack'.getD i Tree.dummy = rt := by
            rw [h2.2.1 i (by omega), hget1]
          have hcong : upTo stack' i = upTo stack i :=
            upTo_congr stack stack' i
              (fun j hj => by rw [h2.2.1 j (by omega), h1.2.1 j hj])
          rw [hieq1] at hget2
          rw [hieq2, hieq1, upTo_succ, upTo_succ, hcong, hgi, hget2]
          simp

/-- Pruning soundness: a subtree whose box is NOT hit strictly inside the
current window contributes no candidate that could improve on the current
best, so min-merging its candidates is a no-op. -/
theorem pruned_child_skip (hsF : List Prim) (r : Ray) (lo M₀ : QE) (C : Tree)
    (m : QE) (best : Option HitRecord)
    (hlo0 : QE.fin 0 ≤ lo) (hdir : DirOk r)
    (hboxC : boxesOk hsF C) (hmemC : ∀ p ∈ tprims hsF C, p ∈ hsF)
    (hbox : ∀ p ∈ hsF, PrimBoxOk p r)
    (hwfp : ∀ p ∈ hsF, BoxWf p.bbox)
    (hneq : ∀ p ∈ hsF, ∀ c ∈ p.cands r, QE.fin c ≠ M₀)
    (hlink : bmLink M₀ best m)
    (hpr : ¬ C.box.hit_dist r (Interval.new lo m) < m) :
    omin (best.map (fun hrec : HitRecord => hrec.t))
        (listMin (allCands r lo M₀ (tprims hsF C)))
      = best.map (fun hrec : HitRecord => hrec.t) := by
  cases hv : listMin (allCands r lo M₀ (tprims hsF C)) with
  | none => simp
  | some c =>
    obtain ⟨p, hpC, hcw⟩ := (mem_allCands r lo M₀ _ c).mp (listMin_mem _ _ hv)
    have hpF := hmemC p hpC
    obtain ⟨hcand, hinW⟩ := (mem_wcands p r lo M₀ c).mp hcw
    have hc0 : (0:ℚ) ≤ c := QE.fin_le_fin_iff.mp (le_trans hlo0 (inW_le_lo hinW))
    have hpb := hbox p hpF c hcand hc0
    obtain ⟨hCwf, hCsub⟩ := boxesOk_box hsF C hboxC
    have hsubC := hCsub p hpC
    have hnear : C.box.slab_near r ≤ QE.fin c :=
      le_trans (slab_near_mono p.bbox C.box r hsubC (hwfp p hpF) hCwf hdir) hpb.1
    have hfar : QE.fin c ≤ C.box.slab_far r :=
      le_trans hpb.2.1 (slab_far_mono p.bbox C.box r hsubC (hwfp p hpF) hCwf hdir)
    have hfpos : QE.fin 0 < C.box.slab_far r :=
      lt_of_lt_of_le hpb.2.2 (slab_far_mono p.bbox C.box r hsubC (hwfp p hpF) hCwf hdir)
    have hlocle : lo ≤ QE.fin c := inW_le_lo hinW
    have hhit : QE.fin c < m →
        C.box.hit_dist r (Interval.new lo m) < m := fun hcm =>
      (hit_dist_le_of_between C.box r lo m c hc0 hnear hfar hfpos hlocle hcm).2
    cases best with
    | none =>
      exfalso
      have hm : m = M₀ := hlink
      subst hm
      have hcM : QE.fin c ≤ m := inW_le_max hinW
      have hcne : QE.fin c ≠ m := hneq p hpF c hcand
      exact hpr (hhit (lt_of_le_of_ne hcM hcne))
    | some b =>
      obtain ⟨hm, hbM⟩ := hlink
      subst hm
      by_cases hlt : c < b.t
      · exact absurd (hhit (QE.fin_lt_fin_iff.mpr hlt)) hpr
      · have hb : ((some b).map (fun hrec : HitRecord => hrec.t)) = some b.t := rfl
        rw [hb, omin_some_some, min_eq_left (le_of_not_lt hlt)]

theorem omin_rotate (x a b : Option ℚ) : omin (omin x b) a = omin x (omin a b) := by
  rw [omin_assoc, omin_comm b a]

theorem omin_pull (x a u v : Option ℚ) :
    omin x (omin a (omin u v)) = omin (omin x v) (omin a u) := by
  rw [← omin_assoc a u v, omin_comm (omin a u) v, ← omin_assoc x v (omin a u)]

theorem omin_pull2 (x a u : Option ℚ) : omin x (omin a u) = omin (omin x u) a := by
  rw [omin_comm a u, ← omin_assoc]

theorem flatPrims_single (hsF : List Prim) (T : Tree) :
    flatPrims hsF [T] = tprims hsF T := by
  simp [flatPrims]

/-- The tree-level traversal returns the min-merge of all windowed
candidates on the stack: the pruned subtrees provably contribute nothing. -/
theorem treeAux_correct (hsF : List Prim) (r : Ray) (lo M₀ : QE)
    (hlo0 : QE.fin 0 ≤ lo) (hdir : DirOk r)
    (hok : ∀ p ∈ hsF, PrimOk p r) (hbox : ∀ p ∈ hsF, PrimBoxOk p r)
    (hwfp : ∀ p ∈ hsF, BoxWf p.bbox)
    (hneq : ∀ p ∈ hsF, ∀ c ∈ p.cands r, QE.fin c ≠ M₀) :
    ∀ (fuel : ℕ) (stack : List Tree) (i : ℕ) (m : QE)
      (best res : Option HitRecord) (g : Option ℚ),
      stack.length = MAX_BVH_DEPTH → i ≤ MAX_BVH_DEPTH →
      (∀ T ∈ upTo stack i, boxesOk hsF T ∧ ∀ p ∈ tprims hsF T, p ∈ hsF) →
      bmLink M₀ best m →
      omin (best.map (fun hrec : HitRecord => hrec.t))
          (listMin (allCands r lo M₀ (flatPrims hsF (upTo stack i)))) = g →
      treeAux hsF r lo fuel stack i m best = .ok res →
      res.map (fun hrec : HitRecord => hrec.t) = g := by
  intro fuel
  induction fuel with
  | zero =>
    intro stack i m best res g _ _ _ _ _ hrun
    exact TraceResult.noConfusion hrun
  | succ fuel ih =>
    intro stack i m best res g hlen hile hstack hlink hg hrun
    by_cases hi0 : i = 0
    · subst hi0
      simp only [treeAux, if_pos] at hrun
      injection hrun with hres
      subst hres
      simp only [upTo_zero, flatPrims, allCands, listMin_nil, omin_none_right] at hg
      exact hg
    · have hi1 : i - 1 + 1 = i := by omega
      have hsplit : upTo stack i
          = upTo stack (i - 1) ++ [stack.getD (i - 1) Tree.dummy] := by
        conv_lhs => rw [← hi1]
        rw [upTo_succ]
      have hTmem : stack.getD (i - 1) Tree.dummy ∈ upTo stack i := by
        rw [hsplit]
        exact List.mem_append_right _ (List.mem_singleton.mpr rfl)
      have hTprop := hstack _ hTmem
      simp only [treeAux, if_neg hi0] at hrun
      generalize hT : stack.getD (i - 1) Tree.dummy = T at hrun hsplit hTprop
      have hsub : ∀ T' ∈ upTo stack (i - 1),
          boxesOk hsF T' ∧ ∀ p ∈ tprims hsF T', p ∈ hsF :=
        fun T' h => hstack T' (by rw [hsplit]; exact List.mem_append_left _ h)
      cases T with
      | leaf b s n =>
        dsimp only at hrun
        have hokslice : ∀ p ∈ slice hsF s n, PrimOk p r :=
          fun p hp => hok p (hTprop.2 p hp)
        have hscan := leafScan_spec r lo M₀ (slice hsF s n) best m hokslice hlink
        refine ih stack (i - 1) _ _ res g hlen (by omega) hsub hscan.1 ?_ hrun
        rw [hscan.2, omin_rotate]
        rw [hsplit, flatPrims_append, allCands_append, listMin_append,
          flatPrims_single] at hg
        simp only [tprims] at hg
        exact hg
      | node b lT rT =>
        dsimp only at hrun
        cases he : treeExpand stack (i - 1) lT rT
            (lT.box.hit_dist r (Interval.new lo m))
            (rT.box.hit_dist r (Interval.new lo m)) m with
        | none =>
          rw [he] at hrun
          exact TraceResult.noConfusion hrun
        | some st =>
          obtain ⟨stack', i''⟩ := st
          rw [he] at hrun
          dsimp only at hrun
          obtain ⟨hlen', hge, hle2, newTs, hupTo, hcs⟩ :=
            treeExpand_spec stack (i - 1) lT rT _ _ m stack' i'' hlen (by omega) he
          obtain ⟨hbb, hbl, hbr⟩ := hTprop.1
          have hml : ∀ p ∈ tprims hsF lT, p ∈ hsF := fun p hp =>
            hTprop.2 p (List.mem_append_left _ hp)
          have hmr : ∀ p ∈ tprims hsF rT, p ∈ hsF := fun p hp =>
            hTprop.2 p (List.mem_append_right _ hp)
          have hstack' : ∀ T' ∈ upTo stack' i'',
              boxesOk hsF T' ∧ ∀ p ∈ tprims hsF T', p ∈ hsF := by
            intro T' hT'
            rw [hupTo] at hT'
            rcases List.mem_append.mp hT' with h | h
            · exact hsub T' h
            · have hor : T' = lT ∨ T' = rT := by
                rcases hcs with (h2 | h2) | ⟨h2, _⟩ | ⟨h2, _⟩ | ⟨h2, _, _⟩ <;>
                  subst h2 <;> simp at h <;> all_goals tauto
              rcases hor with h | h
              · subst h; exact ⟨hbl, hml⟩
              · subst h; exact ⟨hbr, hmr⟩
          refine ih stack' i'' m best res g hlen' hle2 hstack' hlink ?_ hrun
          rw [hupTo, flatPrims_append, allCands_append, listMin_append]
          rw [hsplit, flatPrims_append, allCands_append, listMin_append,
            flatPrims_single] at hg
          simp only [tprims] at hg
          rw [allCands_append, listMin_append] at hg
          rcases hcs with (h2 | h2) | ⟨h2, hprr⟩ | ⟨h2, hprl⟩ | ⟨h2, hprl, hprr⟩ <;>
            subst h2
          · simp only [flatPrims, List.append_nil, allCands_append, listMin_append]
            exact hg
          · simp only [flatPrims, List.append_nil, allCands_append, listMin_append]
            rw [omin_comm (listMin (allCands r lo M₀ (tprims hsF lT)))
              (listMin (allCands r lo M₀ (tprims hsF rT)))] at hg
            exact hg
          · simp only [flatPrims, List.append_nil, allCands_append, listMin_append]
            rw [omin_pull] at hg
            rw [pruned_child_skip hsF r lo M₀ rT m best hlo0 hdir hbr hmr hbox hwfp
              hneq hlink hprr] at hg
            exact hg
          · simp only [flatPrims, List.append_nil, allCands_append, listMin_append]
            rw [omin_comm (listMin (allCands r lo M₀ (tprims hsF lT)))
              (listMin (allCands r lo M₀ (tprims hsF rT))), omin_pull] at hg
            rw [pruned_child_skip hsF r lo M₀ lT m best hlo0 hdir hbl hml hbox hwfp
              hneq hlink hprl] at hg
            exact hg
          · simp only [flatPrims, allCands, listMin_nil, omin_none_right]
            rw [omin_pull] at hg
            rw [pruned_child_skip hsF r lo M₀ rT m best hlo0 hdir hbr hmr hbox hwfp
              hneq hlink hprr] at hg
            rw [omin_pull2] at hg
            rw [pruned_child_skip hsF r lo M₀ lT m best hlo0 hdir hbl hml hbox hwfp
              hneq hlink hprl] at hg
            exact hg

theorem buildT_leaf (b : AABBox) (s n d : ℕ) (hs : List Prim)
    (h : n = 1 ∨ MAX_BVH_DEPTH ≤ d) : buildT b s n d hs = (.leaf b s n, hs) := by
  rw [buildT, dif_pos h]

theorem buildT_node (b : AABBox) (s n d : ℕ) (hs : List Prim)
    (h : ¬ (n = 1 ∨ MAX_BVH_DEPTH ≤ d)) :
    buildT b s n d hs =
      (let hs1 := sortSlice (fun p => (p.bbox.axis_interval b.longest_axis).min) hs s n
       let resl := buildT (AABBox.new_containing (slice hs1 s (n / 2))) s (n / 2)
         (d + 1) hs1
       let resr := buildT (AABBox.new_containing (slice hs1 (s + n / 2) (n - n / 2)))
         (s + n / 2) (n - n / 2) (d + 1) resl.2
       (.node b resl.1 resr.1, resr.2)) := by
  rw [buildT, dif_neg h]

theorem slice_front {α : Type} (l : List α) (s n k : ℕ) (hk : k ≤ n) :
    slice l s k = (slice l s n).take k := by
  unfold slice
  rw [List.take_take, min_eq_left hk]

theorem mem_of_mem_slice {α : Type} {p : α} (l : List α) (s n : ℕ)
    (h : p ∈ slice l s n) : p ∈ l :=
  List.mem_of_mem_drop (List.mem_of_mem_take h)

theorem buildT_frame : ∀ (f : ℕ) (b : AABBox) (s n d : ℕ) (hs : List Prim),
    MAX_BVH_DEPTH - d ≤ f → s + n ≤ hs.length →
    (buildT b s n d hs).2.length = hs.length
    ∧ (buildT b s n d hs).2.take s = hs.take s
    ∧ (buildT b s n d hs).2.drop (s + n) = hs.drop (s + n) := by
  intro f
  induction f with
  | zero =>
    intro b s n d hs hf _
    rw [buildT_leaf _ _ _ _ _ (Or.inr (by omega))]
    exact ⟨rfl, rfl, rfl⟩
  | succ f ih =>
    intro b s n d hs hf hlen
    by_cases h : n = 1 ∨ MAX_BVH_DEPTH ≤ d
    · rw [buildT_leaf _ _ _ _ _ h]
      exact ⟨rfl, rfl, rfl⟩
    · have hd : d < MAX_BVH_DEPTH := by
        rcases not_or.mp h with ⟨_, h2⟩
        omega
      have hf' : MAX_BVH_DEPTH - (d + 1) ≤ f := by omega
      rw [buildT_node _ _ _ _ _ h]
      dsimp only
      generalize hks :
        sortSlice (fun p => (p.bbox.axis_interval b.longest_axis).min) hs s n = hs1
      have hlen1 : hs1.length = hs.length := by
        rw [← hks]
        exact sortSlice_length _ _ _ _ hlen
      have hltake : hs1.take s = hs.take s := by
        rw [← hks]
        exact sortSlice_take _ _ _ _ (by omega)
      have hldrop : hs1.drop (s + n) = hs.drop (s + n) := by
        rw [← hks]
        exact sortSlice_drop _ _ _ _ hlen
      obtain ⟨l1, l2, l3⟩ := ih (AABBox.new_containing (slice hs1 s (n / 2)))
        s (n / 2) (d + 1) hs1 hf' (by rw [hlen1]; omega)
      obtain ⟨r1, r2, r3⟩ := ih
        (AABBox.new_containing (slice hs1 (s + n / 2) (n - n / 2)))
        (s + n / 2) (n - n / 2) (d + 1)
        (buildT (AABBox.new_containing (slice hs1 s (n / 2))) s (n / 2) (d + 1) hs1).2
        hf' (by rw [l1, hlen1]; omega)
      refine ⟨?_, ?_, ?_⟩
      · rw [r1, l1, hlen1]
      · have t2 := take_eq_of_take_eq s (s + n / 2) (by omega) r2
        rw [t2, l2, hltake]
      · have hsum : (s + n / 2) + (n - n / 2) = s + n := by omega
        rw [hsum] at r3
        have d2 := drop_eq_of_drop_eq (s + n / 2) (s + n) (by omega) l3
        rw [r3, d2, hldrop]

theorem buildT_perm : ∀ (f : ℕ) (b : AABBox) (s n d : ℕ) (hs : List Prim),
    MAX_BVH_DEPTH - d ≤ f → (buildT b s n d hs).2.Perm hs := by
  intro f
  induction f with
  | zero =>
    intro b s n d hs hf
    rw [buildT_leaf _ _ _ _ _ (Or.inr (by omega))]
  | succ f ih =>
    intro b s n d hs hf
    by_cases h : n = 1 ∨ MAX_BVH_DEPTH ≤ d
    · rw [buildT_leaf _ _ _ _ _ h]
    · have hd : d < MAX_BVH_DEPTH := by
        rcases not_or.mp h with ⟨_, h2⟩
        omega
      rw [buildT_node _ _ _ _ _ h]
      dsimp only
      generalize hks :
        sortSlice (fun p => (p.bbox.axis_interval b.longest_axis).min) hs s n = hs1
      have hp1 : hs1.Perm hs := by
        rw [← hks]
        exact sortSlice_perm _ hs s n
      exact ((ih _ _ _ _ _ (by omega)).trans (ih _ _ _ _ _ (by omega))).trans hp1

theorem buildT_slices : ∀ (f : ℕ) (b : AABBox) (s n d : ℕ) (hs : List Prim),
    MAX_BVH_DEPTH - d ≤ f → s + n ≤ hs.length →
    ∀ hs₂ : List Prim, slice hs₂ s n = slice (buildT b s n d hs).2 s n →
    tprims hs₂ (buildT b s n d hs).1 = slice hs₂ s n := by
  intro f
  induction f with
  | zero =>
    intro b s n d hs hf hlen hs₂ hsl
    rw [buildT_leaf _ _ _ _ _ (Or.inr (by omega))]
    rfl
  | succ f ih =>
    intro b s n d hs hf hlen hs₂ hsl
    by_cases h : n = 1 ∨ MAX_BVH_DEPTH ≤ d
    · rw [buildT_leaf _ _ _ _ _ h]
      rfl
    · have hd : d < MAX_BVH_DEPTH := by
        rcases not_or.mp h with ⟨_, h2⟩
        omega
      have hf' : MAX_BVH_DEPTH - (d + 1) ≤ f := by omega
      rw [buildT_node _ _ _ _ _ h] at hsl ⊢
      dsimp only at hsl ⊢
      generalize hks :
        sortSlice (fun p => (p.bbox.axis_interval b.longest_axis).min) hs s n = hs1
        at hsl ⊢
      have hlen1 : hs1.length = hs.length := by
        rw [← hks]
        exact sortSlice_length _ _ _ _ hlen
      set lb := AABBox.new_containing (slice hs1 s (n / 2)) with hlbdef
      set resl := buildT lb s (n / 2) (d + 1) hs1 with hresl
      set rb := AABBox.new_containing (slice hs1 (s + n / 2) (n - n / 2)) with hrbdef
      set resr := buildT rb (s + n / 2) (n - n / 2) (d + 1) resl.2 with hresr
      obtain ⟨l1, l2, l3⟩ := buildT_frame MAX_BVH_DEPTH lb s (n / 2) (d + 1) hs1
        (by omega) (by rw [hlen1]; omega)
      rw [← hresl] at l1 l2 l3
      obtain ⟨r1, r2, r3⟩ := buildT_frame MAX_BVH_DEPTH rb (s + n / 2) (n - n / 2)
        (d + 1) resl.2 (by omega) (by rw [l1, hlen1]; omega)
      rw [← hresr] at r1 r2 r3
      have precl : slice hs₂ s (n / 2) = slice resl.2 s (n / 2) := by
        rw [slice_front hs₂ s n (n / 2) (by omega), hsl,
          ← slice_front resr.2 s n (n / 2) (by omega)]
        exact slice_eq_of_take_eq resr.2 resl.2 s (n / 2) r2
      have precr : slice hs₂ (s + n / 2) (n - n / 2)
          = slice resr.2 (s + n / 2) (n - n / 2) := by
        rw [slice_sub hs₂ s n (n / 2) (n - n / 2) (by omega),
          slice_sub resr.2 s n (n / 2) (n - n / 2) (by omega), hsl]
      have tl := ih lb s (n / 2) (d + 1) hs1 hf' (by rw [hlen1]; omega) hs₂
        (by rw [precl, hresl])
      have tr := ih rb (s + n / 2) (n - n / 2) (d + 1) resl.2 hf'
        (by rw [l1, hlen1]; omega) hs₂ (by rw [precr, hresr])
      rw [← hresl] at tl
      rw [← hresr] at tr
      show tprims hs₂ resl.1 ++ tprims hs₂ resr.1 = slice hs₂ s n
      rw [tl, tr, ← slice_add]
      congr 1
      omega

theorem buildT_slice_perm : ∀ (f : ℕ) (b : AABBox) (s n d : ℕ) (hs : List Prim),
    MAX_BVH_DEPTH - d ≤ f → s + n ≤ hs.length →
    (slice (buildT b s n d hs).2 s n).Perm (slice hs s n) := by
  intro f
  induction f with
  | zero =>
    intro b s n d hs hf hlen
    rw [buildT_leaf _ _ _ _ _ (Or.inr (by omega))]
  | succ f ih =>
    intro b s n d hs hf hlen
    by_cases h : n = 1 ∨ MAX_BVH_DEPTH ≤ d
    · rw [buildT_leaf _ _ _ _ _ h]
    · have hd : d < MAX_BVH_DEPTH := by
        rcases not_or.mp h with ⟨_, h2⟩
        omega
      have hf' : MAX_BVH_DEPTH - (d + 1) ≤ f := by omega
      rw [buildT_node _ _ _ _ _ h]
      dsimp only
      generalize hks :
        sortSlice (fun p => (p.bbox.axis_interval b.longest_axis).min) hs s n = hs1
      have hlen1 : hs1.length = hs.length := by
        rw [← hks]
        exact sortSlice_length _ _ _ _ hlen
      have hms : slice hs1 s n
          = (slice hs s n).mergeSort
              (fun a c => decide ((a.bbox.axis_interval b.longest_axis).min
                ≤ (c.bbox.axis_interval b.longest_axis).min)) := by
        rw [← hks]
        exact sortSlice_slice _ _ _ _ hlen
      set lb := AABBox.new_containing (slice hs1 s (n / 2)) with hlbdef
      set resl := buildT lb s (n / 2) (d + 1) hs1 with hresl
      set rb := AABBox.new_containing (slice hs1 (s + n / 2) (n - n / 2)) with hrbdef
      set resr := buildT rb (s + n / 2) (n - n / 2) (d + 1) resl.2 with hresr
      obtain ⟨l1, l2, l3⟩ := buildT_frame MAX_BVH_DEPTH lb s (n / 2) (d + 1) hs1
        (by omega) (by rw [hlen1]; omega)
      rw [← hresl] at l1 l2 l3
      obtain ⟨r1, r2, r3⟩ := buildT_frame MAX_BVH_DEPTH rb (s + n / 2) (n - n / 2)
        (d + 1) resl.2 (by omega) (by rw [l1, hlen1]; omega)
      rw [← hresr] at r1 r2 r3
      have hdec : ∀ l₂ : List Prim, slice l₂ s n
          = slice l₂ s (n / 2) ++ slice l₂ (s + n / 2) (n - n / 2) := by
        intro l₂
        rw [← slice_add]
        congr 1
        omega
      have e1 : slice resr.2 s (n / 2) = slice resl.2 s (n / 2) :=
        slice_eq_of_take_eq resr.2 resl.2 s (n / 2) r2
      have e2 : slice resl.2 (s + n / 2) (n - n / 2)
          = slice hs1 (s + n / 2) (n - n / 2) :=
        slice_eq_of_drop_eq resl.2 hs1 (s + n / 2) (n - n / 2) l3
      have pl : (slice resl.2 s (n / 2)).Perm (slice hs1 s (n / 2)) := by
        have := ih lb s (n / 2) (d + 1) hs1 hf' (by rw [hlen1]; omega)
        rw [← hresl] at this
        exact this
      have pr : (slice resr.2 (s + n / 2) (n - n / 2)).Perm
          (slice resl.2 (s + n / 2) (n - n / 2)) := by
        have := ih rb (s + n / 2) (n - n / 2) (d + 1) resl.2 hf'
          (by rw [l1, hlen1]; omega)
        rw [← hresr] at this
        exact this
      show (slice resr.2 s n).Perm (slice hs s n)
      rw [hdec resr.2, e1]
      have hcomb : (slice resl.2 s (n / 2)
          ++ slice resr.2 (s + n / 2) (n - n / 2)).Perm
            (slice hs1 s (n / 2) ++ slice hs1 (s + n / 2) (n - n / 2)) :=
        List.Perm.append pl (pr.trans (by rw [e2]))
      refine hcomb.trans ?_
      rw [← hdec hs1, hms]
      exact List.mergeSort_perm _ _

theorem buildT_boxes : ∀ (f : ℕ) (b : AABBox) (s n d : ℕ) (hs : List Prim),
    MAX_BVH_DEPTH - d ≤ f → s + n ≤ hs.length →
    (∀ p ∈ hs, BoxWf p.bbox) → BoxWf b →
    (∀ p ∈ slice hs s n, boxSubset p.bbox b) → 1 ≤ n →
    ∀ hs₂ : List Prim, slice hs₂ s n = slice (buildT b s n d hs).2 s n →
    boxesOk hs₂ (buildT b s n d hs).1 := by
  intro f
  induction f with
  | zero =>
    intro b s n d hs hf hlen hwf hwb hcont hn hs₂ hsl
    rw [buildT_leaf _ _ _ _ _ (Or.inr (by omega))] at hsl ⊢
    exact ⟨hwb, fun p hp => hcont p (by rw [hsl] at hp; exact hp)⟩
  | succ f ih =>
    intro b s n d hs hf hlen hwf hwb hcont hn hs₂ hsl
    by_cases h : n = 1 ∨ MAX_BVH_DEPTH ≤ d
    · rw [buildT_leaf _ _ _ _ _ h] at hsl ⊢
      exact ⟨hwb, fun p hp => hcont p (by rw [hsl] at hp; exact hp)⟩
    · have hd : d < MAX_BVH_DEPTH := by
        rcases not_or.mp h with ⟨_, h2⟩
        omega
      have hn2 : 2 ≤ n := by
        rcases not_or.mp h with ⟨h1, _⟩
        omega
      have hf' : MAX_BVH_DEPTH - (d + 1) ≤ f := by omega
      rw [buildT_node _ _ _ _ _ h] at hsl ⊢
      dsimp only at hsl ⊢
      generalize hks :
        sortSlice (fun p => (p.bbox.axis_interval b.longest_axis).min) hs s n = hs1
        at hsl ⊢
      have hlen1 : hs1.length = hs.length := by
        rw [← hks]
        exact sortSlice_length _ _ _ _ hlen
      have hperm1 : hs1.Perm hs := by
        rw [← hks]
        exact sortSlice_perm _ hs s n
      have hwf1 : ∀ p ∈ hs1, BoxWf p.bbox := fun p hp => hwf p (hperm1.mem_iff.mp hp)
      have hslice1 : (slice hs1 s n).Perm (slice hs s n) := by
        have hms : slice hs1 s n
            = (slice hs s n).mergeSort
                (fun a c => decide ((a.bbox.axis_interval b.longest_axis).min
                  ≤ (c.bbox.axis_interval b.longest_axis).min)) := by
          rw [← hks]
          exact sortSlice_slice _ _ _ _ hlen
        rw [hms]
        exact List.mergeSort_perm _ _
      set lb := AABBox.new_containing (slice hs1 s (n / 2)) with hlbdef
      set resl := buildT lb s (n / 2) (d + 1) hs1 with hresl
      set rb := AABBox.new_containing (slice hs1 (s + n / 2) (n - n / 2)) with hrbdef
      set resr := buildT rb (s + n / 2) (n - n / 2) (d + 1) resl.2 with hresr
      obtain ⟨l1, l2, l3⟩ := buildT_frame MAX_BVH_DEPTH lb s (n / 2) (d + 1) hs1
        (by omega) (by rw [hlen1]; omega)
      rw [← hresl] at l1 l2 l3
      obtain ⟨r1, r2, r3⟩ := buildT_frame MAX_BVH_DEPTH rb (s + n / 2) (n - n / 2)
        (d + 1) resl.2 (by omega) (by rw [l1, hlen1]; omega)
      rw [← hresr] at r1 r2 r3
      have hreslp : resl.2.Perm hs1 := by
        have := buildT_perm MAX_BVH_DEPTH lb s (n / 2) (d + 1) hs1 (by omega)
        rw [← hresl] at this
        exact this
      have hwfl : ∀ p ∈ resl.2, BoxWf p.bbox :=
        fun p hp => hwf1 p (hreslp.mem_iff.mp hp)
      have hlslice : slice resl.2 (s + n / 2) (n - n / 2)
          = slice hs1 (s + n / 2) (n - n / 2) :=
        slice_eq_of_drop_eq resl.2 hs1 (s + n / 2) (n - n / 2) l3
      have hlwf : BoxWf lb := by
        rw [hlbdef]
        refine new_containing_wf _ ?_ ?_
        · have : (slice hs1 s (n / 2)).length = n / 2 :=
            slice_length hs1 s (n / 2) (by rw [hlen1]; omega)
          intro e
          rw [e] at this
          simp at this
          omega
        · exact fun p hp => hwf1 p (mem_of_mem_slice hs1 s (n / 2) hp)
      have hrwf : BoxWf rb := by
        rw [hrbdef]
        refine new_containing_wf _ ?_ ?_
        · have : (slice hs1 (s + n / 2) (n - n / 2)).length = n - n / 2 :=
            slice_length hs1 (s + n / 2) (n - n / 2) (by rw [hlen1]; omega)
          intro e
          rw [e] at this
          simp at this
          omega
        · exact fun p hp =>
            hwf1 p (mem_of_mem_slice hs1 (s + n / 2) (n - n / 2) hp)
      have precl : slice hs₂ s (n / 2) = slice resl.2 s (n / 2) := by
        rw [slice_front hs₂ s n (n / 2) (by omega), hsl,
          ← slice_front resr.2 s n (n / 2) (by omega)]
        exact slice_eq_of_take_eq resr.2 resl.2 s (n / 2) r2
      have precr : slice hs₂ (s + n / 2) (n - n / 2)
          = slice resr.2 (s + n / 2) (n - n / 2) := by
        rw [slice_sub hs₂ s n (n / 2) (n - n / 2) (by omega),
          slice_sub resr.2 s n (n / 2) (n - n / 2) (by omega), hsl]
      have hokl : boxesOk hs₂ resl.1 := by
        have := ih lb s (n / 2) (d + 1) hs1 hf' (by rw [hlen1]; omega) hwf1 hlwf
          (fun p hp => by rw [hlbdef]; exact new_containing_superset _ p hp)
          (by omega) hs₂ (by rw [precl, hresl])
        rw [← hresl] at this
        exact this
      have hokr : boxesOk hs₂ resr.1 := by
        have := ih rb (s + n / 2) (n - n / 2) (d + 1) resl.2 hf'
          (by rw [l1, hlen1]; omega) hwfl hrwf
          (fun p hp => by
            rw [hlslice] at hp
            rw [hrbdef]
            exact new_containing_superset _ p hp)
          (by omega) hs₂ (by rw [precr, hresr])
        rw [← hresr] at this
        exact this
      have tl := buildT_slices MAX_BVH_DEPTH lb s (n / 2) (d + 1) hs1 (by omega)
        (by rw [hlen1]; omega) hs₂ (by rw [precl, hresl])
      have tr := buildT_slices MAX_BVH_DEPTH rb (s + n / 2) (n - n / 2) (d + 1)
        resl.2 (by omega) (by rw [l1, hlen1]; omega) hs₂ (by rw [precr, hresr])
      rw [← hresl] at tl
      rw [← hresr] at tr
      refine ⟨⟨hwb, ?_⟩, hokl, hokr⟩
      intro p hp
      rw [tl, tr] at hp
      have hpin : p ∈ slice hs₂ s n := by
        have hdec : slice hs₂ s n
            = slice hs₂ s (n / 2) ++ slice hs₂ (s + n / 2) (n - n / 2) := by
          rw [← slice_add]
          congr 1
          omega
        rw [hdec]
        exact hp
      rw [hsl] at hpin
      have hp2 : p ∈ slice hs s n := by
        have hpp : (slice resr.2 s n).Perm (slice hs s n) := by
          have := buildT_slice_perm (f + 1) b s n d hs (by omega) hlen
          rw [buildT_node _ _ _ _ _ h] at this
          dsimp only at this
          rw [hks] at this
          rw [← hresl, ← hresr] at this
          exact this
        exact hpp.mem_iff.mp hpin
      exact hcont p hp2

/-- NodeRepr with explicit bounds on the indices of all non-root nodes of the
represented subtree: they lie in [lo, hi).  Used to transfer representations
through later writes to disjoint index ranges. -/
inductive NodeReprB (nodes : List Node) (lo hi : ℕ) : ℕ → Tree → Prop where
  | leaf (idx : ℕ) (bbox : AABBox) (start n : ℕ)
      (h : nodes.getD idx Node.dummy = ⟨bbox, start, some n⟩) :
      NodeReprB nodes lo hi idx (.leaf bbox start n)
  | node (idx : ℕ) (bbox : AABBox) (s : ℕ) (l rt : Tree)
      (h : nodes.getD idx Node.dummy = ⟨bbox, s, none⟩)
      (hlo : lo ≤ s) (hhi : s + 1 < hi)
      (hl : NodeReprB nodes lo hi s l) (hr : NodeReprB nodes lo hi (s + 1) rt) :
      NodeReprB nodes lo hi idx (.node bbox l rt)

theorem nodeReprB_weaken (nodes : List Node) (lo hi lo' hi' : ℕ) :
    ∀ (idx : ℕ) (T : Tree), NodeReprB nodes lo hi idx T → lo' ≤ lo → hi ≤ hi' →
    NodeReprB nodes lo' hi' idx T := by
  intro idx T h
  induction h with
  | leaf idx bbox start n h =>
    intro h1 h2
    exact .leaf idx bbox start n h
  | node idx bbox s l rt h hlo hhi hl hr ihl ihr =>
    intro h1 h2
    exact .node idx bbox s l rt h (by omega) (by omega) (ihl h1 h2) (ihr h1 h2)

theorem nodeReprB_transfer (nodes nodes' : List Node) (lo hi : ℕ) :
    ∀ (idx : ℕ) (T : Tree), NodeReprB nodes lo hi idx T →
    nodes'.getD idx Node.dummy = nodes.getD idx Node.dummy →
    (∀ j, lo ≤ j → j < hi → nodes'.getD j Node.dummy = nodes.getD j Node.dummy) →
    NodeReprB nodes' lo hi idx T := by
  intro idx T h
  induction h with
  | leaf idx bbox start n h =>
    intro hroot hrange
    exact .leaf idx bbox start n (by rw [hroot]; exact h)
  | node idx bbox s l rt h hlo hhi hl hr ihl ihr =>
    intro hroot hrange
    exact .node idx bbox s l rt (by rw [hroot]; exact h) hlo hhi
      (ihl (hrange s hlo (by omega)) hrange)
      (ihr (hrange (s + 1) (by omega) (by omega)) hrange)

theorem nodeReprB_repr (nodes : List Node) (lo hi : ℕ) :
    ∀ (idx : ℕ) (T : Tree), NodeReprB nodes lo hi idx T → NodeRepr nodes idx T := by
  intro idx T h
  induction h with
  | leaf idx bbox start n h => exact .leaf idx bbox start n h
  | node idx bbox s l rt h hlo hhi hl hr ihl ihr => exact .node idx bbox s l rt h ihl ihr

theorem getD_map_conv (l : List FatNode) (j : ℕ) :
    (l.map (fun nd => Node.mk nd.bbox nd.start nd.n)).getD j Node.dummy
      = Node.mk (l.getD j FatNode.dummy).bbox (l.getD j FatNode.dummy).start
          (l.getD j FatNode.dummy).n :=
  getD_map _ l j FatNode.dummy

theorem split_leaf (p s n d : ℕ) (nodes : List FatNode) (hs : List Prim)
    (h : n = 1 ∨ MAX_BVH_DEPTH ≤ d) :
    split p s n d nodes hs
      = (nodes.set p
          { (nodes.getD p FatNode.dummy) with start := s, n := some n }, hs) := by
  rw [split, dif_pos h]

theorem split_node (p s n d : ℕ) (nodes : List FatNode) (hs : List Prim)
    (h : ¬ (n = 1 ∨ MAX_BVH_DEPTH ≤ d)) :
    split p s n d nodes hs =
      (let axis := (nodes.getD p FatNode.dummy).bbox.longest_axis
       let hs1 := sortSlice (fun q => (q.bbox.axis_interval axis).min) hs s n
       let nleft := n / 2
       let nright := n - nleft
       let lbbox := AABBox.new_containing (slice hs1 s nleft)
       let nodes1 := nodes ++ [FatNode.new lbbox s]
       let rbbox := AABBox.new_containing (slice hs1 (s + nleft) nright)
       let nodes2 := nodes1 ++ [FatNode.new rbbox (s + nleft)]
       let lidx := nodes2.length - 2
       let ridx := nodes2.length - 1
       let nodes3 := nodes2.set p
         { (nodes2.getD p FatNode.dummy) with start := lidx }
       let res := split lidx s nleft (d + 1) nodes3 hs1
       split ridx (s + nleft) nright (d + 1) res.1 res.2) := by
  rw [split, dif_neg h]

/-- The joint correctness of split against its recursion tree buildT: the
primitive list is threaded identically, nodes outside the written range are
untouched, and the flat array represents the tree at the parent index with
all new nodes appended past the old length. -/
theorem split_spec : ∀ (f : ℕ) (p s n d : ℕ) (nodes : List FatNode) (hs : List Prim),
    MAX_BVH_DEPTH - d ≤ f →
    p < nodes.length →
    (nodes.getD p FatNode.dummy).n = none →
    (split p s n d nodes hs).2 = (buildT (nodes.getD p FatNode.dummy).bbox s n d hs).2
    ∧ nodes.length ≤ (split p s n d nodes hs).1.length
    ∧ (∀ j, j < nodes.length → j ≠ p →
        (split p s n d nodes hs).1.getD j FatNode.dummy = nodes.getD j FatNode.dummy)
    ∧ NodeReprB ((split p s n d nodes hs).1.map
        (fun nd => Node.mk nd.bbox nd.start nd.n))
        nodes.length (split p s n d nodes hs).1.length
        p (buildT (nodes.getD p FatNode.dummy).bbox s n d hs).1 := by
  intro f
  induction f with
  | zero =>
    intro p s n d nodes hs hf hp hnone
    have h : n = 1 ∨ MAX_BVH_DEPTH ≤ d := Or.inr (by omega)
    rw [split_leaf _ _ _ _ _ _ h, buildT_leaf _ _ _ _ _ h]
    refine ⟨rfl, le_of_eq (by rw [List.length_set]),
      fun j hj hjp => getD_set_ne _ _ _ _ _ (fun e => hjp e.symm), ?_⟩
    refine NodeReprB.leaf p _ s n ?_
    rw [getD_map_conv, getD_set_self _ _ _ _ hp]
  | succ f ih =>
    intro p s n d nodes hs hf hp hnone
    by_cases h : n = 1 ∨ MAX_BVH_DEPTH ≤ d
    · rw [split_leaf _ _ _ _ _ _ h, buildT_leaf _ _ _ _ _ h]
      refine ⟨rfl, le_of_eq (by rw [List.length_set]),
        fun j hj hjp => getD_set_ne _ _ _ _ _ (fun e => hjp e.symm), ?_⟩
      refine NodeReprB.leaf p _ s n ?_
      rw [getD_map_conv, getD_set_self _ _ _ _ hp]
    · have hd : d < MAX_BVH_DEPTH := by
        rcases not_or.mp h with ⟨_, h2⟩
        omega
      have hf' : MAX_BVH_DEPTH - (d + 1) ≤ f := by omega
      rw [split_node _ _ _ _ _ _ h, buildT_node _ _ _ _ _ h]
      dsimp only
      generalize hks : sortSlice
        (fun q => (q.bbox.axis_interval
          (nodes.getD p FatNode.dummy).bbox.longest_axis).min) hs s n = hs1
      set lbbox := AABBox.new_containing (slice hs1 s (n / 2)) with hlbdef
      set rbbox := AABBox.new_containing (slice hs1 (s + n / 2) (n - n / 2)) with hrbdef
      set B := (nodes ++ [FatNode.new lbbox s]) ++ [FatNode.new rbbox (s + n / 2)]
        with hBdef
      have hBlen : B.length = nodes.length + 2 := by
        rw [hBdef]
        simp
      rw [hBlen]
      have harith1 : nodes.length + 2 - 2 = nodes.length := by omega
      have harith2 : nodes.length + 2 - 1 = nodes.length + 1 := by omega
      rw [harith1, harith2]
      set C := B.set p
        { (B.getD p FatNode.dummy) with start := nodes.length } with hCdef
      have hClen : C.length = nodes.length + 2 := by
        rw [hCdef, List.length_set, hBlen]
      have hBgetp : B.getD p FatNode.dummy = nodes.getD p FatNode.dummy := by
        rw [hBdef, getD_append_left _ _ _ _
            (by simp only [List.length_append, List.length_singleton]; omega),
          getD_append_left _ _ _ _ hp]
      have hCgetp : C.getD p FatNode.dummy
          = { (nodes.getD p FatNode.dummy) with start := nodes.length } := by
        rw [hCdef, getD_set_self _ _ _ _ (by rw [hBlen]; omega), hBgetp]
      have hCgetl : C.getD nodes.length FatNode.dummy = FatNode.new lbbox s := by
        rw [hCdef, getD_set_ne _ _ _ _ _ (by omega), hBdef,
          getD_append_left _ _ _ _
            (by simp only [List.length_append, List.length_singleton]; omega),
          getD_append_at _ _ _ _ (by omega), Nat.sub_self]
        rfl
      have hCgetr : C.getD (nodes.length + 1) FatNode.dummy
          = FatNode.new rbbox (s + n / 2) := by
        rw [hCdef, getD_set_ne _ _ _ _ _ (by omega), hBdef,
          getD_append_at _ _ _ _
            (by simp only [List.length_append, List.length_singleton]; omega)]
        have hidx : nodes.length + 1 - (nodes ++ [FatNode.new lbbox s]).length = 0 := by
          simp only [List.length_append, List.length_singleton]
          omega
        rw [hidx]
        rfl
      have hCframe : ∀ j, j < nodes.length → j ≠ p →
          C.getD j FatNode.dummy = nodes.getD j FatNode.dummy := by
        intro j hj hjp
        rw [hCdef, getD_set_ne _ _ _ _ _ (fun e => hjp e.symm), hBdef,
          getD_append_left _ _ _ _
            (by simp only [List.length_append, List.length_singleton]; omega),
          getD_append_left _ _ _ _ hj]
      obtain ⟨L1, L2, L3, L4⟩ := ih nodes.length s (n / 2) (d + 1) C hs1 hf'
        (by rw [hClen]; omega) (by rw [hCgetl]; rfl)
      rw [hCgetl] at L1 L4
      simp only [FatNode.new] at L1 L4
      obtain ⟨R1, R2, R3, R4⟩ := ih (nodes.length + 1) (s + n / 2) (n - n / 2)
        (d + 1) (split nodes.length s (n / 2) (d + 1) C hs1).1
        (split nodes.length s (n / 2) (d + 1) C hs1).2 hf'
        (by rw [hClen] at L2; omega)
        (by rw [L3 (nodes.length + 1) (by rw [hClen]; omega) (by omega), hCgetr]; rfl)
      rw [L3 (nodes.length + 1) (by rw [hClen]; omega) (by omega), hCgetr] at R1 R4
      simp only [FatNode.new] at R1 R4
      refine ⟨?_, ?_, ?_, ?_⟩
      · rw [← L1]
        exact R1
      · rw [hClen] at L2
        omega
      · intro j hj hjp
        rw [R3 j (by rw [hClen] at L2; omega) (by omega),
          L3 j (by rw [hClen]; omega) (by omega), hCframe j hj hjp]
      · -- the representation of the parent node
        rw [← L1]
        have hhi2 : nodes.length + 2
            ≤ (split (nodes.length + 1) (s + n / 2) (n - n / 2) (d + 1)
                (split nodes.length s (n / 2) (d + 1) C hs1).1
                (split nodes.length s (n / 2) (d + 1) C hs1).2).1.length := by
          rw [hClen] at L2
          omega
        refine NodeReprB.node p _ nodes.length _ _ ?_ (le_refl _) (by omega) ?_ ?_
        · rw [getD_map_conv,
            R3 p (by rw [hClen] at L2; omega) (by omega),
            L3 p (by rw [hClen]; omega) (by omega), hCgetp, hnone]
        · -- left subtree
          have htrans := nodeReprB_transfer
            ((split nodes.length s (n / 2) (d + 1) C hs1).1.map
              (fun nd => Node.mk nd.bbox nd.start nd.n))
            ((split (nodes.length + 1) (s + n / 2) (n - n / 2) (d + 1)
                (split nodes.length s (n / 2) (d + 1) C hs1).1
                (split nodes.length s (n / 2) (d + 1) C hs1).2).1.map
              (fun nd => Node.mk nd.bbox nd.start nd.n))
            C.length (split nodes.length s (n / 2) (d + 1) C hs1).1.length
            nodes.length _ L4
            (by rw [getD_map_conv, getD_map_conv,
              R3 nodes.length (by rw [hClen] at L2; omega) (by omega)])
            (fun j hj1 hj2 => by
              rw [getD_map_conv, getD_map_conv,
                R3 j (by omega) (by rw [hClen] at hj1; omega)])
          exact nodeReprB_weaken _ _ _ _ _ _ _ htrans (by omega) (by omega)
        · -- right subtree
          exact nodeReprB_weaken _ _ _ _ _ _ _ R4 (by rw [hClen] at L2; omega)
            (le_refl _)

/-- The recursion tree of split over the EMPTY scene: with n = 0 the leaf
condition n == 1 never fires, so split recurses to the depth cutoff building
a full binary tree of interior nodes with EMPTY boxes. -/
def emptyT (d : ℕ) : Tree :=
  if h : MAX_BVH_DEPTH ≤ d then .leaf AABBox.EMPTY 0 0
  else .node AABBox.EMPTY (emptyT (d + 1)) (emptyT (d + 1))
termination_by MAX_BVH_DEPTH - d
decreasing_by
  all_goals
    simp only [MAX_BVH_DEPTH] at h ⊢
    omega

theorem emptyT_box (d : ℕ) : (emptyT d).box = AABBox.EMPTY := by
  rw [emptyT]
  split <;> rfl

theorem new_containing_nil : AABBox.new_containing [] = AABBox.EMPTY := rfl

theorem sortSlice_nil (key : Prim → QE) (s n : ℕ) : sortSlice key [] s n = [] := by
  simp [sortSlice]

theorem buildT_empty : ∀ (f d : ℕ), MAX_BVH_DEPTH - d ≤ f →
    buildT AABBox.EMPTY 0 0 d [] = (emptyT d, []) := by
  intro f
  induction f with
  | zero =>
    intro d hf
    rw [buildT_leaf _ _ _ _ _ (Or.inr (by omega)), emptyT, dif_pos (by omega)]
  | succ f ih =>
    intro d hf
    by_cases h : MAX_BVH_DEPTH ≤ d
    · rw [buildT_leaf _ _ _ _ _ (Or.inr h), emptyT, dif_pos h]
    · have h0 : ¬ ((0 : ℕ) = 1 ∨ MAX_BVH_DEPTH ≤ d) := by simp [h]
      rw [buildT_node _ _ _ _ _ h0]
      dsimp only
      rw [sortSlice_nil]
      simp only [Nat.zero_div, Nat.add_zero, Nat.sub_zero]
      rw [show slice ([] : List Prim) 0 0 = [] from rfl, new_containing_nil]
      rw [ih (d + 1) (by omega)]
      dsimp only
      rw [ih (d + 1) (by omega)]
      conv_rhs => rw [emptyT]
      rw [dif_neg h]

theorem split_zero_length : ∀ (f p s d : ℕ) (nodes : List FatNode) (hs : List Prim),
    MAX_BVH_DEPTH - d ≤ f →
    nodes.length + (MAX_BVH_DEPTH - d) ≤ (split p s 0 d nodes hs).1.length := by
  intro f
  induction f with
  | zero =>
    intro p s d nodes hs hf
    rw [split_leaf _ _ _ _ _ _ (Or.inr (by omega))]
    dsimp only
    rw [List.length_set]
    omega
  | succ f ih =>
    intro p s d nodes hs hf
    by_cases h : MAX_BVH_DEPTH ≤ d
    · rw [split_leaf _ _ _ _ _ _ (Or.inr h)]
      dsimp only
      rw [List.length_set]
      omega
    · have h0 : ¬ ((0 : ℕ) = 1 ∨ MAX_BVH_DEPTH ≤ d) := by simp [h]
      rw [split_node _ _ _ _ _ _ h0]
      dsimp only
      simp only [Nat.zero_div, Nat.add_zero, Nat.sub_zero]
      refine le_trans ?_ (ih _ _ _ _ _ (by omega))
      refine le_trans ?_ (Nat.add_le_add_right (ih _ _ _ _ _ (by omega)) _)
      simp only [List.length_set, List.length_append, List.length_singleton]
      omega

/-- The diagonal ray from the origin used for the empty-scene query. -/
def c2ray : Ray := ⟨⟨0, 0, 0⟩, ⟨1, 1, 1⟩⟩

/-- The EMPTY box (min = +inf, max = -inf on every axis) is reported HIT at
the window's near bound by the slab test: the per-axis t1/t2 come out as
-inf/+inf after the fast_min/fast_max swap, so tnear = ray_t.min and
tfar = ray_t.max and the test passes. -/
theorem c2_empty_hit_dist :
    AABBox.EMPTY.hit_dist c2ray (Interval.new (QE.fin (1/1000)) QE.pinf)
      = QE.fin (1/1000) := by
  rw [aabbox_empty_eq]
  norm_num [AABBox.hit_dist, AABBox.slab_near, AABBox.slab_far, AABBox.slabT1,
    AABBox.slabT2, Interval.EMPTY, Ray.inv_dir, c2ray, QE.pinf_mul_fin_pos,
    QE.ninf_mul_fin_pos]

/-- Walking the left spine of the empty-scene tree: every interior node's
children are both pushed (their EMPTY boxes are hit below +infinity), so the
occupancy grows by one per level until the second push at occupancy
MAX_BVH_DEPTH writes out of bounds. -/
theorem c2_spine : ∀ (k j : ℕ) (stack : List Tree) (best : Option HitRecord),
    stack.length = MAX_BVH_DEPTH → j + 1 ≤ MAX_BVH_DEPTH →
    MAX_BVH_DEPTH - j ≤ k →
    stack.getD j Tree.dummy = emptyT j →
    treeAux [] c2ray (QE.fin (1/1000)) k stack (j + 1) QE.pinf best
      = .stackOverflow := by
  intro k
  induction k with
  | zero =>
    intro j stack best hlen hj hk hget
    exfalso
    omega
  | succ k ihk =>
    intro j stack best hlen hj hk hget
    simp only [treeAux]
    rw [if_neg (Nat.succ_ne_zero j)]
    simp only [Nat.add_sub_cancel]
    rw [hget]
    have hj15 : ¬ MAX_BVH_DEPTH ≤ j := by omega
    rw [emptyT, dif_neg hj15]
    dsimp only
    rw [emptyT_box, c2_empty_hit_dist]
    simp only [treeExpand, treePushChild]
    rw [if_neg (lt_irrefl (QE.fin (1/1000)))]
    dsimp only
    rcases Nat.lt_or_ge (j + 1) MAX_BVH_DEPTH with hcap | hcap
    · rw [if_pos (QE.fin_lt_pinf _), if_pos (show j < MAX_BVH_DEPTH by omega)]
      dsimp only
      rw [if_pos (QE.fin_lt_pinf _), if_pos hcap]
      dsimp only
      refine ihk (j + 1) _ best ?_ ?_ ?_ ?_
      · rw [List.length_set, List.length_set]
        exact hlen
      · omega
      · omega
      · rw [getD_set_self _ _ _ _ (by rw [List.length_set, hlen]; omega)]
    · rw [if_pos (QE.fin_lt_pinf _), if_pos (show j < MAX_BVH_DEPTH by omega)]
      dsimp only
      rw [if_pos (QE.fin_lt_pinf _), if_neg (by omega)]

/-- Bvh::new unfolded as an equation (proved at a general argument, where the
recursion of split is stuck, keeping the definitional check cheap). -/
theorem Bvh_new_def (hittables : List Prim) :
    Bvh.new hittables =
      ⟨(split 0 0 hittables.length 0
          [FatNode.new (AABBox.new_containing hittables) 0] hittables).2,
       (split 0 0 hittables.length 0
          [FatNode.new (AABBox.new_containing hittables) 0] hittables).1.map
         (fun nd => Node.mk nd.bbox nd.start nd.n),
       AABBox.new_containing hittables⟩ := rfl

/-- C2: REFUTED (code bug).  The claim says every Bvh::hits query writes only
stack indices 0..MAX_BVH_DEPTH-1 for any number of primitives.  For the EMPTY
primitive list, split recurses with n = 0 to the depth cutoff (the n == 1
leaf condition never fires), producing interior nodes to depth
MAX_BVH_DEPTH - 1; their EMPTY boxes pass the slab test at the window's near
bound, so every pop pushes two children and the occupancy reaches
MAX_BVH_DEPTH, at which point the second push writes stack[MAX_BVH_DEPTH] —
out of bounds for the [usize; MAX_BVH_DEPTH] array (a panic in the source,
TraceResult.stackOverflow in the model). -/
theorem c2_empty_scene_stack_overflow :
    Bvh.hits (Bvh.new []) c2ray (Interval.new (QE.fin (1/1000)) QE.pinf)
      = TraceResult.stackOverflow := by
  obtain ⟨S1, S2, S3, S4⟩ := split_spec MAX_BVH_DEPTH 0 0 0 0
    [FatNode.new (AABBox.new_containing []) 0] [] (by omega) (by simp) rfl
  have hbb : ([FatNode.new (AABBox.new_containing []) 0].getD 0 FatNode.dummy).bbox
      = AABBox.EMPTY := rfl
  rw [hbb] at S1 S4
  rw [buildT_empty MAX_BVH_DEPTH 0 (by omega)] at S1 S4
  dsimp only at S1 S4
  have hhitts : (Bvh.new []).hittables = [] := by
    rw [Bvh_new_def]
    dsimp only
    rw [List.length_nil]
    exact S1
  have hz := split_zero_length MAX_BVH_DEPTH 0 0 0
    [FatNode.new (AABBox.new_containing []) 0] [] (by omega)
  simp only [List.length_singleton, MAX_BVH_DEPTH, Nat.sub_zero] at hz
  have hnlen : 17 ≤ (Bvh.new []).nodes.length := by
    rw [Bvh_new_def]
    dsimp only
    rw [List.length_nil, List.length_map]
    omega
  have hcorr : ∀ jj, jj < 1 →
      NodeRepr (Bvh.new []).nodes
        (((List.replicate MAX_BVH_DEPTH 0).set 0 0).getD jj 0)
        (((List.replicate MAX_BVH_DEPTH Tree.dummy).set 0 (emptyT 0)).getD jj
          Tree.dummy) := by
    intro jj hjj
    have hjj0 : jj = 0 := by omega
    subst hjj0
    rw [getD_set_self _ _ _ _ (by rw [List.length_replicate]; simp [MAX_BVH_DEPTH]),
      getD_set_self _ _ _ _ (by rw [List.length_replicate]; simp [MAX_BVH_DEPTH])]
    rw [Bvh_new_def]
    dsimp only
    rw [List.length_nil]
    exact nodeReprB_repr _ _ _ _ _ S4
  show hitsAux (Bvh.new []) c2ray (QE.fin (1/1000))
    (2 * (Bvh.new []).nodes.length + 2) ((List.replicate MAX_BVH_DEPTH 0).set 0 0)
    1 QE.pinf none = TraceResult.stackOverflow
  rw [hitsAux_eq_treeAux (Bvh.new []) c2ray (QE.fin (1/1000))
    (2 * (Bvh.new []).nodes.length + 2)
    ((List.replicate MAX_BVH_DEPTH 0).set 0 0)
    ((List.replicate MAX_BVH_DEPTH Tree.dummy).set 0 (emptyT 0)) 1 QE.pinf none
    (by rw [List.length_set, List.length_replicate])
    (by rw [List.length_set, List.length_replicate])
    (by simp [MAX_BVH_DEPTH]) hcorr]
  rw [hhitts]
  refine c2_spine (2 * (Bvh.new []).nodes.length + 2) 0
    ((List.replicate MAX_BVH_DEPTH Tree.dummy).set 0 (emptyT 0)) none
    (by rw [List.length_set, List.length_replicate])
    (by simp [MAX_BVH_DEPTH])
    (by simp only [MAX_BVH_DEPTH, Nat.sub_zero]
        omega) ?_
  rw [getD_set_self _ _ _ _ (by rw [List.length_replicate]; simp [MAX_BVH_DEPTH])]

theorem slice_full {α : Type} (l : List α) : slice l 0 l.length = l := by
  simp [slice]

/-- C1 (amended): for every NONEMPTY primitive list and every ray with
nonzero direction components and query interval starting at a non-negative
distance, if every primitive is well-behaved (its hits routine reports the
smallest windowed candidate, its cached box brackets its candidates with a
positive exit, its box is finite and non-inverted, and no candidate distance
equals the window's far bound exactly), then a normally-returning Bvh::hits
traversal reports a hit at the SAME distance as the brute-force linear scan
HittableList::hits (in particular None exactly when the scan misses).  The
original claim is refuted for windows reaching behind the ray origin: the
slab test prunes boxes entirely behind the origin while the linear scan still
reports their negative-distance hits (see the counterexample). -/
theorem c1_amended (prims : List Prim) (r : Ray) (ray_t : Interval)
    (res : Option HitRecord)
    (hne : prims ≠ [])
    (hdir : DirOk r)
    (hlo0 : QE.fin 0 ≤ ray_t.min)
    (hok : ∀ p ∈ prims, PrimOk p r)
    (hbox : ∀ p ∈ prims, PrimBoxOk p r)
    (hwf : ∀ p ∈ prims, BoxWf p.bbox)
    (hneq : ∀ p ∈ prims, ∀ c ∈ p.cands r, QE.fin c ≠ ray_t.max)
    (hrun : Bvh.hits (Bvh.new prims) r ray_t = TraceResult.ok res) :
    res.map (fun hrec : HitRecord => hrec.t)
      = (HittableList.hits prims r ray_t).map (fun hrec : HitRecord => hrec.t) := by
  obtain ⟨S1, S2, S3, S4⟩ := split_spec MAX_BVH_DEPTH 0 0 prims.length 0
    [FatNode.new (AABBox.new_containing prims) 0] prims (by omega) (by simp) rfl
  have hbb : ([FatNode.new (AABBox.new_containing prims) 0].getD 0
      FatNode.dummy).bbox = AABBox.new_containing prims := rfl
  rw [hbb] at S1 S4
  set bT := buildT (AABBox.new_containing prims) 0 prims.length 0 prims with hbT
  have hperm : bT.2.Perm prims := by
    rw [hbT]
    exact buildT_perm MAX_BVH_DEPTH _ _ _ _ _ (by omega)
  have hlenF : bT.2.length = prims.length := by
    rw [hbT]
    exact (buildT_frame MAX_BVH_DEPTH _ _ _ _ _ (by omega) (by omega)).1
  have hslices : tprims bT.2 bT.1 = bT.2 := by
    have h1 : tprims bT.2 bT.1 = slice bT.2 0 prims.length := by
      rw [hbT]
      exact buildT_slices MAX_BVH_DEPTH _ _ _ _ _ (by omega) (by omega) _ rfl
    rw [h1, ← hlenF, slice_full]
  have hnpos : 1 ≤ prims.length := List.length_pos.mpr hne
  have hboxes : boxesOk bT.2 bT.1 := by
    rw [hbT]
    refine buildT_boxes MAX_BVH_DEPTH _ _ _ _ _ (by omega) (by omega) hwf
      (new_containing_wf prims hne hwf) ?_ hnpos _ rfl
    intro p hp
    rw [slice_full] at hp
    exact new_containing_superset prims p hp
  have hmem : ∀ p ∈ bT.2, p ∈ prims := fun p hp => hperm.mem_iff.mp hp
  have hokF : ∀ p ∈ bT.2, PrimOk p r := fun p hp => hok p (hmem p hp)
  have hboxF : ∀ p ∈ bT.2, PrimBoxOk p r := fun p hp => hbox p (hmem p hp)
  have hwfF : ∀ p ∈ bT.2, BoxWf p.bbox := fun p hp => hwf p (hmem p hp)
  have hneqF : ∀ p ∈ bT.2, ∀ c ∈ p.cands r, QE.fin c ≠ ray_t.max :=
    fun p hp => hneq p (hmem p hp)
  have hhitF : (Bvh.new prims).hittables = bT.2 := by
    rw [Bvh_new_def]
    dsimp only
    exact S1
  have hcorr : ∀ jj, jj < 1 →
      NodeRepr (Bvh.new prims).nodes
        (((List.replicate MAX_BVH_DEPTH 0).set 0 0).getD jj 0)
        (((List.replicate MAX_BVH_DEPTH Tree.dummy).set 0 bT.1).getD jj
          Tree.dummy) := by
    intro jj hjj
    have hjj0 : jj = 0 := by omega
    subst hjj0
    rw [getD_set_self _ _ _ _ (by rw [List.length_replicate]; simp [MAX_BVH_DEPTH]),
      getD_set_self _ _ _ _ (by rw [List.length_replicate]; simp [MAX_BVH_DEPTH])]
    rw [Bvh_new_def]
    dsimp only
    exact nodeReprB_repr _ _ _ _ _ S4
  have hrun' : hitsAux (Bvh.new prims) r ray_t.min
      (2 * (Bvh.new prims).nodes.length + 2)
      ((List.replicate MAX_BVH_DEPTH 0).set 0 0) 1 ray_t.max none
      = TraceResult.ok res := hrun
  rw [hitsAux_eq_treeAux (Bvh.new prims) r ray_t.min
    (2 * (Bvh.new prims).nodes.length + 2)
    ((List.replicate MAX_BVH_DEPTH 0).set 0 0)
    ((List.replicate MAX_BVH_DEPTH Tree.dummy).set 0 bT.1) 1 ray_t.max none
    (by rw [List.length_set, List.length_replicate])
    (by rw [List.length_set, List.length_replicate])
    (by simp [MAX_BVH_DEPTH]) hcorr] at hrun'
  rw [hhitF] at hrun'
  have hone : upTo ((List.replicate MAX_BVH_DEPTH Tree.dummy).set 0 bT.1) 1
      = [bT.1] := by
    rw [show (1 : ℕ) = 0 + 1 from rfl, upTo_succ, upTo_zero, List.nil_append,
      getD_set_self _ _ _ _ (by rw [List.length_replicate]; simp [MAX_BVH_DEPTH])]
  have hmain := treeAux_correct bT.2 r ray_t.min ray_t.max hlo0 hdir hokF hboxF
    hwfF hneqF (2 * (Bvh.new prims).nodes.length + 2)
    ((List.replicate MAX_BVH_DEPTH Tree.dummy).set 0 bT.1) 1 ray_t.max none res
    (listMin (allCands r ray_t.min ray_t.max bT.2))
    (by rw [List.length_set, List.length_replicate])
    (by simp [MAX_BVH_DEPTH])
    (by
      intro T' hT'
      rw [hone] at hT'
      have hT'' := List.mem_singleton.mp hT'
      subst hT''
      refine ⟨hboxes, ?_⟩
      rw [hslices]
      exact fun p hp => hp)
    rfl
    (by
      rw [hone, flatPrims_single, hslices]
      show omin none (listMin (allCands r ray_t.min ray_t.max bT.2)) = _
      rw [omin_none_left])
    hrun'
  rw [hmain, list_hits_g prims r ray_t hok]
  exact listMin_perm _ _ (allCands_perm r ray_t.min ray_t.max bT.2 prims hperm)

/-- A primitive sitting entirely behind the ray origin: box [-2,-1]^3 and a
single intersection candidate at distance -3/2; its hits routine reports the
smallest windowed candidate (closed window), like Quad. -/
def cp : Prim :=
  ⟨AABBox.new_from_points ⟨-2, -2, -2⟩ ⟨-1, -1, -1⟩, true,
   fun _ => [-(3/2)],
   fun r c => HitRecord.new c (r.at' c) ⟨0, 0, 1⟩ r (Material.dielectric 1) 0 0,
   fun r I =>
     (listMin (([-(3/2)] : List ℚ).filter
       (fun c => decide (inW true I.min I.max c)))).map
       (fun c => HitRecord.new c (r.at' c) ⟨0, 0, 1⟩ r (Material.dielectric 1) 0 0)⟩

/-- The diagonal unit-direction ray from the origin. -/
def c1ray : Ray := ⟨⟨0, 0, 0⟩, ⟨1, 1, 1⟩⟩

theorem perm_pair_same {α : Type} (a : α) (l : List α) (hp : l.Perm [a, a]) :
    l = [a, a] := by
  have hlen : l.length = 2 := by simpa using hp.length_eq
  cases l with
  | nil => simp at hlen
  | cons x l1 =>
    cases l1 with
    | nil => simp at hlen
    | cons y l2 =>
      cases l2 with
      | cons z l3 => simp at hlen
      | nil =>
        have hx : x ∈ [a, a] := hp.mem_iff.mp (by simp)
        have hy : y ∈ [a, a] := hp.mem_iff.mp (by simp)
        simp at hx hy
        rw [hx, hy]

theorem sortSlice_pair (key : Prim → QE) :
    sortSlice key [cp, cp] 0 2 = [cp, cp] := by
  unfold sortSlice
  have h1 : (([cp, cp] : List Prim).drop 0).take 2 = [cp, cp] := rfl
  rw [h1, perm_pair_same cp _ (List.mergeSort_perm _ _)]
  rfl

/-- The recursion tree built over [cp, cp]: one median split into two
single-primitive leaves (the sort is the identity on two equal keys). -/
theorem c1_buildT :
    buildT (AABBox.new_containing [cp, cp]) 0 2 0 [cp, cp]
      = (.node (AABBox.new_containing [cp, cp])
          (.leaf (AABBox.new_containing [cp]) 0 1)
          (.leaf (AABBox.new_containing [cp]) 1 1), [cp, cp]) := by
  rw [buildT_node _ _ _ _ _ (by simp [MAX_BVH_DEPTH])]
  dsimp only
  rw [sortSlice_pair]
  simp only [show (2 : ℕ) / 2 = 1 from rfl, show (2 : ℕ) - 1 = 1 from rfl,
    show (0 : ℕ) + 1 = 1 from rfl]
  rw [buildT_leaf _ 0 1 1 _ (Or.inl rfl)]
  dsimp only
  rw [buildT_leaf _ 1 1 1 _ (Or.inl rfl)]
  dsimp only
  rw [show slice ([cp, cp] : List Prim) 0 1 = [cp] from rfl,
    show slice ([cp, cp] : List Prim) 1 1 = [cp] from rfl]

/-- The child boxes of the [cp, cp] tree are missed by the slab test on the
window (-5, 5): the box sits at [-2,-1]^3 so tfar = -1 is not positive. -/
theorem c1_child_dist :
    (AABBox.new_containing [cp]).hit_dist c1ray
      (Interval.new (QE.fin (-5)) (QE.fin 5)) = QE.pinf := by
  norm_num [AABBox.new_containing, cp, AABBox.new_from_points,
    AABBox.new_enclosing, Interval.new_enclosing, AABBox.pad_to_minimum,
    AABBox.padAxis, Interval.size, Interval.expand, Interval.new, AABBox.EMPTY,
    AABBox.new, Interval.EMPTY, AABBox.hit_dist, AABBox.slab_near,
    AABBox.slab_far, AABBox.slabT1, AABBox.slabT2, Ray.inv_dir, c1ray]

theorem hitrec_new_t (t : ℚ) (p : P3) (n : V3) (r : Ray) (m : Material)
    (u v : ℚ) : (HitRecord.new t p n r m u v).t = t := rfl

/-- The counterexample to the original C1 claim: two identical primitives
behind the ray origin, queried with a window reaching negative distances.
The linear scan reports the hit at t = -3/2 while the BVH prunes the
children's boxes (their slab exit distance -1 is not positive, so hit_dist
is +infinity) and returns None. -/
theorem c1_counterexample :
    Bvh.hits (Bvh.new [cp, cp]) c1ray (Interval.new (QE.fin (-5)) (QE.fin 5))
      = TraceResult.ok none
    ∧ (HittableList.hits [cp, cp] c1ray
        (Interval.new (QE.fin (-5)) (QE.fin 5))).map
          (fun hrec : HitRecord => hrec.t) = some (-(3/2)) := by
  constructor
  · obtain ⟨S1, S2, S3, S4⟩ := split_spec MAX_BVH_DEPTH 0 0 2 0
      [FatNode.new (AABBox.new_containing [cp, cp]) 0] [cp, cp] (by omega)
      (by simp) rfl
    have hbb : ([FatNode.new (AABBox.new_containing [cp, cp]) 0].getD 0
        FatNode.dummy).bbox = AABBox.new_containing [cp, cp] := rfl
    rw [hbb, c1_buildT] at S1 S4
    dsimp only at S1 S4
    have hhitF : (Bvh.new [cp, cp]).hittables = [cp, cp] := by
      rw [Bvh_new_def]
      dsimp only
      rw [show ([cp, cp] : List Prim).length = 2 from rfl]
      exact S1
    have hcorr : ∀ jj, jj < 1 →
        NodeRepr (Bvh.new [cp, cp]).nodes
          (((List.replicate MAX_BVH_DEPTH 0).set 0 0).getD jj 0)
          (((List.replicate MAX_BVH_DEPTH Tree.dummy).set 0
            (Tree.node (AABBox.new_containing [cp, cp])
              (.leaf (AABBox.new_containing [cp]) 0 1)
              (.leaf (AABBox.new_containing [cp]) 1 1))).getD jj Tree.dummy) := by
      intro jj hjj
      have hjj0 : jj = 0 := by omega
      subst hjj0
      rw [getD_set_self _ _ _ _
          (by rw [List.length_replicate]; simp [MAX_BVH_DEPTH]),
        getD_set_self _ _ _ _
          (by rw [List.length_replicate]; simp [MAX_BVH_DEPTH])]
      rw [Bvh_new_def]
      dsimp only
      rw [show ([cp, cp] : List Prim).length = 2 from rfl]
      exact nodeReprB_repr _ _ _ _ _ S4
    show hitsAux (Bvh.new [cp, cp]) c1ray (QE.fin (-5))
      (2 * (Bvh.new [cp, cp]).nodes.length + 2)
      ((List.replicate MAX_BVH_DEPTH 0).set 0 0) 1 (QE.fin 5) none
      = TraceResult.ok none
    rw [hitsAux_eq_treeAux (Bvh.new [cp, cp]) c1ray (QE.fin (-5))
      (2 * (Bvh.new [cp, cp]).nodes.length + 2)
      ((List.replicate MAX_BVH_DEPTH 0).set 0 0)
      ((List.replicate MAX_BVH_DEPTH Tree.dummy).set 0
        (Tree.node (AABBox.new_containing [cp, cp])
          (.leaf (AABBox.new_containing [cp]) 0 1)
          (.leaf (AABBox.new_containing [cp]) 1 1))) 1 (QE.fin 5) none
      (by rw [List.length_set, List.length_replicate])
      (by rw [List.length_set, List.length_replicate])
      (by simp [MAX_BVH_DEPTH]) hcorr]
    rw [hhitF]
    have hfu : 2 * (Bvh.new [cp, cp]).nodes.length + 2
        = (2 * (Bvh.new [cp, cp]).nodes.length + 1) + 1 := by omega
    rw [hfu]
    simp only [treeAux]
    rw [if_neg (one_ne_zero)]
    simp only [show (1 : ℕ) - 1 = 0 from rfl]
    rw [getD_set_self _ _ _ _
      (by rw [List.length_replicate]; simp [MAX_BVH_DEPTH])]
    dsimp only
    rw [show (Tree.leaf (AABBox.new_containing [cp]) 0 1).box
        = AABBox.new_containing [cp] from rfl,
      show (Tree.leaf (AABBox.new_containing [cp]) 1 1).box
        = AABBox.new_containing [cp] from rfl,
      c1_child_dist]
    simp only [treeExpand, treePushChild]
    rw [if_neg (lt_irrefl QE.pinf)]
    dsimp only
    rw [if_neg (not_lt.mpr (QE.le_pinf (QE.fin 5)))]
    dsimp only
    rw [if_neg (not_lt.mpr (QE.le_pinf (QE.fin 5)))]
    dsimp only
    simp only [treeAux]
    simp
  · have hhit1 : cp.hits c1ray (Interval.new (QE.fin (-5)) (QE.fin 5))
        = some (HitRecord.new (-(3/2)) (c1ray.at' (-(3/2))) ⟨0, 0, 1⟩ c1ray
            (Material.dielectric 1) 0 0) := by
      show (listMin (([-(3/2)] : List ℚ).filter
        (fun c => decide (inW true (QE.fin (-5)) (QE.fin 5) c)))).map _ = _
      norm_num [inW, listMin]
    have hhit2 : cp.hits c1ray (Interval.new (QE.fin (-5)) (QE.fin (-(3/2))))
        = some (HitRecord.new (-(3/2)) (c1ray.at' (-(3/2))) ⟨0, 0, 1⟩ c1ray
            (Material.dielectric 1) 0 0) := by
      show (listMin (([-(3/2)] : List ℚ).filter
        (fun c => decide (inW true (QE.fin (-5)) (QE.fin (-(3/2))) c)))).map _ = _
      norm_num [inW, listMin]
    simp only [HittableList.hits, interval_new_min, interval_new_max, listHitsGo]
    rw [hhit1]
    simp only [hitrec_new_t]
    rw [hhit2]
    rfl

/-- A well-behaved primitive in front of the origin: box [1,2]^3, one
candidate at distance 3/2. -/
def wp : Prim :=
  ⟨AABBox.new_from_points ⟨1, 1, 1⟩ ⟨2, 2, 2⟩, true,
   fun _ => [3/2],
   fun r c => HitRecord.new c (r.at' c) ⟨0, 0, 1⟩ r (Material.dielectric 1) 0 0,
   fun r I =>
     (listMin (([3/2] : List ℚ).filter
       (fun c => decide (inW true I.min I.max c)))).map
       (fun c => HitRecord.new c (r.at' c) ⟨0, 0, 1⟩ r (Material.dielectric 1) 0 0)⟩

theorem wp_bbox :
    wp.bbox = ⟨Interval.new (.fin 1) (.fin 2), Interval.new (.fin 1) (.fin 2),
      Interval.new (.fin 1) (.fin 2)⟩ := by
  norm_num [wp, AABBox.new_from_points, AABBox.pad_to_minimum, AABBox.padAxis,
    Interval.size, Interval.new, Interval.expand]

theorem wp_hit :
    wp.hits c1ray (Interval.new (QE.fin (1/1000)) (QE.fin 10))
      = some (HitRecord.new (3/2) (c1ray.at' (3/2)) ⟨0, 0, 1⟩ c1ray
          (Material.dielectric 1) 0 0) := by
  show (listMin (([3/2] : List ℚ).filter
    (fun c => decide (inW true (QE.fin (1/1000)) (QE.fin 10) c)))).map _ = _
  norm_num [inW, listMin]

theorem wp_bvh_run :
    Bvh.hits (Bvh.new [wp]) c1ray (Interval.new (QE.fin (1/1000)) (QE.fin 10))
      = TraceResult.ok (some (HitRecord.new (3/2) (c1ray.at' (3/2)) ⟨0, 0, 1⟩
          c1ray (Material.dielectric 1) 0 0)) := by
  obtain ⟨S1, S2, S3, S4⟩ := split_spec MAX_BVH_DEPTH 0 0 1 0
    [FatNode.new (AABBox.new_containing [wp]) 0] [wp] (by omega) (by simp) rfl
  have hbb : ([FatNode.new (AABBox.new_containing [wp]) 0].getD 0
      FatNode.dummy).bbox = AABBox.new_containing [wp] := rfl
  rw [hbb, buildT_leaf _ _ _ _ _ (Or.inl rfl)] at S1 S4
  dsimp only at S1 S4
  have hhitF : (Bvh.new [wp]).hittables = [wp] := by
    rw [Bvh_new_def]
    dsimp only
    rw [show ([wp] : List Prim).length = 1 from rfl]
    exact S1
  have hcorr : ∀ jj, jj < 1 →
      NodeRepr (Bvh.new [wp]).nodes
        (((List.replicate MAX_BVH_DEPTH 0).set 0 0).getD jj 0)
        (((List.replicate MAX_BVH_DEPTH Tree.dummy).set 0
          (Tree.leaf (AABBox.new_containing [wp]) 0 1)).getD jj Tree.dummy) := by
    intro jj hjj
    have hjj0 : jj = 0 := by omega
    subst hjj0
    rw [getD_set_self _ _ _ _
        (by rw [List.length_replicate]; simp [MAX_BVH_DEPTH]),
      getD_set_self _ _ _ _
        (by rw [List.length_replicate]; simp [MAX_BVH_DEPTH])]
    rw [Bvh_new_def]
    dsimp only
    rw [show ([wp] : List Prim).length = 1 from rfl]
    exact nodeReprB_repr _ _ _ _ _ S4
  show hitsAux (Bvh.new [wp]) c1ray (QE.fin (1/1000))
    (2 * (Bvh.new [wp]).nodes.length + 2)
    ((List.replicate MAX_BVH_DEPTH 0).set 0 0) 1 (QE.fin 10) none
    = TraceResult.ok (some (HitRecord.new (3/2) (c1ray.at' (3/2)) ⟨0, 0, 1⟩
        c1ray (Material.dielectric 1) 0 0))
  rw [hitsAux_eq_treeAux (Bvh.new [wp]) c1ray (QE.fin (1/1000))
    (2 * (Bvh.new [wp]).nodes.length + 2)
    ((List.replicate MAX_BVH_DEPTH 0).set 0 0)
    ((List.replicate MAX_BVH_DEPTH Tree.dummy).set 0
      (Tree.leaf (AABBox.new_containing [wp]) 0 1)) 1 (QE.fin 10) none
    (by rw [List.length_set, List.length_replicate])
    (by rw [List.length_set, List.length_replicate])
    (by simp [MAX_BVH_DEPTH]) hcorr]
  rw [hhitF]
  have hfu : 2 * (Bvh.new [wp]).nodes.length + 2
      = (2 * (Bvh.new [wp]).nodes.length + 1) + 1 := by omega
  rw [hfu]
  simp only [treeAux]
  rw [if_neg (one_ne_zero)]
  simp only [show (1 : ℕ) - 1 = 0 from rfl]
  rw [getD_set_self _ _ _ _
    (by rw [List.length_replicate]; simp [MAX_BVH_DEPTH])]
  dsimp only
  rw [show slice ([wp] : List Prim) 0 1 = [wp] from rfl]
  simp only [leafScan]
  rw [wp_hit]
  dsimp only
  simp

/-- Witness for the amended C1 theorem: the one-primitive scene [wp], the
diagonal ray and the window (1/1000, 10) satisfy every hypothesis, and the
BVH's reported distance map equals the linear scan's. -/
theorem c1_amended_witness :
    (Option.map (fun hrec : HitRecord => hrec.t)
      (some (HitRecord.new (3/2) (c1ray.at' (3/2)) ⟨0, 0, 1⟩ c1ray
        (Material.dielectric 1) 0 0)))
      = (HittableList.hits [wp] c1ray
          (Interval.new (QE.fin (1/1000)) (QE.fin 10))).map
            (fun hrec : HitRecord => hrec.t) := by
  refine c1_amended [wp] c1ray (Interval.new (QE.fin (1/1000)) (QE.fin 10))
    (some (HitRecord.new (3/2) (c1ray.at' (3/2)) ⟨0, 0, 1⟩ c1ray
      (Material.dielectric 1) 0 0))
    (by simp) ?_ ?_ ?_ ?_ ?_ ?_ wp_bvh_run
  · exact ⟨by norm_num [c1ray], by norm_num [c1ray], by norm_num [c1ray]⟩
  · show QE.fin 0 ≤ QE.fin (1/1000)
    norm_num
  · intro p hp
    rw [List.mem_singleton] at hp
    subst hp
    exact ⟨fun I => rfl, fun c => rfl⟩
  · intro p hp
    rw [List.mem_singleton] at hp
    subst hp
    intro c hc hc0
    have hc32 : c = 3/2 := by simpa [wp] using hc
    subst hc32
    rw [wp_bbox]
    norm_num [AABBox.slab_near, AABBox.slab_far, AABBox.slabT1, AABBox.slabT2,
      Ray.inv_dir, c1ray]
  · intro p hp
    rw [List.mem_singleton] at hp
    subst hp
    rw [wp_bbox]
    exact ⟨⟨⟨1, 2, rfl, rfl⟩, by norm_num⟩, ⟨⟨1, 2, rfl, rfl⟩, by norm_num⟩,
      ⟨⟨1, 2, rfl, rfl⟩, by norm_num⟩⟩
  · intro p hp
    rw [List.mem_singleton] at hp
    subst hp
    intro c hc
    have hc32 : c = 3/2 := by simpa [wp] using hc
    subst hc32
    show QE.fin (3/2) ≠ QE.fin 10
    norm_num

/-- Extract a finite value; junk 0 on the infinities (only evaluated on
finite values in the modelled code paths, see the proofs below). -/
def QE.toRat : QE → ℚ
  | .fin q => q
  | _ => 0

/-- src/hit.rs ConstantMedium.  The leaked boundary Hittable is abstracted to
its hits function. -/
structure ConstantMedium where
  boundary : Ray → Interval → Option HitRecord
  neg_inv_density : ℚ
  phase_func : Material

/-- ConstantMedium::new_with_texture. -/
def ConstantMedium.new_with_texture (boundary : Ray → Interval → Option HitRecord)
    (density : ℚ) (texture : Texture) : ConstantMedium :=
  ⟨boundary, -1 / density, Material.isotropic texture⟩

/-- The tentative hit distance sampled inside the volume by
ConstantMedium::hits: neg_inv_density * log2(U) — the source takes the BASE-2
logarithm of the uniform draw (f64::log2), passed here as the oracle log2. -/
def cm_sample_dist (log2 : ℚ → ℚ) (neg_inv_density u : ℚ) : ℚ :=
  neg_inv_density * log2 u

/-- src/hit.rs ConstantMedium::hits; u is the uniform draw, log2 the f64 log2
oracle, rlen the f32 length of the ray direction (an oracle since it is a
square root). -/
def ConstantMedium.hits (cm : ConstantMedium) (log2 : ℚ → ℚ) (u rlen : ℚ)
    (r : Ray) (ray_t : Interval) : Option HitRecord :=
  match cm.boundary r Interval.UNIVERSE with
  | none => none
  | some hr1 =>
    match cm.boundary r (Interval.new (.fin (hr1.t + 1/10000)) .pinf) with
    | none => none
    | some hr2 =>
      let t1 : QE := max (.fin hr1.t) ray_t.min
      let t2 : QE := min (.fin hr2.t) ray_t.max
      if t2 < t1 then none
      else
        let t1' := max t1 (.fin 0)
        let dist_in_boundary := (t2 - t1') * .fin rlen
        let hit_dist := cm_sample_dist log2 cm.neg_inv_density u
        if dist_in_boundary < .fin hit_dist then none
        else
          let t := t1'.toRat + hit_dist / rlen
          some (HitRecord.new t (r.at' t) ⟨1, 0, 0⟩ r cm.phase_func 0 0)

/-- C5 counterexample: the distance the code samples is -log2(U)/density, not
-ln(U)/density.  At density 1 (neg_inv_density = -1) and U = 1/4 the code
computes distance 2, while the claimed formula gives -ln(1/4) = 2 ln 2,
which is strictly less than 2.  The second conjunct certifies that the log2
oracle used is the true base-2 logarithm at the consulted point. -/
theorem c5_counterexample :
    cm_sample_dist (fun q => if q = 1/4 then -2 else 0) (-1/1) (1/4) = 2
    ∧ Real.logb 2 ((1 : ℝ)/4) = ((-2 : ℚ) : ℝ)
    ∧ -Real.log ((1 : ℝ)/4) / 1 ≠ ((cm_sample_dist
        (fun q => if q = 1/4 then -2 else 0) (-1/1) (1/4) : ℚ) : ℝ) := by
  have hlog2 : Real.log 2 ≠ 0 := ne_of_gt (Real.log_pos one_lt_two)
  have hval : cm_sample_dist (fun q => if q = 1/4 then -2 else 0) (-1/1) (1/4) = 2 := by
    norm_num [cm_sample_dist]
  have hquarter : Real.log ((1 : ℝ)/4) = -(2 * Real.log 2) := by
    have h4 : ((1 : ℝ)/4) = ((2 : ℝ) ^ (2 : ℕ))⁻¹ := by norm_num
    rw [h4, Real.log_inv, Real.log_pow]
    norm_num
  refine ⟨hval, ?_, ?_⟩
  · rw [Real.logb, hquarter]
    field_simp
  · rw [hval, hquarter]
    have hlt : Real.log 2 < 1 := by
      have := Real.log_lt_sub_one_of_pos (by norm_num : (0 : ℝ) < 2) (by norm_num)
      linarith
    have hgt : (0 : ℝ) < Real.log 2 := Real.log_pos one_lt_two
    push_cast
    intro hcontra
    nlinarith

/-- C5 amended: ConstantMedium::hits samples the tentative distance as
neg_inv_density * log2(U) (an exponential with rate density * ln 2, not
density), and reports a hit exactly as the claim says otherwise: only when
the boundary is hit twice, the clamped entry does not exceed the clamped
exit, and the sampled distance does not exceed the geometric path length
(exit - entry) * |dir| through the volume; the reported t advances the entry
point by distance / |dir|. -/
theorem c5_amended (cm : ConstantMedium) (log2 : ℚ → ℚ) (u rlen : ℚ) (r : Ray)
    (ray_t : Interval) (hr : HitRecord)
    (hs : cm.hits log2 u rlen r ray_t = some hr) :
    ∃ hr1 hr2 : HitRecord,
      cm.boundary r Interval.UNIVERSE = some hr1
      ∧ cm.boundary r (Interval.new (.fin (hr1.t + 1/10000)) .pinf) = some hr2
      ∧ max (.fin hr1.t) ray_t.min ≤ min (.fin hr2.t) ray_t.max
      ∧ QE.fin (cm_sample_dist log2 cm.neg_inv_density u)
          ≤ (min (.fin hr2.t) ray_t.max
              - max (max (.fin hr1.t) ray_t.min) (.fin 0)) * .fin rlen
      ∧ hr.t = (max (max (.fin hr1.t) ray_t.min) (.fin 0)).toRat
          + cm_sample_dist log2 cm.neg_inv_density u / rlen := by
  unfold ConstantMedium.hits at hs
  cases h1 : cm.boundary r Interval.UNIVERSE with
  | none => rw [h1] at hs; exact absurd hs (by simp)
  | some hr1 =>
    rw [h1] at hs
    dsimp only at hs
    cases h2 : cm.boundary r (Interval.new (.fin (hr1.t + 1/10000)) .pinf) with
    | none => rw [h2] at hs; exact absurd hs (by simp)
    | some hr2 =>
      rw [h2] at hs
      dsimp only at hs
      refine ⟨hr1, hr2, rfl, h2, ?_⟩
      by_cases hcmp : min (.fin hr2.t) ray_t.max < max (.fin hr1.t) ray_t.min
      · rw [if_pos hcmp] at hs
        exact absurd hs (by simp)
      · rw [if_neg hcmp] at hs
        refine ⟨le_of_not_lt hcmp, ?_⟩
        by_cases hdist : (min (.fin hr2.t) ray_t.max
            - max (max (.fin hr1.t) ray_t.min) (.fin 0)) * .fin rlen
            < .fin (cm_sample_dist log2 cm.neg_inv_density u)
        · rw [if_pos hdist] at hs
          exact absurd hs (by simp)
        · rw [if_neg hdist] at hs
          refine ⟨le_of_not_lt hdist, ?_⟩
          have := (Option.some.injEq _ _).mp hs
          rw [← this]
          rfl

def c5boundary : Ray → Interval → Option HitRecord := fun _ i =>
  match i.min with
  | .ninf => some ⟨1, ⟨1, 0, 0⟩, ⟨1, 0, 0⟩, true, .dielectric 1, 0, 0⟩
  | _ => some ⟨3, ⟨3, 0, 0⟩, ⟨1, 0, 0⟩, true, .dielectric 1, 0, 0⟩

def c5medium : ConstantMedium :=
  ConstantMedium.new_with_texture c5boundary 1 (Texture.solid ⟨1, 1, 1⟩)

def c5ray1 : Ray := ⟨⟨0, 0, 0⟩, ⟨1, 0, 0⟩⟩

def c5log2 : ℚ → ℚ := fun q => if q = 1/4 then -2 else 0

def c5witnessrec : HitRecord :=
  ⟨3, ⟨3, 0, 0⟩, ⟨-1, 0, 0⟩, false, Material.isotropic (Texture.solid ⟨1, 1, 1⟩), 0, 0⟩

theorem c5witness_hits :
    c5medium.hits c5log2 (1/4) 1 c5ray1 (Interval.new (.fin 0) (.fin 10))
      = some c5witnessrec := by
  norm_num [ConstantMedium.hits, c5medium, c5boundary, c5ray1, c5log2,
    ConstantMedium.new_with_texture, cm_sample_dist, Interval.new,
    Interval.UNIVERSE, QE.toRat, Ray.at', HitRecord.new, c5witnessrec,
    V3.dot]

/-- Witness for the amended C5: a medium of density 1 whose boundary is
entered at t = 1 and left at t = 3, sampled with U = 1/4 (distance 2 = the
whole path length), reports the hit at t = 3. -/
theorem c5_amended_witness :
    ∃ hr1 hr2 : HitRecord,
      c5medium.boundary c5ray1 Interval.UNIVERSE = some hr1
      ∧ c5medium.boundary c5ray1 (Interval.new (.fin (hr1.t + 1/10000)) .pinf) = some hr2
      ∧ max (.fin hr1.t) (Interval.new (.fin 0) (.fin 10)).min
          ≤ min (.fin hr2.t) (Interval.new (.fin 0) (.fin 10)).max
      ∧ QE.fin (cm_sample_dist c5log2 c5medium.neg_inv_density (1/4))
          ≤ (min (.fin hr2.t) (Interval.new (.fin 0) (.fin 10)).max
              - max (max (.fin hr1.t) (Interval.new (.fin 0) (.fin 10)).min) (.fin 0))
            * .fin 1
      ∧ c5witnessrec.t = (max (max (.fin hr1.t) (Interval.new (.fin 0) (.fin 10)).min)
            (.fin 0)).toRat
          + cm_sample_dist c5log2 c5medium.neg_inv_density (1/4) / 1 :=
  c5_amended c5medium c5log2 (1/4) 1 c5ray1 (Interval.new (.fin 0) (.fin 10))
    c5witnessrec c5witness_hits

/-- C10: a hit record built by HitRecord::new has front_face set exactly when
the ray direction and the supplied outward normal have negative dot product,
and the stored normal always has non-positive dot product with the ray
direction (it never points along the incident ray). -/
theorem c10_hit_record_front_face_and_normal (t : ℚ) (p : P3) (outward : V3)
    (r : Ray) (mat : Material) (u v : ℚ) :
    ((HitRecord.new t p outward r mat u v).front_face = true ↔ r.dir.dot outward < 0)
    ∧ (HitRecord.new t p outward r mat u v).normal.dot r.dir ≤ 0 := by
  constructor
  · simp [HitRecord.new]
  · by_cases h : r.dir.dot outward < 0
    · have hn : (HitRecord.new t p outward r mat u v).normal = outward := by
        simp [HitRecord.new, h]
      rw [hn, V3.dot_comm]
      exact h.le
    · have hn : (HitRecord.new t p outward r mat u v).normal = -outward := by
        simp [HitRecord.new, h]
      rw [hn, V3.neg_dot, V3.dot_comm]
      exact neg_nonpos.mpr (le_of_not_lt h)

def c9box : AABBox :=
  AABBox.new (Interval.new (.fin 5) (.fin 1)) (Interval.new (.fin 0) (.fin 1))
    (Interval.new (.fin 0) (.fin 1))

/-- C9 counterexample: AABBox::new pads every constructed box, and padding a
box whose x interval is inverted (size below the minimum thickness) is not
idempotent, so new_enclosing(b, b) re-pads and differs from b. -/
theorem c9_counterexample : AABBox.new_enclosing c9box c9box ≠ c9box := by
  norm_num [c9box, AABBox.new, AABBox.new_enclosing, AABBox.pad_to_minimum,
    AABBox.padAxis, Interval.size, Interval.expand, Interval.new_enclosing,
    Interval.new]

/-- C9 amended: the Interval-level enclosing union is idempotent and absorbs
EMPTY on either side for every interval; the AABBox-level enclosing union is
idempotent and absorbs EMPTY for every box that is a fixpoint of
pad_to_minimum — which covers AABBox::EMPTY itself and every box whose axis
intervals already have at least the minimum thickness, i.e. every box built
from ordered extrema, but not artificial inverted boxes (see the
counterexample). -/
theorem c9_amended (i : Interval) (b : AABBox) (hb : b.pad_to_minimum = b) :
    Interval.new_enclosing i i = i
    ∧ Interval.new_enclosing i Interval.EMPTY = i
    ∧ Interval.new_enclosing Interval.EMPTY i = i
    ∧ AABBox.new_enclosing b b = b
    ∧ AABBox.new_enclosing b AABBox.EMPTY = b
    ∧ AABBox.new_enclosing AABBox.EMPTY b = b := by
  refine ⟨interval_new_enclosing_self i, interval_new_enclosing_empty_right i,
    interval_new_enclosing_empty_left i, ?_, ?_, ?_⟩
  · show AABBox.pad_to_minimum ⟨_, _, _⟩ = b
    rw [interval_new_enclosing_self, interval_new_enclosing_self,
      interval_new_enclosing_self]
    exact hb
  · show AABBox.pad_to_minimum ⟨_, _, _⟩ = b
    rw [aabbox_empty_eq]
    rw [interval_new_enclosing_empty_right, interval_new_enclosing_empty_right,
      interval_new_enclosing_empty_right]
    exact hb
  · show AABBox.pad_to_minimum ⟨_, _, _⟩ = b
    rw [aabbox_empty_eq]
    rw [interval_new_enclosing_empty_left, interval_new_enclosing_empty_left,
      interval_new_enclosing_empty_left]
    exact hb

/-- Witness for C9 amended at a concrete padded box. -/
theorem c9_amended_witness :
    Interval.new_enclosing (Interval.new (.fin 2) (.fin 3)) (Interval.new (.fin 2) (.fin 3))
        = Interval.new (.fin 2) (.fin 3)
    ∧ Interval.new_enclosing (Interval.new (.fin 2) (.fin 3)) Interval.EMPTY
        = Interval.new (.fin 2) (.fin 3)
    ∧ Interval.new_enclosing Interval.EMPTY (Interval.new (.fin 2) (.fin 3))
        = Interval.new (.fin 2) (.fin 3)
    ∧ AABBox.new_enclosing (AABBox.new_from_points ⟨0, 0, 0⟩ ⟨1, 1, 1⟩)
        (AABBox.new_from_points ⟨0, 0, 0⟩ ⟨1, 1, 1⟩)
        = AABBox.new_from_points ⟨0, 0, 0⟩ ⟨1, 1, 1⟩
    ∧ AABBox.new_enclosing (AABBox.new_from_points ⟨0, 0, 0⟩ ⟨1, 1, 1⟩) AABBox.EMPTY
        = AABBox.new_from_points ⟨0, 0, 0⟩ ⟨1, 1, 1⟩
    ∧ AABBox.new_enclosing AABBox.EMPTY (AABBox.new_from_points ⟨0, 0, 0⟩ ⟨1, 1, 1⟩)
        = AABBox.new_from_points ⟨0, 0, 0⟩ ⟨1, 1, 1⟩ :=
  c9_amended (Interval.new (.fin 2) (.fin 3)) (AABBox.new_from_points ⟨0, 0, 0⟩ ⟨1, 1, 1⟩)
    (by norm_num [AABBox.new_from_points, AABBox.pad_to_minimum, AABBox.padAxis,
      Interval.size, Interval.new])

def c6box : AABBox := AABBox.new_from_points ⟨-2, -2, -2⟩ ⟨-1, -1, -1⟩

def c6ray : Ray := ⟨⟨0, 0, 0⟩, ⟨1, 1, 1⟩⟩

def c6int : Interval := Interval.new (.fin (-5)) (.fin 5)

/-- C6 counterexample: for a box entirely behind the ray origin and a query
interval reaching into negative t, the boolean slab test AABBox::hits
(src/bbox.rs) reports a hit although the far bound is non-positive — it does
not include the positivity condition the claim states. -/
theorem c6_counterexample :
    AABBox.hits c6box c6ray c6int
    ∧ min c6int.max (c6box.slab_far c6ray) ≤ QE.fin 0
    ∧ c6box.hit_dist c6ray c6int = .pinf := by
  norm_num [c6box, c6ray, c6int, AABBox.hits, AABBox.hit_dist, AABBox.slab_far,
    AABBox.slab_near, AABBox.slabT1, AABBox.slabT2, AABBox.new_from_points,
    AABBox.pad_to_minimum, AABBox.padAxis, Interval.size, Interval.new,
    Ray.inv_dir, Interval.expand]

/-- C6 amended: the distance-returning slab test hit_dist (src/bvh.rs, both
the AABBox and the Node copy) reports a hit exactly when
max(ray_t.min, per-axis nears) <= min(ray_t.max, per-axis fars) AND that far
bound is positive, returning the near bound clamped to non-negative on a hit
and +infinity on a miss; the boolean variant AABBox::hits (src/bbox.rs) tests
only the first condition, without the positivity requirement. -/
theorem c6_amended (b : AABBox) (r : Ray) (ray_t : Interval) :
    (AABBox.hits b r ray_t ↔
      max ray_t.min (b.slab_near r) ≤ min ray_t.max (b.slab_far r))
    ∧ (b.hit_dist r ray_t =
        if max ray_t.min (b.slab_near r) ≤ min ray_t.max (b.slab_far r)
            ∧ QE.fin 0 < min ray_t.max (b.slab_far r)
        then max (max ray_t.min (b.slab_near r)) (.fin 0) else .pinf)
    ∧ (b.hit_dist r ray_t ≠ .pinf → AABBox.hits b r ray_t
        ∧ QE.fin 0 < min ray_t.max (b.slab_far r)) := by
  refine ⟨Iff.rfl, rfl, ?_⟩
  intro h
  unfold AABBox.hit_dist at h
  unfold AABBox.hits
  by_cases hc : max ray_t.min (b.slab_near r) ≤ min ray_t.max (b.slab_far r)
      ∧ QE.fin 0 < min ray_t.max (b.slab_far r)
  · exact hc
  · rw [if_neg hc] at h
    exact absurd rfl h

/-- Witness instantiating the conditional part of the amended C6 at a box in
front of the ray origin. -/
theorem c6_amended_witness :
    AABBox.hits (AABBox.new_from_points ⟨1, 1, 1⟩ ⟨2, 2, 2⟩) c6ray
      (Interval.new (.fin (1/1000)) (.fin 10))
    ∧ QE.fin 0 < min (Interval.new (.fin (1/1000)) (.fin 10)).max
        ((AABBox.new_from_points ⟨1, 1, 1⟩ ⟨2, 2, 2⟩).slab_far c6ray) :=
  (c6_amended (AABBox.new_from_points ⟨1, 1, 1⟩ ⟨2, 2, 2⟩) c6ray
    (Interval.new (.fin (1/1000)) (.fin 10))).2.2
    (by
      norm_num [AABBox.hit_dist, AABBox.slab_far, AABBox.slab_near,
        AABBox.slabT1, AABBox.slabT2, AABBox.new_from_points, AABBox.pad_to_minimum,
        AABBox.padAxis, Interval.size, Interval.new, Ray.inv_dir, Interval.expand,
        c6ray]
      decide)

/-- C3 counterexample: when the left child is the nearer one (ldist < rdist,
both below ray_t.max), Bvh::hits writes the NEARER child at stack position i
first and the FARTHER child at position i+1 last; the traversal pops the
highest occupied position first, so the FARTHER child is processed before the
nearer one — the opposite of the claimed order.  Here the interior node's
children are 5 (near, dist 1) and 6 (far, dist 2): after the expansion the
stack holds 5 at position 0 and 6 at position 1, and the next pop reads
position i - 1 = 1, i.e. the farther child 6. -/
theorem c3_counterexample :
    expandNode (List.replicate MAX_BVH_DEPTH 0) 0 5 (.fin 1) (.fin 2) (.fin 10)
      = some ((((List.replicate MAX_BVH_DEPTH 0).set 0 5).set 1 6), 2)
    ∧ (((List.replicate MAX_BVH_DEPTH 0).set 0 5).set 1 6).getD 0 0 = 5
    ∧ (((List.replicate MAX_BVH_DEPTH 0).set 0 5).set 1 6).getD (2 - 1) 0 = 6
    ∧ QE.fin 1 < QE.fin 2 := by
  refine ⟨?_, by decide, by decide, by decide⟩
  norm_num [expandNode, pushChild, MAX_BVH_DEPTH]

/-- C3 amended: in each interior expansion the children are ordered by box
distance into a nearer child a and farther child b (left child when
ldist < rdist, right child otherwise — ties go to the right child); the
NEARER child is pushed first (at position i) and the FARTHER child last (at
position i+1, on top, hence popped and processed first); a child is pushed
only if its box-hit distance is strictly below the current ray_t.max.  Both
source branches are characterized: conjuncts 1-2 cover ldist < rdist (left
child nearer), conjuncts 3-4 the else branch rdist <= ldist (right child
nearer), conjunct 5 the no-push case (if the nearer distance reaches
ray_t.max so does the farther one, so these five cases are exhaustive). -/
theorem c3_amended (stack : List ℕ) (i ns : ℕ) (ldist rdist m : QE)
    (hcap : i + 1 < MAX_BVH_DEPTH) :
    (ldist < rdist → ldist < m → rdist < m →
      expandNode stack i ns ldist rdist m
        = some ((stack.set i ns).set (i + 1) (ns + 1), i + 2))
    ∧ (ldist < rdist → ldist < m → ¬ rdist < m →
      expandNode stack i ns ldist rdist m = some (stack.set i ns, i + 1))
    ∧ (¬ ldist < rdist → rdist < m → ldist < m →
      expandNode stack i ns ldist rdist m
        = some ((stack.set i (ns + 1)).set (i + 1) ns, i + 2))
    ∧ (¬ ldist < rdist → rdist < m → ¬ ldist < m →
      expandNode stack i ns ldist rdist m = some (stack.set i (ns + 1), i + 1))
    ∧ (¬ ldist < m → ¬ rdist < m →
      expandNode stack i ns ldist rdist m = some (stack, i)) := by
  have hi : i < MAX_BVH_DEPTH := by omega
  refine ⟨?_, ?_, ?_, ?_, ?_⟩
  · intro hlr hl hrm
    simp [expandNode, pushChild, hlr, hl, hrm, hi, hcap]
  · intro hlr hl hrm
    simp [expandNode, pushChild, hlr, hl, hrm, hi]
  · intro hlr hr hlm
    simp [expandNode, pushChild, hlr, hr, hlm, hi, hcap]
  · intro hlr hr hlm
    simp [expandNode, pushChild, hlr, hr, hlm, hi]
  · intro hl hrm
    by_cases hlr : ldist < rdist <;>
      simp [expandNode, pushChild, hlr, hl, hrm]

/-- Witness for the amended C3, exercising BOTH source branches at concrete
inputs: with ldist = 1 < rdist = 2 the left child ns = 5 is the nearer one
and lands at position i = 0 with the farther child 6 on top; with the
mirrored distances ldist = 2, rdist = 1 the right child 6 is the nearer one
and lands at position 0 with the farther child 5 on top. -/
theorem c3_amended_witness :
    expandNode (List.replicate MAX_BVH_DEPTH 0) 0 5 (.fin 1) (.fin 2) (.fin 10)
      = some ((((List.replicate MAX_BVH_DEPTH 0).set 0 5).set 1 6), 0 + 2)
    ∧ expandNode (List.replicate MAX_BVH_DEPTH 0) 0 5 (.fin 2) (.fin 1) (.fin 10)
      = some ((((List.replicate MAX_BVH_DEPTH 0).set 0 6).set 1 5), 0 + 2) :=
  ⟨(c3_amended (List.replicate MAX_BVH_DEPTH 0) 0 5 (.fin 1) (.fin 2) (.fin 10)
      (by decide)).1 (by decide) (by decide) (by decide),
   (c3_amended (List.replicate MAX_BVH_DEPTH 0) 0 5 (.fin 2) (.fin 1) (.fin 10)
      (by decide)).2.2.1 (by decide) (by decide) (by decide)⟩

def sq25 : ℚ → ℚ := fun q => if q = 25 then 5 else 0

def c7ray : Ray := ⟨⟨0, 0, 0⟩, ⟨3, -4, 0⟩⟩

def c7rec : HitRecord := ⟨1, ⟨0, 0, 0⟩, ⟨0, 1, 0⟩, true, .dielectric 1, 0, 0⟩

/-- C7 counterexample: Metal scatter with fuzz = 0 normalizes the reflected
direction before use, so the scattered direction is the unit vector of the
ideal reflection, not the ideal reflection itself: for an incoming direction
(3,-4,0) against normal (0,1,0) the ideal reflection is (3,4,0) (length 5)
while the scattered direction is (3/5,4/5,0).  The last two conjuncts certify
that the sqrt oracle is honest at the one point where it is consulted. -/
theorem c7_counterexample :
    (metal_scatter sq25 ⟨1, 1, 1⟩ 0 ⟨0, 0, 1⟩ c7ray c7rec).map (fun rc => rc.1.dir)
        = some ⟨3/5, 4/5, 0⟩
    ∧ c7ray.dir.reflect c7rec.normal = ⟨3, 4, 0⟩
    ∧ (⟨3/5, 4/5, 0⟩ : V3) ≠ (⟨3, 4, 0⟩ : V3)
    ∧ sq25 25 * sq25 25 = 25 ∧ 0 ≤ sq25 25 := by
  norm_num [metal_scatter, sq25, c7ray, c7rec, V3.reflect, V3.unit_vector,
    V3.square_length, V3.dot]

/-- C7 amended: whenever Metal scatter with fuzz = 0 returns a scattered ray,
the scattered direction is a positive scalar multiple of
incoming_dir - 2*(incoming_dir . normal)*normal — the normalization of the
ideal mirror reflection, not the reflection itself (the f32 square root of
the reflection's positive squared length is positive, which is the hpos
hypothesis on the oracle). -/
theorem c7_amended (sq : ℚ → ℚ) (albedo rnd : V3) (r_in : Ray) (hr : HitRecord)
    (ray : Ray) (col : V3)
    (hpos : 0 < sq (r_in.dir.reflect hr.normal).square_length)
    (hs : metal_scatter sq albedo 0 rnd r_in hr = some (ray, col)) :
    ∃ k : ℚ, 0 < k ∧ ray.dir = k • (r_in.dir.reflect hr.normal) := by
  simp only [metal_scatter] at hs
  split at hs
  · refine ⟨1 / sq (r_in.dir.reflect hr.normal).square_length,
      one_div_pos.mpr hpos, ?_⟩
    have hray : ray = Ray.mk hr.p
        ((r_in.dir.reflect hr.normal).unit_vector sq + (0 : ℚ) • rnd) := by
      have h2 := hs
      simp only [Option.some.injEq, Prod.mk.injEq] at h2
      exact h2.1.symm
    rw [hray]
    show (r_in.dir.reflect hr.normal).unit_vector sq + (0 : ℚ) • rnd = _
    simp [V3.unit_vector]
  · simp at hs

/-- Witness for C7 amended at the concrete counterexample input. -/
theorem c7_amended_witness :
    ∃ k : ℚ, 0 < k
      ∧ (Ray.mk (⟨0, 0, 0⟩ : P3) (⟨3/5, 4/5, 0⟩ : V3)).dir
          = k • (c7ray.dir.reflect c7rec.normal) :=
  c7_amended sq25 ⟨1, 1, 1⟩ ⟨0, 0, 1⟩ c7ray c7rec _ ⟨1, 1, 1⟩
    (by norm_num [sq25, c7ray, c7rec, V3.reflect, V3.square_length, V3.dot])
    (by norm_num [metal_scatter, sq25, c7ray, c7rec, V3.reflect, V3.unit_vector,
      V3.square_length, V3.dot])

/-- C8: at normal incidence (incoming direction a negative multiple of the
unit hit normal, which by C10 is how every hit record presents it), the
dielectric cannot_refract test (ri * sin_theta > 1) is false for every
refractive index above 1, on both faces: cos_theta computes to 1, so
sin_theta is the square root of 0, and the product ri * 0 never exceeds 1.
The sq hypotheses pin the f32 sqrt oracle at the two points consulted. -/
theorem c8_dielectric_normal_incidence_no_tir (sq : ℚ → ℚ) (ref_index c : ℚ)
    (r_in : Ray) (hr : HitRecord)
    (hri : 1 < ref_index)
    (hn : hr.normal.dot hr.normal = 1)
    (hpar : r_in.dir = c • hr.normal)
    (hc : c < 0)
    (hsq : sq r_in.dir.square_length = -c)
    (h0 : sq 0 = 0) :
    dielectric_cannot_refract sq ref_index r_in hr = false := by
  have hcne : c ≠ 0 := ne_of_lt hc
  have hdot : ((r_in.dir.unit_vector sq).dot hr.normal) = -1 := by
    unfold V3.unit_vector
    rw [hsq, hpar]
    rw [V3.dot_smul_left, V3.dot_smul_left, hn]
    field_simp
  have hgoal : dielectric_cannot_refract sq ref_index r_in hr
      = decide (1 < dielectric_ri ref_index hr
          * sq (1 - (min (-((r_in.dir.unit_vector sq).dot hr.normal)) 1)
              * (min (-((r_in.dir.unit_vector sq).dot hr.normal)) 1))) := rfl
  rw [hgoal, hdot]
  norm_num [h0]

/-- Witness for C8 at refractive index 3/2, direction (0,0,-2) against unit
normal (0,0,1). -/
theorem c8_witness :
    dielectric_cannot_refract (fun q => if q = 4 then 2 else 0) (3/2)
      (⟨⟨0, 0, 0⟩, ⟨0, 0, -2⟩⟩ : Ray)
      (⟨1, ⟨0, 0, 0⟩, ⟨0, 0, 1⟩, true, .dielectric (3/2), 0, 0⟩ : HitRecord) = false :=
  c8_dielectric_normal_incidence_no_tir _ (3/2) (-2) _ _
    (by norm_num)
    (by norm_num [V3.dot])
    (by norm_num [V3.smul_def])
    (by norm_num)
    (by norm_num [V3.square_length, V3.dot])
    (by norm_num)

end Raymart
